import Mathlib

/-!
# Task::future — a shallow embedding of `src/src/task.h`

The header implements futures on top of Qt threads.  Every object of the
library lives in the thread that created it; the only things that happen
asynchronously are

* the background thread of a `ThreadHelper` returning from `run()`
  (which emits `finished()` and thereby queues `deleteLater()`), and
* the event loop delivering a deferred delete, which runs `~ThreadHelper`.

The embedding is therefore a state machine: a `World` holds the heap of
`ThreadHelper` objects, the one future made by `_private_future`, the state
the caller's continuations act on, and a trace of what was observed.  Public
methods are functions `World → World`; the two asynchronous happenings are
the constructors of `Env`, and a schedule is a list of them.

A `WorkItem` is a pure function returning a value, so it is represented by
that value; `T()` is `default`, and so is the initial content of the
default-initialised members and locals of type `T` (`m_result`, `q`).
-/

set_option linter.unusedSectionVars false

namespace QtTask

/-! ## The program: data model and operations -/

/-- Life cycle of the `QThread` base of a `ThreadHelper`. -/
inductive ThreadState
  | notStarted
  | running
  | finished
  deriving DecidableEq, Repr

/-- Address of a `future<T>`: the member `m_future` of the `ThreadHelper` at
index `i` of the heap, or the future made by `_private_future`. -/
inductive Ref
  | helper (i : Nat)
  | top
  deriving DecidableEq, Repr

/-- Contents of a `std::function< void( T ) >` slot.  Besides a function
supplied by the caller these are the three closures the header itself
builds; each is stored as data and interpreted by `call`. -/
inductive Fn (T σ : Type)
  /-- a continuation supplied by the caller -/
  | user (f : T → σ → σ)
  /-- the closure `[ & ]( T&& e )` that `_start` of `this` builds for `m_tasks[ j ]` -/
  | start_lambda (this : Ref) (j : Nat)
  /-- the closure `[ this ]( T&& e )` that `_queue` builds -/
  | queue_lambda (this : Ref)
  /-- the closure `[ & ]( T&& r )` that `await` builds -/
  | await_lambda

/-- What an observer of the program sees, in order. -/
inductive Event (T : Type)
  /-- `QThread::start()` launched the thread of helper `i` -/
  | started (i : Nat)
  /-- the WorkItem of helper `i` was executed, in its background thread or
  on the calling thread -/
  | work (i : Nat) (background : Bool)
  /-- the per-child continuation `m_tasks[ j ].second` was called with `v` -/
  | child (j : Nat) (v : T)
  /-- the caller's value continuation of future `r` was called with `v` -/
  | value (r : Ref) (v : T)
  /-- the caller's no-value continuation of future `r` was called -/
  | novalue (r : Ref)
  /-- `deleteLater()` was called on `r` (for a helper: on the `ThreadHelper`) -/
  | deleteLater (r : Ref)
  deriving DecidableEq, Repr

/-- Data members of `future<T>`.  The closures `m_start`, `m_cancel` and
`m_get` are fixed by the constructor call and are read off `m_thread`:
`ThreadHelper` passes `this` and closures over itself, `_private_future`
passes `nullptr` and no-ops (see `m_start`, `m_cancel`, `m_get`).  A child
pointer in `m_tasks` is the heap index of the `ThreadHelper` whose future it
is: `_private_add` is only ever handed the result of `Task::run< E >`. -/
structure future (T σ : Type) where
  m_thread : Option Nat
  m_function : Option (Fn T σ)
  m_function_1 : Option (σ → σ)
  m_tasks : List (Nat × (T → σ → σ))
  m_threads : List (Option Nat)
  m_counter : Nat

/-- A `ThreadHelper<T>` object: its members, the state of its `QThread` base
and whether a deferred delete is pending or has been carried out. -/
structure ThreadHelper (T σ : Type) where
  m_function : T
  m_future : future T σ
  m_result : T
  thread : ThreadState
  deferredDelete : Bool
  deleted : Bool

/-- Program state. `q` and `exited` are the locals `q` and `p` of the
`await` frame. -/
structure World (T σ : Type) where
  helpers : List (ThreadHelper T σ)
  top : future T σ
  user : σ
  trace : List (Event T)
  q : T
  exited : Bool

/-- The two things that happen outside the caller's control. -/
inductive Env
  /-- the background thread of helper `i` returns from `ThreadHelper::run()` -/
  | finish (i : Nat)
  /-- the event loop delivers the deferred delete of helper `i` -/
  | dispose (i : Nat)
  deriving DecidableEq, Repr

variable {T σ : Type} [Inhabited T]

/-- Constructor `future( QThread * e,start,cancel,get )`. -/
def future.ctor (e : Option Nat) : future T σ :=
  { m_thread := e
    m_function := none
    m_function_1 := none
    m_tasks := []
    m_threads := match e with
      | some t => [some t]
      | none => []
    m_counter := 0 }

/-- Constructor `ThreadHelper( std::function< T() >&& function )` for the
object allocated at heap index `this`. -/
def ThreadHelper.ctor (this : Nat) (function : T) : ThreadHelper T σ :=
  { m_function := function
    m_future := future.ctor (some this)
    m_result := default
    thread := ThreadState.notStarted
    deferredDelete := false
    deleted := false }

/-- `_private_future< T >()()`. -/
def _private_future : future T σ := future.ctor none

/-- The empty program state: no helper allocated yet. -/
def World.init (u : σ) : World T σ :=
  { helpers := []
    top := _private_future
    user := u
    trace := []
    q := default
    exited := false }

/-- Read the future at `r`. -/
def getFuture (r : Ref) (w : World T σ) : Option (future T σ) :=
  match r with
  | Ref.top => some w.top
  | Ref.helper i => (w.helpers[i]?).map (fun h => h.m_future)

/-- Replace element `i` of a list by its image under `g`. -/
def updAt {α : Type} (g : α → α) : Nat → List α → List α
  | _, [] => []
  | 0, x :: xs => g x :: xs
  | i + 1, x :: xs => x :: updAt g i xs

/-- Write to the helper at index `i`. -/
def modifyHelper (i : Nat) (g : ThreadHelper T σ → ThreadHelper T σ) (w : World T σ) :
    World T σ :=
  { w with helpers := updAt g i w.helpers }

/-- Write to the future at `r`. -/
def modifyFuture (r : Ref) (g : future T σ → future T σ) (w : World T σ) : World T σ :=
  match r with
  | Ref.top => { w with top := g w.top }
  | Ref.helper i => modifyHelper i (fun h => { h with m_future := g h.m_future }) w

/-- Append an event to the trace. -/
def emit (e : Event T) (w : World T σ) : World T σ :=
  { w with trace := w.trace ++ [e] }

/-- `QThread::start()` on helper `i`: does nothing while the thread is
running, otherwise launches it. -/
def QThread_start (i : Nat) (w : World T σ) : World T σ :=
  match w.helpers[i]? with
  | none => w
  | some h =>
    if h.thread = ThreadState.running then w
    else emit (Event.started i) (modifyHelper i (fun h => { h with thread := ThreadState.running }) w)

/-- `QObject::deleteLater()` on the future or helper at `r`. -/
def deleteLater (r : Ref) (w : World T σ) : World T σ :=
  match r with
  | Ref.top => emit (Event.deleteLater Ref.top) w
  | Ref.helper i =>
    emit (Event.deleteLater (Ref.helper i)) (modifyHelper i (fun h => { h with deferredDelete := true }) w)

/-- The member closure `m_start` of `f`. -/
def m_start (f : future T σ) (w : World T σ) : World T σ :=
  match f.m_thread with
  | some i => QThread_start i w
  | none => w

/-- The member closure `m_cancel` of `f`. -/
def m_cancel (f : future T σ) (w : World T σ) : World T σ :=
  match f.m_thread with
  | some i => deleteLater (Ref.helper i) w
  | none => w

/-- The member closure `m_get` of `f`:
`this->deleteLater() ; return m_function()` for a helper, `return T()`
for a private future. -/
def m_get (f : future T σ) (w : World T σ) : T × World T σ :=
  match f.m_thread with
  | some i =>
    let w1 := deleteLater (Ref.helper i) w
    match w1.helpers[i]? with
    | some h => (h.m_function, emit (Event.work i false) w1)
    | none => (default, w1)
  | none => (default, w)

/-- `future<T>::manages_multiple_futures()`. -/
def manages_multiple_futures (f : future T σ) : Bool :=
  decide (f.m_tasks.length > 0)

/-- `future<T>::all_threads()`. -/
def all_threads (f : future T σ) : List (Option Nat) :=
  f.m_threads

/-- `this->deleteLater()` inside a method of the future at `this`. -/
def future_deleteLater (this : Ref) (w : World T σ) : World T σ :=
  emit (Event.deleteLater this) w

/-- The loop of `future<T>::_start()`: `it.first->then( [ & ]( T&& e ){ ... } )`
for every element of `m_tasks`, in order; `j` is the index of `it`. -/
def _start_loop (thenChild : Nat → Fn T σ → World T σ → World T σ) (this : Ref) :
    Nat → List (Nat × (T → σ → σ)) → World T σ → World T σ
  | _, [], w => w
  | j, it :: rest, w =>
    _start_loop thenChild this (j + 1) rest (thenChild it.1 (Fn.start_lambda this j) w)

/-- `future<T>::_start()`. -/
def _start (thenChild : Nat → Fn T σ → World T σ → World T σ) (this : Ref)
    (w : World T σ) : World T σ :=
  match getFuture this w with
  | none => w
  | some f => _start_loop thenChild this 0 f.m_tasks w

/-- `future<T>::start()`, with the method `then` of the children passed in. -/
def startWith (thenChild : Nat → Fn T σ → World T σ → World T σ) (this : Ref)
    (w : World T σ) : World T σ :=
  match getFuture this w with
  | none => w
  | some f =>
    if manages_multiple_futures f = true then _start thenChild this w else m_start f w

/-- `future<T>::then( std::function< void( T ) > )`, with the method `then`
of the children passed in. -/
def thenWith (thenChild : Nat → Fn T σ → World T σ → World T σ) (this : Ref)
    (function : Fn T σ) (w : World T σ) : World T σ :=
  startWith thenChild this (modifyFuture this (fun f => { f with m_function := some function }) w)

/-- `then` on the future of helper `i`.  The recursion of `then` through
`start` and `_start` into the children is unrolled here: the future of a
`ThreadHelper` has no children of its own. -/
def then_child (i : Nat) (function : Fn T σ) (w : World T σ) : World T σ :=
  thenWith (fun _ _ w => w) (Ref.helper i) function w

/-- `future<T>::start()`. -/
def start (this : Ref) (w : World T σ) : World T σ :=
  startWith then_child this w

/-- `future<T>::then( std::function< void( T ) > function )`. -/
def then_ (this : Ref) (function : Fn T σ) (w : World T σ) : World T σ :=
  thenWith then_child this function w

/-- `future<T>::then( std::function< void() > function )`. -/
def then_1 (this : Ref) (function : σ → σ) (w : World T σ) : World T σ :=
  start this (modifyFuture this (fun f => { f with m_function_1 := some function }) w)

/-- `future<T>::_queue()`. -/
def _queue (this : Ref) (w : World T σ) : World T σ :=
  match getFuture this w with
  | none => w
  | some f =>
    match f.m_tasks[f.m_counter]? with
    | some it => then_child it.1 (Fn.queue_lambda this) w
    | none => w

/-- `future<T>::queue( std::function< void() > function )`. -/
def queue (this : Ref) (function : σ → σ) (w : World T σ) : World T σ :=
  match getFuture this w with
  | none => w
  | some f =>
    if manages_multiple_futures f = true then
      _queue this (modifyFuture this (fun f => { f with m_function_1 := some function }) w)
    else then_1 this function w

/-- Call a caller-supplied `std::function< void() >` stored in future `r`. -/
def call_novalue (r : Ref) (g : σ → σ) (w : World T σ) : World T σ :=
  emit (Event.novalue r) { w with user := g w.user }

/-- Call the `std::function< void( T ) >` `fn`, stored in the future `owner`,
with argument `e`.  The closures built by `_start` and `_queue` run their
bodies on the future they captured; `inner` calls a slot of that future. -/
def callWith (inner : Ref → Fn T σ → T → World T σ → World T σ) (owner : Ref)
    (fn : Fn T σ) (e : T) (w : World T σ) : World T σ :=
  match fn with
  | Fn.user f => emit (Event.value owner e) { w with user := f e w.user }
  | Fn.await_lambda => { w with q := e, exited := true }
  | Fn.start_lambda this j =>
    let w1 := modifyFuture this (fun f => { f with m_counter := f.m_counter + 1 }) w
    match getFuture this w1 with
    | none => w1
    | some f =>
      let w2 := match f.m_tasks[j]? with
        | some it => emit (Event.child j e) { w1 with user := it.2 e w1.user }
        | none => w1
      if f.m_counter = f.m_tasks.length then
        let w3 := match f.m_function_1 with
          | some g => call_novalue this g w2
          | none =>
            match f.m_function with
            | some h => inner this h default w2
            | none => w2
        future_deleteLater this w3
      else w2
  | Fn.queue_lambda this =>
    match getFuture this w with
    | none => w
    | some f =>
      let w1 := match f.m_tasks[f.m_counter]? with
        | some it => emit (Event.child f.m_counter e) { w with user := it.2 e w.user }
        | none => w
      let w2 := modifyFuture this (fun f => { f with m_counter := f.m_counter + 1 }) w1
      if f.m_counter + 1 = f.m_tasks.length then
        let w3 := match f.m_function_1 with
          | some g => call_novalue this g w2
          | none => w2
        future_deleteLater this w3
      else _queue this w2

/-- Calling a slot of a future that is nobody's child: the closures of
`_start` and `_queue` are only ever stored in children. -/
def call_top (owner : Ref) (fn : Fn T σ) (e : T) (w : World T σ) : World T σ :=
  callWith (fun _ _ _ w => w) owner fn e w

/-- Calling a `std::function< void( T ) >` slot. -/
def call (owner : Ref) (fn : Fn T σ) (e : T) (w : World T σ) : World T σ :=
  callWith call_top owner fn e w

/-- `future<T>::run( T&& r )`. -/
def future_run (this : Ref) (r : T) (w : World T σ) : World T σ :=
  match getFuture this w with
  | none => w
  | some f =>
    match f.m_function_1 with
    | some g => call_novalue this g w
    | none =>
      match f.m_function with
      | some fn => call this fn r w
      | none => w

/-- `ThreadHelper<T>::run()` returning in the background thread of helper
`i`: `m_result = m_function()`, after which `finished()` is emitted and the
connection made in `Thread()` calls `deleteLater()`. -/
def ThreadHelper_run (i : Nat) (w : World T σ) : World T σ :=
  match w.helpers[i]? with
  | none => w
  | some h =>
    if h.thread = ThreadState.running ∧ h.deleted = false then
      deleteLater (Ref.helper i)
        (emit (Event.work i true)
          (modifyHelper i (fun h => { h with m_result := h.m_function, thread := ThreadState.finished }) w))
    else w

/-- `~ThreadHelper()` of helper `i`, run by the event loop when a deferred
delete is pending: `m_future.run( std::move( m_result ) )`. -/
def ThreadHelper_dtor (i : Nat) (w : World T σ) : World T σ :=
  match w.helpers[i]? with
  | none => w
  | some h =>
    if h.deferredDelete = true ∧ h.deleted = false then
      modifyHelper i (fun h => { h with deleted := true }) (future_run (Ref.helper i) h.m_result w)
    else w

/-- One asynchronous happening. -/
def step (e : Env) (w : World T σ) : World T σ :=
  match e with
  | Env.finish i => ThreadHelper_run i w
  | Env.dispose i => ThreadHelper_dtor i w

/-- A schedule of asynchronous happenings, processed in order. -/
def runEnv : List Env → World T σ → World T σ
  | [], w => w
  | e :: es, w => runEnv es (step e w)

/-- The loop of `future<T>::get()` over `m_tasks`:
`it.second( it.first->get() )`. -/
def get_loop (getChild : Nat → World T σ → T × World T σ) :
    Nat → List (Nat × (T → σ → σ)) → World T σ → World T σ
  | _, [], w => w
  | j, it :: rest, w =>
    let r := getChild it.1 w
    get_loop getChild (j + 1) rest (emit (Event.child j r.1) { r.2 with user := it.2 r.1 r.2.user })

/-- `future<T>::get()`, with the method `get` of the children passed in. -/
def getWith (getChild : Nat → World T σ → T × World T σ) (this : Ref)
    (w : World T σ) : T × World T σ :=
  match getFuture this w with
  | none => (default, w)
  | some f =>
    if manages_multiple_futures f = true then
      (default, future_deleteLater this (get_loop getChild 0 f.m_tasks w))
    else m_get f w

/-- `get` on the future of helper `i` (which has no children). -/
def get_child (i : Nat) (w : World T σ) : T × World T σ :=
  getWith (fun _ w => (default, w)) (Ref.helper i) w

/-- `future<T>::get()`. -/
def get (this : Ref) (w : World T σ) : T × World T σ :=
  getWith get_child this w

/-- The loop of `future<T>::cancel()` over `m_tasks`. -/
def cancel_loop (cancelChild : Nat → World T σ → World T σ) :
    List (Nat × (T → σ → σ)) → World T σ → World T σ
  | [], w => w
  | it :: rest, w => cancel_loop cancelChild rest (cancelChild it.1 w)

/-- `future<T>::cancel()`, with the method `cancel` of the children passed in. -/
def cancelWith (cancelChild : Nat → World T σ → World T σ) (this : Ref)
    (w : World T σ) : World T σ :=
  match getFuture this w with
  | none => w
  | some f =>
    if manages_multiple_futures f = true then
      future_deleteLater this (cancel_loop cancelChild f.m_tasks w)
    else m_cancel f w

/-- `cancel` on the future of helper `i` (which has no children). -/
def cancel_child (i : Nat) (w : World T σ) : World T σ :=
  cancelWith (fun _ w => w) (Ref.helper i) w

/-- `future<T>::cancel()`. -/
def cancel (this : Ref) (w : World T σ) : World T σ :=
  cancelWith cancel_child this w

/-- `QEventLoop::exec()` of the loop `p` of `await`: events are handled
until a handler has called `p.exit()`.  `none`: the schedule ended with the
loop still running. -/
def exec : List Env → World T σ → Option (World T σ)
  | [], w => if w.exited = true then some w else none
  | e :: es, w => if w.exited = true then some w else exec es (step e w)

/-- `future<T>::await()`; `sched` is what happens while the event loop runs. -/
def await (this : Ref) (sched : List Env) (w : World T σ) : Option (T × World T σ) :=
  let w1 := modifyFuture this (fun f => { f with m_function := some Fn.await_lambda })
    { w with q := default, exited := false }
  (exec sched (start this w1)).map (fun w2 => (w2.q, w2))

/-- `Task::run( std::function< T() > function )`:
`( new ThreadHelper<T>( function ) )->Future()`.  The result is the heap
index of the new helper. -/
def run (function : T) (w : World T σ) : Nat × World T σ :=
  (w.helpers.length,
    { w with helpers := w.helpers ++ [ThreadHelper.ctor w.helpers.length function] })

/-- `_private_add( a,b,c )`, `b` being the future of helper `b`. -/
def _private_add (a : Ref) (b : Nat) (c : T → σ → σ) (w : World T σ) : World T σ :=
  match getFuture (Ref.helper b) w with
  | none => w
  | some fb =>
    modifyFuture a
      (fun f => { f with m_tasks := f.m_tasks ++ [(b, c)], m_threads := f.m_threads ++ [fb.m_thread] }) w

/-- `_private_add_pair( f,s,t ... )`: the variadic recursion over the pairs. -/
def _private_add_pair (f : Ref) : List (T × (T → σ → σ)) → World T σ → World T σ
  | [], w => w
  | s :: t, w =>
    let b := run s.1 w
    _private_add_pair f t (_private_add f b.1 s.2 b.2)

/-- `Task::run( pair< E > s,T ... t )`. -/
def run_pair (s : T × (T → σ → σ)) (t : List (T × (T → σ → σ))) (w : World T σ) :
    Ref × World T σ :=
  (Ref.top, _private_add_pair Ref.top (s :: t) { w with top := _private_future })

/-! ### `future< void >`: the members the Composer writes

The specialisation `future< void >` repeats `future<T>` without the value:
it has the one slot `m_function` of type `std::function< void() >`, which
plays the part of `m_function_1`, and its `_start`, `_queue`, `get` and
`cancel` are those of `future<T>` at `T := Unit`.  What it adds is
composition from futures that already exist, composite ones included.  Its
objects are kept in one heap; a future made by a `ThreadHelper< void >` sits
at the index of its helper, which is also its `QThread *`. -/

/-- Data members of `future< void >`. -/
structure future_void (σ : Type) where
  m_thread : Option Nat
  m_function : σ → σ
  m_tasks : List (Nat × (σ → σ))
  m_threads : List (Option Nat)
  m_counter : Nat

/-- A heap object: a `future< void >`, together with the WorkItem of the
`ThreadHelper< void >` it is a member of, when there is one. -/
structure VObj (σ : Type) where
  work : Option (σ → σ)
  fut : future_void σ

/-- Constructor `future< void >( QThread * e,start,cancel,get )`. -/
def future_void.ctor (e : Option Nat) : future_void σ :=
  { m_thread := e
    m_function := id
    m_tasks := []
    m_threads := match e with
      | some t => [some t]
      | none => []
    m_counter := 0 }

/-- `future< void >::manages_multiple_futures()`. -/
def manages_multiple_futures_void (f : future_void σ) : Bool :=
  decide (f.m_tasks.length > 0)

/-- `future< void >::threads()`, the accessor of `m_threads` that the
documentation calls `all_threads()`. -/
def threads (f : future_void σ) : List (Option Nat) :=
  f.m_threads

/-- `Task::run< void >( function )`: a new `ThreadHelper< void >`; the result
is the address of its future. -/
def run_void (function : σ → σ) (h : List (VObj σ)) : Nat × List (VObj σ) :=
  (h.length, h ++ [{ work := some function, fut := future_void.ctor (some h.length) }])

/-- `_private_future< void >()()`; the result is the address of the new future. -/
def _private_future_void (h : List (VObj σ)) : Nat × List (VObj σ) :=
  (h.length, h ++ [{ work := none, fut := future_void.ctor none }])

/-- `_private_add_void( a,b,c )`. -/
def _private_add_void (a b : Nat) (c : σ → σ) (h : List (VObj σ)) : List (VObj σ) :=
  match h[b]? with
  | none => h
  | some ob =>
    updAt (fun o => { o with fut := { o.fut with
      m_tasks := o.fut.m_tasks ++ [(b, c)]
      m_threads := o.fut.m_threads ++ [ob.fut.m_thread] } }) a h

/-- `_private_add_task( f,e,t ... )`. -/
def _private_add_task (f : Nat) : List (σ → σ) → List (VObj σ) → List (VObj σ)
  | [], h => h
  | e :: t, h =>
    let b := run_void e h
    _private_add_task f t (_private_add_void f b.1 id b.2)

/-- `_private_add_future( f,e,t ... )`. -/
def _private_add_future (f : Nat) : List Nat → List (VObj σ) → List (VObj σ)
  | [], h => h
  | e :: t, h => _private_add_future f t (_private_add_void f e id h)

/-- `_private_add_pair_void( f,s,t ... )`. -/
def _private_add_pair_void (f : Nat) :
    List ((σ → σ) × (σ → σ)) → List (VObj σ) → List (VObj σ)
  | [], h => h
  | s :: t, h =>
    let b := run_void s.1 h
    _private_add_pair_void f t (_private_add_void f b.1 s.2 b.2)

/-- `Task::run( std::function< void() > f,T ... t )`. -/
def run_tasks (f : σ → σ) (t : List (σ → σ)) (h : List (VObj σ)) : Nat × List (VObj σ) :=
  let e := _private_future_void h
  (e.1, _private_add_task e.1 (f :: t) e.2)

/-- `Task::run( Task::future< void >& s,T&& ... t )`. -/
def run_futures (s : Nat) (t : List Nat) (h : List (VObj σ)) : Nat × List (VObj σ) :=
  let e := _private_future_void h
  (e.1, _private_add_future e.1 (s :: t) e.2)

/-- `Task::run( void_pair s,T ... t )`. -/
def run_pair_void (s : (σ → σ) × (σ → σ)) (t : List ((σ → σ) × (σ → σ)))
    (h : List (VObj σ)) : Nat × List (VObj σ) :=
  let e := _private_future_void h
  (e.1, _private_add_pair_void e.1 (s :: t) e.2)

/-- The `future< void >` at address `a`. -/
def futureAt (h : List (VObj σ)) (a : Nat) : Option (future_void σ) :=
  (h[a]?).map (fun o => o.fut)

/-- The member `m_thread` of the future at address `a` (`none`: `nullptr`). -/
def threadOf (h : List (VObj σ)) (a : Nat) : Option Nat :=
  match h[a]? with
  | some o => o.fut.m_thread
  | none => none

/-- The vector `threads()` of the future at address `a`. -/
def threadsOf (h : List (VObj σ)) (a : Nat) : List (Option Nat) :=
  match h[a]? with
  | some o => threads o.fut
  | none => []

/-! ### States of a simple future -/

/-- The program state right after `Task::run( function )` with a WorkItem
returning `v`: one helper, at heap index 0. -/
def simpleWorld (v : T) (u : σ) : World T σ :=
  (run v (World.init u)).2

/-- A single-helper program state whose helper is still the one made by the
constructor, except for the listed members. -/
def simpleState (fn : Option (Fn T σ)) (v res : T) (thr : ThreadState) (dd del : Bool)
    (tr : List (Event T)) (u : σ) (q : T) (ex : Bool) : World T σ :=
  { helpers := [{ m_function := v
                  m_future := { (future.ctor (some 0) : future T σ) with m_function := fn }
                  m_result := res
                  thread := thr
                  deferredDelete := dd
                  deleted := del }]
    top := _private_future
    user := u
    trace := tr
    q := q
    exited := ex }

/-- The arguments with which the caller's value continuation of future `r`
was called, in order. -/
def valueCalls (r : Ref) : List (Event T) → List T
  | [] => []
  | Event.value r' v :: es => if r' = r then v :: valueCalls r es else valueCalls r es
  | _ :: es => valueCalls r es

/-- Whether an event is a call of a terminal continuation of future `r`. -/
def isTerminal (r : Ref) : Event T → Bool
  | Event.value r' _ => decide (r' = r)
  | Event.novalue r' => decide (r' = r)
  | _ => false

/-- Whether an event is an execution of a WorkItem. -/
def isWork : Event T → Bool
  | Event.work _ _ => true
  | _ => false

/-! ### What the Composer builds -/

/-- The helpers that `_private_add_pair` allocates from heap index `n` on. -/
def mkHelpers (n : Nat) : List (T × (T → σ → σ)) → List (ThreadHelper T σ)
  | [] => []
  | p :: ps => ThreadHelper.ctor n p.1 :: mkHelpers (n + 1) ps

/-- The entries that `_private_add_pair` appends to `m_tasks`. -/
def mkTasks (n : Nat) : List (T × (T → σ → σ)) → List (Nat × (T → σ → σ))
  | [] => []
  | p :: ps => (n, p.2) :: mkTasks (n + 1) ps

/-- The entries that `_private_add_pair` appends to `m_threads`. -/
def mkThreads {α : Type} (n : Nat) : List α → List (Option Nat)
  | [] => []
  | _ :: ps => some n :: mkThreads (n + 1) ps

/-- The program state right after `Task::run( s,t ... )` on pairs. -/
def pairWorld (ps : List (T × (T → σ → σ))) (u : σ) : World T σ :=
  { helpers := mkHelpers 0 ps
    top := { m_thread := none
             m_function := none
             m_function_1 := none
             m_tasks := mkTasks 0 ps
             m_threads := mkThreads 0 ps
             m_counter := 0 }
    user := u
    trace := []
    q := default
    exited := false }

/-- The helpers that `_private_add_pair_void` allocates from address `n` on. -/
def mkVHelpers (n : Nat) : List ((σ → σ) × (σ → σ)) → List (VObj σ)
  | [] => []
  | p :: ps => { work := some p.1, fut := future_void.ctor (some n) } :: mkVHelpers (n + 1) ps

/-- The entries that `_private_add_pair_void` appends to `m_tasks`. -/
def mkVTasks (n : Nat) : List ((σ → σ) × (σ → σ)) → List (Nat × (σ → σ))
  | [] => []
  | p :: ps => (n, p.2) :: mkVTasks (n + 1) ps

/-- Appending entries to `m_tasks` and `m_threads` of a heap object. -/
def addEntries (ts : List (Nat × (σ → σ))) (hs : List (Option Nat)) (o : VObj σ) : VObj σ :=
  { o with fut := { o.fut with m_tasks := o.fut.m_tasks ++ ts, m_threads := o.fut.m_threads ++ hs } }

/-! ### Composite futures run in parallel: `then`, `await` -/

/-- The value returned by the `j`-th WorkItem of `ps`. -/
def val (ps : List (T × (T → σ → σ))) (j : Nat) : T :=
  match ps[j]? with
  | some p => p.1
  | none => default

/-- The per-child continuation of the `j`-th pair of `ps`. -/
def cont (ps : List (T × (T → σ → σ))) (j : Nat) : T → σ → σ :=
  match ps[j]? with
  | some p => p.2
  | none => fun _ x => x

/-- The calls of per-child continuations recorded in a trace: index and
argument, in order. -/
def childCalls : List (Event T) → List (Nat × T)
  | [] => []
  | Event.child j v :: es => (j, v) :: childCalls es
  | _ :: es => childCalls es

/-- The threads launched according to a trace, in order. -/
def startedList : List (Event T) → List Nat
  | [] => []
  | Event.started j :: es => j :: startedList es
  | _ :: es => startedList es

/-- Whether an event belongs to the composite future itself: a call of one of
its terminal continuations or its `deleteLater()`. -/
def isTopEvent : Event T → Bool
  | Event.value Ref.top _ => true
  | Event.novalue Ref.top => true
  | Event.deleteLater Ref.top => true
  | _ => false

/-- The effect on the caller's state of a sequence of calls of per-child
continuations. -/
def applyCalls (ps : List (T × (T → σ → σ))) : List (Nat × T) → σ → σ
  | [], x => x
  | c :: cs, x => applyCalls ps cs (cont ps c.1 c.2 x)

/-- The helper that `_start` leaves behind for the `j`-th WorkItem: the
closure of `_start` registered, the thread launched. -/
def runningHelper (this : Ref) (j : Nat) (v : T) : ThreadHelper T σ :=
  { m_function := v
    m_future := { (future.ctor (some j) : future T σ) with
      m_function := some (Fn.start_lambda this j) }
    m_result := default
    thread := ThreadState.running
    deferredDelete := false
    deleted := false }

/-- The helpers after `_start`. -/
def mkRunning (n : Nat) : List (T × (T → σ → σ)) → List (ThreadHelper T σ)
  | [] => []
  | p :: ps => runningHelper Ref.top n p.1 :: mkRunning (n + 1) ps

/-- The events recorded by `_start`. -/
def mkStarted {α : Type} (n : Nat) : List α → List (Event T)
  | [] => []
  | _ :: ps => Event.started n :: mkStarted (n + 1) ps

/-- The program state right after `start()` on the composite future built
from the pairs `ps`, its two continuation slots holding `a` and `b`. -/
def parWorld (a : Option (Fn T σ)) (b : Option (σ → σ)) (ps : List (T × (T → σ → σ)))
    (u : σ) : World T σ :=
  { helpers := mkRunning 0 ps
    top := { m_thread := none
             m_function := a
             m_function_1 := b
             m_tasks := mkTasks 0 ps
             m_threads := mkThreads 0 ps
             m_counter := 0 }
    user := u
    trace := mkStarted 0 ps
    q := default
    exited := false }

/-- What the terminal dispatch of the closure of `_start` records. -/
def terminalEvents (a : Option (Fn T σ)) (b : Option (σ → σ)) : List (Event T) :=
  match b with
  | some _ => [Event.novalue Ref.top]
  | none =>
    match a with
    | some (Fn.user _) => [Event.value Ref.top default]
    | _ => []

/-- What the terminal dispatch of the closure of `_start` does to the
caller's state. -/
def terminalEffect (a : Option (Fn T σ)) (b : Option (σ → σ)) : σ → σ :=
  match b with
  | some g => g
  | none =>
    match a with
    | some (Fn.user f) => f default
    | _ => id

/-- Whether the terminal dispatch of the closure of `_start` ends the event
loop of `await`. -/
def terminalExit (a : Option (Fn T σ)) (b : Option (σ → σ)) : Bool :=
  match b with
  | some _ => false
  | none =>
    match a with
    | some Fn.await_lambda => true
    | _ => false

/-- The slot contents that a future which is nobody's child can hold. -/
def Leaf (a : Option (Fn T σ)) : Prop :=
  a = none ∨ (∃ f, a = some (Fn.user f)) ∨ a = some Fn.await_lambda

/-- The children whose per-child continuation has been called, in the order
of the calls. -/
def orderOf (tr : List (Event T)) : List Nat :=
  (childCalls tr).map Prod.fst

/-- What is known of the helper of child `j` while a composite future runs
its children in parallel: the closure of `_start` is registered, and the
helper is running, or finished with its deferred delete pending, or gone,
the last exactly when its per-child continuation has been called. -/
def HelperOK (ps : List (T × (T → σ → σ))) (j : Nat) (h : ThreadHelper T σ)
    (order : List Nat) : Prop :=
  h.m_function = val ps j
    ∧ h.m_future.m_function = some (Fn.start_lambda Ref.top j)
    ∧ h.m_future.m_function_1 = none
    ∧ ((h.deleted = false ∧ h.deferredDelete = false ∧ h.thread = ThreadState.running
          ∧ j ∉ order)
      ∨ (h.deleted = false ∧ h.deferredDelete = true ∧ h.thread = ThreadState.finished
          ∧ h.m_result = val ps j ∧ j ∉ order)
      ∨ (h.deleted = true ∧ h.deferredDelete = true ∧ j ∈ order))

/-- The invariant of a composite future running its children in parallel. -/
structure ParInv (ps : List (T × (T → σ → σ))) (u : σ) (a : Option (Fn T σ))
    (b : Option (σ → σ)) (w : World T σ) : Prop where
  nodup : (orderOf w.trace).Nodup
  lt : ∀ j ∈ orderOf w.trace, j < ps.length
  vals : ∀ c ∈ childCalls w.trace, c.2 = val ps c.1
  len : w.helpers.length = ps.length
  helper : ∀ j h, w.helpers[j]? = some h → HelperOK ps j h (orderOf w.trace)
  tasks : w.top.m_tasks = mkTasks 0 ps
  fn : w.top.m_function = a
  fn1 : w.top.m_function_1 = b
  counter : w.top.m_counter = (orderOf w.trace).length
  pending : (orderOf w.trace).length < ps.length →
    w.trace.countP isTopEvent = 0 ∧ w.user = applyCalls ps (childCalls w.trace) u
      ∧ w.exited = false
  done : (orderOf w.trace).length = ps.length →
    ∃ pre j, w.trace = pre ++ [Event.child j (val ps j)] ++ terminalEvents a b
          ++ [Event.deleteLater Ref.top]
      ∧ pre.countP isTopEvent = 0
      ∧ w.user = terminalEffect a b (applyCalls ps (childCalls w.trace) u)
      ∧ w.exited = terminalExit a b
      ∧ (terminalExit a b = true → w.q = default)

/-- The deferred delete of helper `j` is pending or has been delivered. -/
def Ready (w : World T σ) (j : Nat) : Prop :=
  ∃ h : ThreadHelper T σ, w.helpers[j]? = some h ∧ h.deferredDelete = true

/-- Every child's thread finishes and every child's deferred delete is
delivered afterwards, in the course of the schedule. -/
def Complete (n : Nat) (sched : List Env) : Prop :=
  ∀ i, i < n → List.Sublist [Env.finish i, Env.dispose i] sched

/-- The argument of the overloaded `then`: a `std::function< void( T ) >`
or a `std::function< void() >`. -/
inductive Continuation (T σ : Type)
  | value (f : T → σ → σ)
  | novalue (g : σ → σ)

/-- `future<T>::then( c )`, either overload. -/
def then_any (this : Ref) (c : Continuation T σ) (w : World T σ) : World T σ :=
  match c with
  | Continuation.value f => then_ this (Fn.user f) w
  | Continuation.novalue g => then_1 this g w

/-- The event that records the call of the terminal continuation `c` of a
composite future by the closure of `_start`. -/
def terminalEvent (c : Continuation T σ) : Event T :=
  match c with
  | Continuation.value _ => Event.value Ref.top default
  | Continuation.novalue _ => Event.novalue Ref.top

/-! ### Composite futures run in sequence: `queue` -/

/-- The events of one child driven by `queue`, from start to its per-child
continuation. -/
def seqBlock (ps : List (T × (T → σ → σ))) (j : Nat) : List (Event T) :=
  [Event.started j, Event.work j true, Event.deleteLater (Ref.helper j),
    Event.child j (val ps j)]

/-- The events of the first `k` children driven by `queue`. -/
def seqUpTo (ps : List (T × (T → σ → σ))) : Nat → List (Event T)
  | 0 => []
  | k + 1 => seqUpTo ps k ++ seqBlock ps k

/-- The trace of a composite future driven by `queue` when `k` children are
done and, if there is a child `k`, its thread has been started and has
(`fin`) or has not yet finished. -/
def seqTrace (ps : List (T × (T → σ → σ))) (k : Nat) (fin : Bool) : List (Event T) :=
  if k < ps.length then
    seqUpTo ps k ++ [Event.started k]
      ++ (if fin = true then [Event.work k true, Event.deleteLater (Ref.helper k)] else [])
  else seqUpTo ps k ++ [Event.novalue Ref.top, Event.deleteLater Ref.top]

/-- The caller's state after the per-child continuations of the first `k`
children. -/
def applyUpTo (ps : List (T × (T → σ → σ))) (u : σ) : Nat → σ
  | 0 => u
  | k + 1 => cont ps k (val ps k) (applyUpTo ps u k)

/-- The caller's state of a composite future driven by `queue( c )` when `k`
children are done. -/
def seqUser (ps : List (T × (T → σ → σ))) (u : σ) (c : σ → σ) (k : Nat) : σ :=
  if k < ps.length then applyUpTo ps u k else c (applyUpTo ps u k)

/-- What is known of the helper of child `j` of a composite future driven by
`queue` when `k` children are done: the children before `k` are gone, child
`k` carries the closure of `_queue` and is running or finished, the children
after `k` have not been touched. -/
def HelperSeq (ps : List (T × (T → σ → σ))) (j : Nat) (h : ThreadHelper T σ)
    (k : Nat) (fin : Bool) : Prop :=
  h.m_function = val ps j
    ∧ h.m_future.m_function_1 = none
    ∧ h.m_future.m_tasks = []
    ∧ h.m_future.m_thread = some j
    ∧ ((j < k ∧ h.deleted = true)
      ∨ (j = k ∧ h.m_future.m_function = some (Fn.queue_lambda Ref.top) ∧ h.deleted = false
          ∧ ((fin = false ∧ h.deferredDelete = false ∧ h.thread = ThreadState.running)
            ∨ (fin = true ∧ h.deferredDelete = true ∧ h.thread = ThreadState.finished
                ∧ h.m_result = val ps j)))
      ∨ (k < j ∧ h.thread = ThreadState.notStarted ∧ h.deferredDelete = false
          ∧ h.deleted = false))

/-- The invariant of a composite future driven by `queue( c )`. -/
structure SeqInv (ps : List (T × (T → σ → σ))) (u : σ) (c : σ → σ) (w : World T σ)
    (k : Nat) (fin : Bool) : Prop where
  len : w.helpers.length = ps.length
  tasks : w.top.m_tasks = mkTasks 0 ps
  fn1 : w.top.m_function_1 = some c
  counter : w.top.m_counter = k
  le : k ≤ ps.length
  helper : ∀ j h, w.helpers[j]? = some h → HelperSeq ps j h k fin
  trace : w.trace = seqTrace ps k fin
  user : w.user = seqUser ps u c k

/-- The program state right after `queue( c )` on the composite future built
from the pairs `s, t ...`. -/
def seqWorld (c : σ → σ) (s : T × (T → σ → σ)) (t : List (T × (T → σ → σ))) (u : σ) :
    World T σ :=
  { helpers := { (ThreadHelper.ctor 0 s.1 : ThreadHelper T σ) with
        m_future := { (future.ctor (some 0) : future T σ) with
          m_function := some (Fn.queue_lambda Ref.top) }
        thread := ThreadState.running } :: mkHelpers 1 t
    top := { m_thread := none
             m_function := none
             m_function_1 := some c
             m_tasks := mkTasks 0 (s :: t)
             m_threads := mkThreads 0 (s :: t)
             m_counter := 0 }
    user := u
    trace := [Event.started 0]
    q := default
    exited := false }

/-- The one asynchronous happening that can change the state of a composite
future driven by `queue` while child `k` is under way. -/
def nextEvent (k : Nat) (fin : Bool) : Env :=
  if fin = true then Env.dispose k else Env.finish k

/-- The schedule in which, for each of the `m` children from `k` on in turn,
the thread finishes and the deferred delete is delivered. -/
def seqSched (k : Nat) : Nat → List Env
  | 0 => []
  | m + 1 => Env.finish k :: Env.dispose k :: seqSched (k + 1) m

/-- In a trace, the thread of a child other than the first is started only
after the per-child continuation of the child before it has been called. -/
def StartsAfterChild (ps : List (T × (T → σ → σ))) (tr : List (Event T)) : Prop :=
  ∀ pre post i, tr = pre ++ Event.started (i + 1) :: post → Event.child i (val ps i) ∈ pre

/-! ### `await` up to its event loop -/

/-- The part of `future<T>::await()` that precedes `p.exec()`: the closure
of `await` is stored in `m_function` and the future is started. -/
def await_enter (this : Ref) (w : World T σ) : World T σ :=
  start this (modifyFuture this (fun f => { f with m_function := some Fn.await_lambda })
    { w with q := default, exited := false })

/-! ### Composite futures drained by `get` -/

/-- The helpers after `get()` of the composite future: each scheduled for
deletion, none started. -/
def mkGot (n : Nat) : List (T × (T → σ → σ)) → List (ThreadHelper T σ)
  | [] => []
  | p :: ps =>
    { (ThreadHelper.ctor n p.1 : ThreadHelper T σ) with deferredDelete := true }
      :: mkGot (n + 1) ps

/-- The events recorded by the loop of `get()` of the composite future. -/
def getTrace (n : Nat) : List (T × (T → σ → σ)) → List (Event T)
  | [] => []
  | p :: ps =>
    Event.deleteLater (Ref.helper n) :: Event.work n false :: Event.child n p.1
      :: getTrace (n + 1) ps

/-- What is known of every helper once the composite future has been
drained by `get()`: no continuation registered, thread never started. -/
def GotInv (w : World T σ) : Prop :=
  ∀ (j : Nat) (h : ThreadHelper T σ), w.helpers[j]? = some h →
    h.m_future.m_function = none ∧ h.m_future.m_function_1 = none
      ∧ h.thread = ThreadState.notStarted

/-! ### Simple futures with both continuation slots, and sequences of operations -/

/-- A single-helper program state whose helper is the one made by the
constructor, except for the listed members, both continuation slots among
them. -/
def simpleState2 (fn : Option (Fn T σ)) (fn1 : Option (σ → σ)) (v res : T) (thr : ThreadState)
    (dd del : Bool) (tr : List (Event T)) (u : σ) (q : T) (ex : Bool) : World T σ :=
  { helpers := [{ m_function := v
                  m_future := { (future.ctor (some 0) : future T σ) with
                    m_function := fn, m_function_1 := fn1 }
                  m_result := res
                  thread := thr
                  deferredDelete := dd
                  deleted := del }]
    top := _private_future
    user := u
    trace := tr
    q := q
    exited := ex }

/-- What `future<T>::run( r )` of future `this` records when the slots hold
`fn` and `fn1`: the call of the no-value continuation if there is one,
otherwise that of the value continuation if the caller supplied one. -/
def runEvents (this : Ref) (r : T) (fn : Option (Fn T σ)) (fn1 : Option (σ → σ)) :
    List (Event T) :=
  match fn1 with
  | some _ => [Event.novalue this]
  | none =>
    match fn with
    | some (Fn.user _) => [Event.value this r]
    | _ => []

/-- What `future<T>::run( r )` does to the caller's state when the slots
hold `fn` and `fn1`. -/
def runEffect (r : T) (fn : Option (Fn T σ)) (fn1 : Option (σ → σ)) : σ → σ :=
  match fn1 with
  | some g => g
  | none =>
    match fn with
    | some (Fn.user f) => f r
    | _ => id

/-- The trace after `QThread::start()` on helper 0 whose thread is in state
`thr`. -/
def startTrace (thr : ThreadState) (tr : List (Event T)) : List (Event T) :=
  if thr = ThreadState.running then tr else tr ++ [Event.started 0]

/-- The slots after a sequence of registrations with `then`: each overload
overwrites its own slot. -/
def regSlots : List (Continuation T σ) → Option (Fn T σ) × Option (σ → σ) →
    Option (Fn T σ) × Option (σ → σ)
  | [], s => s
  | Continuation.value f :: cs, s => regSlots cs (some (Fn.user f), s.2)
  | Continuation.novalue g :: cs, s => regSlots cs (s.1, some g)

/-- A sequence of calls of `then` on the future at `this`. -/
def registerAll (this : Ref) : List (Continuation T σ) → World T σ → World T σ
  | [], w => w
  | c :: cs, w => registerAll this cs (then_any this c w)

/-- The event that records the one call made on completion of future `this`
when the slots are `s` and the value is `r`. -/
def invoked (this : Ref) (r : T) (s : Option (Fn T σ) × Option (σ → σ)) : Event T :=
  match s.2 with
  | some _ => Event.novalue this
  | none => Event.value this r

/-- A public operation on a future, or an asynchronous happening.  `await`
stands for the call of `await()` up to its event loop; what the loop handles
are the happenings that follow. -/
inductive Op (T σ : Type)
  | start
  | then_ (c : Continuation T σ)
  | get
  | await
  | queue (g : σ → σ)
  | cancel
  | env (e : Env)

/-- Perform an operation on the future at `this`. -/
def applyOp (this : Ref) (o : Op T σ) (w : World T σ) : World T σ :=
  match o with
  | Op.start => start this w
  | Op.then_ c => then_any this c w
  | Op.get => (get this w).2
  | Op.await => await_enter this w
  | Op.queue g => queue this g w
  | Op.cancel => cancel this w
  | Op.env e => step e w

/-- Perform a sequence of operations on the future at `this`. -/
def runOps (this : Ref) : List (Op T σ) → World T σ → World T σ
  | [], w => w
  | o :: os, w => runOps this os (applyOp this o w)

/-- The operations that set the WorkItem going: all but `cancel` and the
asynchronous happenings. -/
def isLaunch : Op T σ → Bool
  | Op.cancel => false
  | Op.env _ => false
  | _ => true

/-- The invariant behind "the WorkItem runs at most once": the state is
that of a single helper; before any launching operation (`launched` false)
the thread has not been started and the WorkItem has not run; afterwards the
WorkItem has run at most once, and not at all while the thread is running. -/
def WorkInv (launched : Bool) (w : World T σ) : Prop :=
  ∃ (fn : Option (Fn T σ)) (fn1 : Option (σ → σ)) (v res : T) (thr : ThreadState)
    (dd del : Bool) (tr : List (Event T)) (u : σ) (q : T) (ex : Bool),
    w = simpleState2 fn fn1 v res thr dd del tr u q ex ∧ Leaf fn
      ∧ ((launched = false ∧ thr = ThreadState.notStarted ∧ tr.countP isWork = 0)
        ∨ (launched = true
            ∧ ((thr = ThreadState.notStarted ∧ tr.countP isWork ≤ 1)
              ∨ (thr = ThreadState.running ∧ tr.countP isWork = 0)
              ∨ (thr = ThreadState.finished ∧ tr.countP isWork ≤ 1))))

/-- The slots hold what the caller registered, and at least one is filled. -/
def Populated (x : Option (Fn T σ) × Option (σ → σ)) : Prop :=
  (x.1 = none ∨ ∃ f, x.1 = some (Fn.user f)) ∧ (x.2 ≠ none ∨ ∃ f, x.1 = some (Fn.user f))

/-! ### The network access manager and its timeout collaborator

`networkAccessManager.hpp`.  A `QNetworkReply *` is its address, a natural
number.  The callbacks stored in the entries, the cancel-predicate and the
timeout callback act on the caller's state; they do not call back into the
manager. -/

/-- What the network code does that is visible from outside: the calls of
the stored callbacks and the operations on the replies. -/
inductive NetEvent
  /-- `std::get< function_t >( p[ s ] )( e )` : the callback of an entry is called with reply `e`. -/
  | callback (e : Nat)
  /-- `e.deleteLater()` on a reply. -/
  | deleteLater (e : Nat)
  /-- `e.close()`. -/
  | close (e : Nat)
  /-- `e.abort()`. -/
  | abort (e : Nat)
  /-- `m_cancel( e )` of a timeout manager. -/
  | cancelPredicate (e : Nat)
  /-- `m_timeout()` of a timeout manager. -/
  | timeoutCallback
  deriving DecidableEq

/-- `NetworkAccessManager::entries_t` : a vector of tuples "reply, whether
the manager is to release the reply, callback". -/
abbrev entries_t (σ : Type) : Type := List (Nat × Bool × (Nat → σ → σ))

/-- The state the network code acts on: `m_entries` of the
`NetworkAccessManager`, the caller's state and the record of the visible
calls. -/
structure NetWorld (σ : Type) where
  m_entries : entries_t σ
  user : σ
  log : List NetEvent

/-- The loop of `NetworkAccessManager::find_network_reply` from position
`s`, the entries from `s` on being `l` : at the first entry whose reply is
`e`, `function( *e,m_entries,s )` and `return true`; `return false` after
the loop. -/
def NetworkAccessManager.find_network_reply_loop (e : Nat)
    (function : Nat → Nat → NetWorld σ → NetWorld σ) (w : NetWorld σ) :
    entries_t σ → Nat → Bool × NetWorld σ
  | [], _ => (false, w)
  | x :: l, s =>
    if x.1 = e then (true, function e s w)
    else NetworkAccessManager.find_network_reply_loop e function w l (s + 1)

/-- `NetworkAccessManager::find_network_reply( e,function )`. -/
def NetworkAccessManager.find_network_reply (e : Nat)
    (function : Nat → Nat → NetWorld σ → NetWorld σ) (w : NetWorld σ) : Bool × NetWorld σ :=
  NetworkAccessManager.find_network_reply_loop e function w w.m_entries 0

/-- The lambda of `NetworkAccessManager::cancel` :
`if( std::get< bool >( p[ s ] ) ){ e.deleteLater() ; }`,
`p.erase( p.begin() + s )`, `e.close()`, `e.abort()`. -/
def NetworkAccessManager.cancel_lambda (e s : Nat) (w : NetWorld σ) : NetWorld σ :=
  match w.m_entries[s]? with
  | none => w
  | some x =>
    let w1 := if x.2.1 = true then { w with log := w.log ++ [NetEvent.deleteLater e] } else w
    let w2 := { w1 with m_entries := w1.m_entries.eraseIdx s }
    { w2 with log := w2.log ++ [NetEvent.close e, NetEvent.abort e] }

/-- `NetworkAccessManager::cancel( e )`. -/
def NetworkAccessManager.cancel (e : Nat) (w : NetWorld σ) : Bool × NetWorld σ :=
  NetworkAccessManager.find_network_reply e NetworkAccessManager.cancel_lambda w

/-- The lambda of the slot `NetworkAccessManager::networkReply` :
`std::get< function_t >( p[ s ] )( e )`,
`if( std::get< bool >( p[ s ] ) ){ e.deleteLater() ; }`,
`p.erase( p.begin() + s )`. -/
def NetworkAccessManager.networkReply_lambda (e s : Nat) (w : NetWorld σ) : NetWorld σ :=
  match w.m_entries[s]? with
  | none => w
  | some x =>
    let w1 := { w with user := x.2.2 e w.user, log := w.log ++ [NetEvent.callback e] }
    let w2 := if x.2.1 = true then { w1 with log := w1.log ++ [NetEvent.deleteLater e] } else w1
    { w2 with m_entries := w2.m_entries.eraseIdx s }

/-- The slot `NetworkAccessManager::networkReply( e )`, which handles the
completion notification `finished( e )` of `m_manager`. -/
def NetworkAccessManager.networkReply (e : Nat) (w : NetWorld σ) : NetWorld σ :=
  (NetworkAccessManager.find_network_reply e NetworkAccessManager.networkReply_lambda w).2

/-- `m_entries.emplace_back( ... )`, as done by every overload of `get`,
`post` and `head`. -/
def NetworkAccessManager.emplace_back (x : Nat × Bool × (Nat → σ → σ)) (w : NetWorld σ) :
    NetWorld σ :=
  { w with m_entries := w.m_entries ++ [x] }

/-- `NetworkAccessManager::get( r,f )`, `s` being the reply that
`m_manager.get( r )` returns. -/
def NetworkAccessManager.get (s : Nat) (f : Nat → σ → σ) (w : NetWorld σ) : Nat × NetWorld σ :=
  (s, NetworkAccessManager.emplace_back (s, true, f) w)

/-- `NetworkAccessManager::post( r,e,f )`, `s` being the reply that
`m_manager.post( r,e )` returns. -/
def NetworkAccessManager.post (s : Nat) (f : Nat → σ → σ) (w : NetWorld σ) : Nat × NetWorld σ :=
  (s, NetworkAccessManager.emplace_back (s, true, f) w)

/-- `NetworkAccessManager::head( r,f )`, `s` being the reply that
`m_manager.head( r )` returns. -/
def NetworkAccessManager.head (s : Nat) (f : Nat → σ → σ) (w : NetWorld σ) : Nat × NetWorld σ :=
  (s, NetworkAccessManager.emplace_back (s, true, f) w)

/-- The operations on a `NetworkAccessManager` that touch `m_entries`. -/
inductive NetOp (σ : Type)
  | emplace_back (x : Nat × Bool × (Nat → σ → σ))
  | cancel (e : Nat)
  | networkReply (e : Nat)

/-- One operation on the manager. -/
def applyNetOp (o : NetOp σ) (w : NetWorld σ) : NetWorld σ :=
  match o with
  | NetOp.emplace_back x => NetworkAccessManager.emplace_back x w
  | NetOp.cancel e => (NetworkAccessManager.cancel e w).2
  | NetOp.networkReply e => NetworkAccessManager.networkReply e w

/-- A sequence of operations on the manager. -/
def runNetOps : List (NetOp σ) → NetWorld σ → NetWorld σ
  | [], w => w
  | o :: ops, w => runNetOps ops (applyNetOp o w)

/-- Whether the operation makes reply `e` pending. -/
def addsReply (e : Nat) : NetOp σ → Bool
  | NetOp.emplace_back x => decide (x.1 = e)
  | _ => false

/-- A cancel-predicate `std::function< bool( QNetworkReply * ) >` : one
supplied by the caller, or the lambda
`[ this ]( QNetworkReply * e ){ return this->cancel( e ) ; }` of
`NetworkAccessManager::timeOutManager`. -/
inductive CancelFn (σ : Type)
  | user (f : Nat → σ → Bool × σ)
  | manager_cancel

/-- The call of a cancel-predicate with reply `e`. -/
def call_cancel (c : CancelFn σ) (e : Nat) (w : NetWorld σ) : Bool × NetWorld σ :=
  match c with
  | CancelFn.user f => ((f e w.user).1, { w with user := (f e w.user).2 })
  | CancelFn.manager_cancel => NetworkAccessManager.cancel e w

/-- A `NetworkAccessManagerTimeOutManager` : its members, whether `m_timer`
is active and with what interval, the senders whose
`finished( QNetworkReply * )` is connected to its slot `networkReply`, and
whether its `deleteLater()` has been called.  Objects are their addresses. -/
structure NetworkAccessManagerTimeOutManager (σ : Type) where
  m_object : Nat
  m_reply : Nat
  m_cancel : CancelFn σ
  m_timeout : σ → σ
  timerActive : Bool
  interval : Int
  senders : List Nat
  deferredDelete : Bool

/-- The constructor `NetworkAccessManagerTimeOutManager( e,s,m,w,n )` :
the members are set and `m_timer.start( 1000 * w )`. -/
def NetworkAccessManagerTimeOutManager.ctor (e : CancelFn σ) (s : σ → σ) (m : Nat) (w : Int)
    (n : Nat) : NetworkAccessManagerTimeOutManager σ :=
  { m_object := n
    m_reply := m
    m_cancel := e
    m_timeout := s
    timerActive := true
    interval := 1000 * w
    senders := []
    deferredDelete := false }

/-- The slot `NetworkAccessManagerTimeOutManager::timeout()`, which handles
the deadline event `timeout()` of `m_timer` : `m_timer.stop()`,
`disconnect( m_object,... )`, `m_cancel( m_reply )`, `m_timeout()`,
`this->deleteLater()`. -/
def NetworkAccessManagerTimeOutManager.timeout (o : NetworkAccessManagerTimeOutManager σ)
    (w : NetWorld σ) : NetworkAccessManagerTimeOutManager σ × NetWorld σ :=
  let o1 := { o with timerActive := false }
  let o2 := { o1 with senders := o1.senders.filter (fun x => decide (x ≠ o1.m_object)) }
  let w1 := (call_cancel o2.m_cancel o2.m_reply
    { w with log := w.log ++ [NetEvent.cancelPredicate o2.m_reply] }).2
  let w2 := { w1 with user := o2.m_timeout w1.user, log := w1.log ++ [NetEvent.timeoutCallback] }
  ({ o2 with deferredDelete := true }, w2)

/-- The slot `NetworkAccessManagerTimeOutManager::networkReply( e )`, which
handles the completion notification `finished( e )` :
`if( e == m_reply ){ m_timer.stop() ; this->deleteLater() ; }`. -/
def NetworkAccessManagerTimeOutManager.networkReply
    (o : NetworkAccessManagerTimeOutManager σ) (e : Nat) (w : NetWorld σ) :
    NetworkAccessManagerTimeOutManager σ × NetWorld σ :=
  if e = o.m_reply then ({ o with timerActive := false, deferredDelete := true }, w) else (o, w)

/-- The address of `m_manager` of the `NetworkAccessManager`. -/
def m_manager : Nat := 0

/-- `NetworkAccessManager::timeOutManager( s,e,m )` : a new timeout manager
with the manager's own `cancel` for cancel-predicate, to whose slot
`networkReply` the signal `finished` of `m_manager` is connected. -/
def NetworkAccessManager.timeOutManager (s : Int) (e : Nat) (m : σ → σ) :
    NetworkAccessManagerTimeOutManager σ :=
  { NetworkAccessManagerTimeOutManager.ctor CancelFn.manager_cancel m e s m_manager with
    senders := [m_manager] }

/-- The calls a timeout manager makes of its cancel-predicate and of its
timeout callback. -/
def isCollaboratorCall : NetEvent → Bool
  | NetEvent.cancelPredicate _ => true
  | NetEvent.timeoutCallback => true
  | _ => false

/-- The calls of callbacks stored in the entries. -/
def isCallback : NetEvent → Bool
  | NetEvent.callback _ => true
  | _ => false

/-! ## Properties -/

/-! ### Simple futures -/

theorem simpleWorld_eq (v : T) (u : σ) :
    (simpleWorld v u : World T σ)
      = simpleState none v default ThreadState.notStarted false false [] u default false :=
  rfl

theorem step_other (fn : Option (Fn T σ)) (v res : T) (thr : ThreadState) (dd del : Bool)
    (tr : List (Event T)) (u : σ) (q : T) (ex : Bool) (e : Env)
    (h1 : e ≠ Env.finish 0) (h2 : e ≠ Env.dispose 0) :
    step e (simpleState fn v res thr dd del tr u q ex) = simpleState fn v res thr dd del tr u q ex := by
  cases e with
  | finish i =>
    cases i with
    | zero => exact absurd rfl h1
    | succ n => rfl
  | dispose i =>
    cases i with
    | zero => exact absurd rfl h2
    | succ n => rfl

theorem step_finish_running (fn : Option (Fn T σ)) (v res : T) (dd : Bool)
    (tr : List (Event T)) (u : σ) (q : T) (ex : Bool) :
    step (Env.finish 0) (simpleState fn v res ThreadState.running dd false tr u q ex)
      = simpleState fn v v ThreadState.finished true false
          (tr ++ [Event.work 0 true, Event.deleteLater (Ref.helper 0)]) u q ex := by
  simp [step, ThreadHelper_run, simpleState, deleteLater, emit, modifyHelper, updAt]

theorem step_finish_idle (fn : Option (Fn T σ)) (v res : T) (thr : ThreadState) (dd del : Bool)
    (tr : List (Event T)) (u : σ) (q : T) (ex : Bool)
    (h : thr ≠ ThreadState.running ∨ del = true) :
    step (Env.finish 0) (simpleState fn v res thr dd del tr u q ex)
      = simpleState fn v res thr dd del tr u q ex := by
  rcases h with h | h
  · simp [step, ThreadHelper_run, simpleState, h]
  · simp [step, ThreadHelper_run, simpleState, h]

theorem step_dispose_idle (fn : Option (Fn T σ)) (v res : T) (thr : ThreadState) (dd del : Bool)
    (tr : List (Event T)) (u : σ) (q : T) (ex : Bool)
    (h : dd = false ∨ del = true) :
    step (Env.dispose 0) (simpleState fn v res thr dd del tr u q ex)
      = simpleState fn v res thr dd del tr u q ex := by
  rcases h with h | h
  · simp [step, ThreadHelper_dtor, simpleState, h]
  · simp [step, ThreadHelper_dtor, simpleState, h]

theorem step_dispose_none (v res : T) (thr : ThreadState)
    (tr : List (Event T)) (u : σ) (q : T) (ex : Bool) :
    step (Env.dispose 0) (simpleState (none : Option (Fn T σ)) v res thr true false tr u q ex)
      = simpleState none v res thr true true tr u q ex := by
  simp [step, ThreadHelper_dtor, simpleState, future_run, getFuture, modifyHelper, updAt,
    future.ctor]

theorem step_dispose_user (c : T → σ → σ) (v res : T) (thr : ThreadState)
    (tr : List (Event T)) (u : σ) (q : T) (ex : Bool) :
    step (Env.dispose 0) (simpleState (some (Fn.user c)) v res thr true false tr u q ex)
      = simpleState (some (Fn.user c)) v res thr true true
          (tr ++ [Event.value (Ref.helper 0) res]) (c res u) q ex := by
  simp [step, ThreadHelper_dtor, simpleState, future_run, getFuture, modifyHelper, updAt,
    future.ctor, call, callWith, emit]

theorem step_dispose_await (v res : T) (thr : ThreadState)
    (tr : List (Event T)) (u : σ) (q : T) (ex : Bool) :
    step (Env.dispose 0) (simpleState (some (Fn.await_lambda : Fn T σ)) v res thr true false tr u q ex)
      = simpleState (some Fn.await_lambda) v res thr true true tr u res true := by
  simp [step, ThreadHelper_dtor, simpleState, future_run, getFuture, modifyHelper, updAt,
    future.ctor, call, callWith]

theorem then_simpleState (fn : Fn T σ) (v res : T) (dd del : Bool)
    (tr : List (Event T)) (u : σ) (q : T) (ex : Bool) :
    then_ (Ref.helper 0) fn (simpleState none v res ThreadState.notStarted dd del tr u q ex)
      = simpleState (some fn) v res ThreadState.running dd del (tr ++ [Event.started 0]) u q ex := by
  simp [then_, thenWith, startWith, simpleState, getFuture, modifyFuture, modifyHelper, updAt,
    future.ctor, manages_multiple_futures, m_start, QThread_start, emit]

theorem cancel_simpleState (fn : Option (Fn T σ)) (v res : T) (thr : ThreadState) (dd del : Bool)
    (tr : List (Event T)) (u : σ) (q : T) (ex : Bool) :
    cancel (Ref.helper 0) (simpleState fn v res thr dd del tr u q ex)
      = simpleState fn v res thr true del (tr ++ [Event.deleteLater (Ref.helper 0)]) u q ex := by
  simp [cancel, cancelWith, simpleState, getFuture, modifyHelper, updAt,
    future.ctor, manages_multiple_futures, m_cancel, deleteLater, emit]

theorem get_simpleState (fn : Option (Fn T σ)) (v res : T) (thr : ThreadState) (dd del : Bool)
    (tr : List (Event T)) (u : σ) (q : T) (ex : Bool) :
    get (Ref.helper 0) (simpleState fn v res thr dd del tr u q ex)
      = (v, simpleState fn v res thr true del
          (tr ++ [Event.deleteLater (Ref.helper 0), Event.work 0 false]) u q ex) := by
  simp [get, getWith, simpleState, getFuture, modifyHelper, updAt,
    future.ctor, manages_multiple_futures, m_get, deleteLater, emit]

theorem runEnv_fixed (c : World T σ) (hc : ∀ e, step e c = c) (sched : List Env) :
    runEnv sched c = c := by
  induction sched with
  | nil => rfl
  | cons e es ih => simp [runEnv, hc, ih]

theorem runEnv_chain2 (b c : World T σ) (e2 : Env)
    (hb : ∀ e, e ≠ e2 → step e b = b) (hbc : step e2 b = c) (hc : ∀ e, step e c = c)
    (sched : List Env) :
    (runEnv sched b = b ∨ runEnv sched b = c) ∧ (e2 ∈ sched → runEnv sched b = c) := by
  induction sched with
  | nil => simp [runEnv]
  | cons e es ih =>
    by_cases h : e = e2
    · subst h
      simp [runEnv, hbc, runEnv_fixed c hc]
    · simp only [runEnv, hb e h, List.mem_cons]
      refine ⟨ih.1, fun hm => ?_⟩
      rcases hm with hm | hm
      · exact absurd hm.symm h
      · exact ih.2 hm

theorem runEnv_chain3 (a b c : World T σ) (e1 e2 : Env)
    (ha : ∀ e, e ≠ e1 → step e a = a) (hab : step e1 a = b)
    (hb : ∀ e, e ≠ e2 → step e b = b) (hbc : step e2 b = c) (hc : ∀ e, step e c = c)
    (sched : List Env) :
    (runEnv sched a = a ∨ runEnv sched a = b ∨ runEnv sched a = c)
      ∧ (List.Sublist [e1, e2] sched → runEnv sched a = c) := by
  induction sched with
  | nil => simp [runEnv]
  | cons e es ih =>
    have h2 := runEnv_chain2 b c e2 hb hbc hc es
    by_cases h : e = e1
    · subst h
      simp only [runEnv, hab]
      refine ⟨Or.inr h2.1, fun hs => ?_⟩
      rcases List.sublist_cons_iff.1 hs with hs | ⟨r, hr, hs⟩
      · exact h2.2 (hs.subset (by simp))
      · have : r = [e2] := by simpa using hr.symm
        subst this
        exact h2.2 (List.singleton_sublist.1 hs)
    · simp only [runEnv, ha e h]
      refine ⟨ih.1, fun hs => ?_⟩
      rcases List.sublist_cons_iff.1 hs with hs | ⟨r, hr, hs⟩
      · exact ih.2 hs
      · exact absurd (by simpa using hr.symm : e = e1 ∧ _).1 h

theorem exec_exited (c : World T σ) (hc : c.exited = true) (sched : List Env) :
    exec sched c = some c := by
  cases sched <;> simp [exec, hc]

theorem exec_chain2 (b c : World T σ) (e2 : Env)
    (hb : ∀ e, e ≠ e2 → step e b = b) (hbc : step e2 b = c)
    (hbx : b.exited = false) (hcx : c.exited = true) (sched : List Env) :
    (exec sched b = none ∨ exec sched b = some c) ∧ (e2 ∈ sched → exec sched b = some c) := by
  induction sched with
  | nil => simp [exec, hbx]
  | cons e es ih =>
    by_cases h : e = e2
    · subst h
      simp [exec, hbx, hbc, exec_exited c hcx]
    · simp only [exec, hbx, hb e h, List.mem_cons]
      refine ⟨by simpa using ih.1, fun hm => ?_⟩
      rcases hm with hm | hm
      · exact absurd hm.symm h
      · simpa using ih.2 hm

theorem exec_chain3 (a b c : World T σ) (e1 e2 : Env)
    (ha : ∀ e, e ≠ e1 → step e a = a) (hab : step e1 a = b)
    (hb : ∀ e, e ≠ e2 → step e b = b) (hbc : step e2 b = c)
    (hax : a.exited = false) (hbx : b.exited = false) (hcx : c.exited = true)
    (sched : List Env) :
    (exec sched a = none ∨ exec sched a = some c)
      ∧ (List.Sublist [e1, e2] sched → exec sched a = some c) := by
  induction sched with
  | nil => simp [exec, hax]
  | cons e es ih =>
    have h2 := exec_chain2 b c e2 hb hbc hbx hcx es
    by_cases h : e = e1
    · subst h
      simp only [exec, hax, hab]
      refine ⟨by simpa using h2.1, fun hs => ?_⟩
      rcases List.sublist_cons_iff.1 hs with hs | ⟨r, hr, hs⟩
      · simpa using h2.2 (hs.subset (by simp))
      · have : r = [e2] := by simpa using hr.symm
        subst this
        simpa using h2.2 (List.singleton_sublist.1 hs)
    · simp only [exec, hax, ha e h]
      refine ⟨by simpa using ih.1, fun hs => ?_⟩
      rcases List.sublist_cons_iff.1 hs with hs | ⟨r, hr, hs⟩
      · simpa using ih.2 hs
      · exact absurd (by simpa using hr.symm : e = e1 ∧ _).1 h

/-- C3 : a simple future made by `Task::run` from a WorkItem returning `v`.
After `then( c )` the observed trace is, under every schedule, an initial
part of "thread started, WorkItem executed in the background, helper
scheduled for deletion, `c` called with `v`", and it is all of it (with `c v`
applied to the caller's state) as soon as the thread has finished and the
deferred delete has been delivered: `c` is called exactly once, with `v`,
after the Worker finished, and the WorkItem ran exactly once.  `await()`
returns nothing but `v`, having executed the WorkItem exactly once, and it
does return `v` under every schedule in which the thread finishes and the
deferred delete is delivered. -/
theorem C3_simple_then_await (v : T) (u : σ) (c : T → σ → σ) (sched : List Env) :
    (runEnv sched (then_ (Ref.helper 0) (Fn.user c) (simpleWorld v u))).trace
        <+: [Event.started 0, Event.work 0 true, Event.deleteLater (Ref.helper 0),
              Event.value (Ref.helper 0) v]
      ∧ (List.Sublist [Env.finish 0, Env.dispose 0] sched →
          (runEnv sched (then_ (Ref.helper 0) (Fn.user c) (simpleWorld v u))).trace
              = [Event.started 0, Event.work 0 true, Event.deleteLater (Ref.helper 0),
                  Event.value (Ref.helper 0) v]
            ∧ (runEnv sched (then_ (Ref.helper 0) (Fn.user c) (simpleWorld v u))).user = c v u)
      ∧ (∀ r, await (Ref.helper 0) sched (simpleWorld v u) = some r →
          r.1 = v ∧ r.2.user = u
            ∧ r.2.trace = [Event.started 0, Event.work 0 true, Event.deleteLater (Ref.helper 0)])
      ∧ (List.Sublist [Env.finish 0, Env.dispose 0] sched →
          (await (Ref.helper 0) sched (simpleWorld v u)).map Prod.fst = some v) := by
  have hrun := runEnv_chain3
    (simpleState (some (Fn.user c)) v default ThreadState.running false false
      [Event.started 0] u default false)
    (simpleState (some (Fn.user c)) v v ThreadState.finished true false
      [Event.started 0, Event.work 0 true, Event.deleteLater (Ref.helper 0)] u default false)
    (simpleState (some (Fn.user c)) v v ThreadState.finished true true
      [Event.started 0, Event.work 0 true, Event.deleteLater (Ref.helper 0),
        Event.value (Ref.helper 0) v] (c v u) default false)
    (Env.finish 0) (Env.dispose 0)
    (fun e he => by
      by_cases hd : e = Env.dispose 0
      · subst hd; exact step_dispose_idle _ _ _ _ _ _ _ _ _ _ (Or.inl rfl)
      · exact step_other _ _ _ _ _ _ _ _ _ _ e he hd)
    (step_finish_running _ _ _ _ _ _ _ _)
    (fun e he => by
      by_cases hd : e = Env.finish 0
      · subst hd; exact step_finish_idle _ _ _ _ _ _ _ _ _ _ (Or.inl (by decide))
      · exact step_other _ _ _ _ _ _ _ _ _ _ e hd he)
    (step_dispose_user _ _ _ _ _ _ _ _)
    (fun e => by
      by_cases hd : e = Env.finish 0
      · subst hd; exact step_finish_idle _ _ _ _ _ _ _ _ _ _ (Or.inr rfl)
      · by_cases hd2 : e = Env.dispose 0
        · subst hd2; exact step_dispose_idle _ _ _ _ _ _ _ _ _ _ (Or.inr rfl)
        · exact step_other _ _ _ _ _ _ _ _ _ _ e hd hd2)
    sched
  have hexec := exec_chain3
    (simpleState (some (Fn.await_lambda : Fn T σ)) v default ThreadState.running false false
      [Event.started 0] u default false)
    (simpleState (some Fn.await_lambda) v v ThreadState.finished true false
      [Event.started 0, Event.work 0 true, Event.deleteLater (Ref.helper 0)] u default false)
    (simpleState (some Fn.await_lambda) v v ThreadState.finished true true
      [Event.started 0, Event.work 0 true, Event.deleteLater (Ref.helper 0)] u v true)
    (Env.finish 0) (Env.dispose 0)
    (fun e he => by
      by_cases hd : e = Env.dispose 0
      · subst hd; exact step_dispose_idle _ _ _ _ _ _ _ _ _ _ (Or.inl rfl)
      · exact step_other _ _ _ _ _ _ _ _ _ _ e he hd)
    (step_finish_running _ _ _ _ _ _ _ _)
    (fun e he => by
      by_cases hd : e = Env.finish 0
      · subst hd; exact step_finish_idle _ _ _ _ _ _ _ _ _ _ (Or.inl (by decide))
      · exact step_other _ _ _ _ _ _ _ _ _ _ e hd he)
    (step_dispose_await _ _ _ _ _ _ _)
    rfl rfl rfl sched
  have hthen : then_ (Ref.helper 0) (Fn.user c) (simpleWorld v u)
      = simpleState (some (Fn.user c)) v default ThreadState.running false false
          [Event.started 0] u default false := rfl
  have hawait : ∀ s, await (Ref.helper 0) s (simpleWorld v u)
      = (exec s (simpleState (some (Fn.await_lambda : Fn T σ)) v default ThreadState.running
          false false [Event.started 0] u default false)).map (fun w2 => (w2.q, w2)) :=
    fun _ => rfl
  rw [hthen, hawait]
  refine ⟨?_, fun hs => ?_, fun r hr => ?_, fun hs => ?_⟩
  · rcases hrun.1 with h | h | h <;> rw [h] <;> simp [simpleState]
  · rw [hrun.2 hs]; simp [simpleState]
  · rcases hexec.1 with h | h
    · rw [h] at hr; simp at hr
    · rw [h] at hr
      simp only [Option.map_some', Option.some.injEq] at hr
      subst hr
      simp [simpleState]
  · rw [hexec.2 hs]; simp [simpleState]

/-- Witness of `C3_simple_then_await` : the WorkItem returns 7, the thread
finishes and the deferred delete is delivered; `await()` returns 7. -/
theorem C3_simple_then_await_witness :
    (await (Ref.helper 0) [Env.finish 0, Env.dispose 0]
        (simpleWorld (7 : Nat) ([] : List Nat))).map Prod.fst = some 7 :=
  (C3_simple_then_await (7 : Nat) ([] : List Nat) (fun x l => x :: l)
    [Env.finish 0, Env.dispose 0]).2.2.2 (by decide)

theorem step_fixed_deleted (fn : Option (Fn T σ)) (v res : T) (thr : ThreadState) (dd : Bool)
    (tr : List (Event T)) (u : σ) (q : T) (ex : Bool) (e : Env) :
    step e (simpleState fn v res thr dd true tr u q ex) = simpleState fn v res thr dd true tr u q ex := by
  by_cases hd : e = Env.finish 0
  · subst hd; exact step_finish_idle _ _ _ _ _ _ _ _ _ _ (Or.inr rfl)
  · by_cases hd2 : e = Env.dispose 0
    · subst hd2; exact step_dispose_idle _ _ _ _ _ _ _ _ _ _ (Or.inr rfl)
    · exact step_other _ _ _ _ _ _ _ _ _ _ e hd hd2

theorem step_pending_not_running (fn : Option (Fn T σ)) (v res : T) (thr : ThreadState)
    (dd del : Bool) (tr : List (Event T)) (u : σ) (q : T) (ex : Bool) (e : Env)
    (hthr : thr ≠ ThreadState.running) (he : e ≠ Env.dispose 0) :
    step e (simpleState fn v res thr dd del tr u q ex) = simpleState fn v res thr dd del tr u q ex := by
  by_cases hd : e = Env.finish 0
  · subst hd; exact step_finish_idle _ _ _ _ _ _ _ _ _ _ (Or.inl hthr)
  · exact step_other _ _ _ _ _ _ _ _ _ _ e hd he

/-- C4 : a simple future made by `Task::run` from a WorkItem returning `v`.
`get()` returns `v`; what is observed, then and under every later schedule,
is exactly "helper scheduled for deletion, WorkItem executed on the calling
thread": the WorkItem ran once, the thread of the helper was never started
and no terminal continuation was called (the caller's state is untouched). -/
theorem C4_simple_get (v : T) (u : σ) (sched : List Env) :
    (get (Ref.helper 0) (simpleWorld v u : World T σ)).1 = v
      ∧ (runEnv sched (get (Ref.helper 0) (simpleWorld v u : World T σ)).2).trace
          = [Event.deleteLater (Ref.helper 0), Event.work 0 false]
      ∧ (runEnv sched (get (Ref.helper 0) (simpleWorld v u : World T σ)).2).helpers.map
          (fun h => h.thread) = [ThreadState.notStarted]
      ∧ (runEnv sched (get (Ref.helper 0) (simpleWorld v u : World T σ)).2).user = u := by
  have hget : get (Ref.helper 0) (simpleWorld v u : World T σ)
      = (v, simpleState none v default ThreadState.notStarted true false
          [Event.deleteLater (Ref.helper 0), Event.work 0 false] u default false) := rfl
  have hrun := runEnv_chain2
    (simpleState (none : Option (Fn T σ)) v default ThreadState.notStarted true false
      [Event.deleteLater (Ref.helper 0), Event.work 0 false] u default false)
    (simpleState none v default ThreadState.notStarted true true
      [Event.deleteLater (Ref.helper 0), Event.work 0 false] u default false)
    (Env.dispose 0)
    (fun e he => step_pending_not_running _ _ _ _ _ _ _ _ _ _ e (by decide) he)
    (step_dispose_none _ _ _ _ _ _ _)
    (fun e => step_fixed_deleted _ _ _ _ _ _ _ _ _ e)
    sched
  rw [hget]
  refine ⟨rfl, ?_, ?_, ?_⟩ <;> rcases hrun.1 with h | h <;> simp only [h] <;> rfl

/-- C5 : a simple future made by `Task::run` on which nothing but `cancel()`
has been called.  Under every schedule the only thing ever observed is the
`deleteLater()` of the helper: no terminal continuation is called and the
caller's state is untouched, and this is so also in the schedules that
deliver the deferred delete, after which the helper is gone. -/
theorem C5_cancel_unstarted (v : T) (u : σ) (sched : List Env) :
    (runEnv sched (cancel (Ref.helper 0) (simpleWorld v u : World T σ))).trace
        = [Event.deleteLater (Ref.helper 0)]
      ∧ (runEnv sched (cancel (Ref.helper 0) (simpleWorld v u : World T σ))).user = u
      ∧ (Env.dispose 0 ∈ sched →
          (runEnv sched (cancel (Ref.helper 0) (simpleWorld v u : World T σ))).helpers.map
            (fun h => h.deleted) = [true]) := by
  have hc : cancel (Ref.helper 0) (simpleWorld v u : World T σ)
      = simpleState none v default ThreadState.notStarted true false
          [Event.deleteLater (Ref.helper 0)] u default false := rfl
  have hrun := runEnv_chain2
    (simpleState (none : Option (Fn T σ)) v default ThreadState.notStarted true false
      [Event.deleteLater (Ref.helper 0)] u default false)
    (simpleState none v default ThreadState.notStarted true true
      [Event.deleteLater (Ref.helper 0)] u default false)
    (Env.dispose 0)
    (fun e he => step_pending_not_running _ _ _ _ _ _ _ _ _ _ e (by decide) he)
    (step_dispose_none _ _ _ _ _ _ _)
    (fun e => step_fixed_deleted _ _ _ _ _ _ _ _ _ e)
    sched
  rw [hc]
  refine ⟨?_, ?_, fun hd => ?_⟩
  · rcases hrun.1 with h | h <;> simp only [h] <;> rfl
  · rcases hrun.1 with h | h <;> simp only [h] <;> rfl
  · rw [hrun.2 hd]; rfl

/-- C6, as stated, fails: `then( c )` on the future of a WorkItem returning 7,
the thread finishes, `cancel()` is called while `c` has not been called yet,
and the deferred delete is delivered: `c` is called, with 7. -/
theorem C6_counterexample :
    valueCalls (Ref.helper 0)
        (cancel (Ref.helper 0) (runEnv [Env.finish 0]
          (then_ (Ref.helper 0) (Fn.user (fun x l => x :: l))
            (simpleWorld (7 : Nat) ([] : List Nat))))).trace = []
      ∧ valueCalls (Ref.helper 0)
        (runEnv [Env.dispose 0] (cancel (Ref.helper 0) (runEnv [Env.finish 0]
          (then_ (Ref.helper 0) (Fn.user (fun x l => x :: l))
            (simpleWorld (7 : Nat) ([] : List Nat)))))).trace = [7]
      ∧ (runEnv [Env.dispose 0] (cancel (Ref.helper 0) (runEnv [Env.finish 0]
          (then_ (Ref.helper 0) (Fn.user (fun x l => x :: l))
            (simpleWorld (7 : Nat) ([] : List Nat)))))).user = [7] := by
  decide

theorem runEnv_diamond (a b c d : World T σ)
    (ha : ∀ e, e ≠ Env.finish 0 → e ≠ Env.dispose 0 → step e a = a)
    (hab : step (Env.finish 0) a = b) (had : step (Env.dispose 0) a = d)
    (hb : ∀ e, e ≠ Env.dispose 0 → step e b = b) (hbc : step (Env.dispose 0) b = c)
    (hc : ∀ e, step e c = c) (hd : ∀ e, step e d = d) (sched : List Env) :
    (runEnv sched a = a ∨ runEnv sched a = b ∨ runEnv sched a = c ∨ runEnv sched a = d)
      ∧ (Env.dispose 0 ∈ sched → runEnv sched a = c ∨ runEnv sched a = d) := by
  induction sched with
  | nil => simp [runEnv]
  | cons e es ih =>
    have h2 := runEnv_chain2 b c (Env.dispose 0) hb hbc hc es
    by_cases h : e = Env.finish 0
    · subst h
      simp only [runEnv, hab]
      refine ⟨?_, fun hm => ?_⟩
      · rcases h2.1 with h | h
        · exact Or.inr (Or.inl h)
        · exact Or.inr (Or.inr (Or.inl h))
      · simp only [List.mem_cons] at hm
        rcases hm with hm | hm
        · exact absurd hm (by decide)
        · exact Or.inl (h2.2 hm)
    · by_cases h' : e = Env.dispose 0
      · subst h'
        simp [runEnv, had, runEnv_fixed d hd]
      · simp only [runEnv, ha e h h', List.mem_cons]
        refine ⟨ih.1, fun hm => ?_⟩
        rcases hm with hm | hm
        · exact absurd hm.symm h'
        · exact ih.2 hm

/-- C6, amended : `then( c )` has been called on a simple future, and then,
in a state where `c` has not been called yet, `cancel()`.  `cancel()` does
not detach anything: under every later schedule `c` is called at most once,
with `v` or with the initial content of the result slot, and it is called,
exactly once, in every schedule that delivers the deferred delete, with `v`
when the thread had finished by the time of `cancel()`. -/
theorem C6_cancel_does_not_detach (v : T) (u : σ) (c : T → σ → σ) (pre sched : List Env)
    (hpre : valueCalls (Ref.helper 0)
      (runEnv pre (then_ (Ref.helper 0) (Fn.user c) (simpleWorld v u))).trace = []) :
    (valueCalls (Ref.helper 0) (runEnv sched (cancel (Ref.helper 0)
          (runEnv pre (then_ (Ref.helper 0) (Fn.user c) (simpleWorld v u))))).trace = []
        ∨ valueCalls (Ref.helper 0) (runEnv sched (cancel (Ref.helper 0)
          (runEnv pre (then_ (Ref.helper 0) (Fn.user c) (simpleWorld v u))))).trace = [v]
        ∨ valueCalls (Ref.helper 0) (runEnv sched (cancel (Ref.helper 0)
          (runEnv pre (then_ (Ref.helper 0) (Fn.user c) (simpleWorld v u))))).trace = [default])
      ∧ (Env.dispose 0 ∈ sched →
          (valueCalls (Ref.helper 0) (runEnv sched (cancel (Ref.helper 0)
            (runEnv pre (then_ (Ref.helper 0) (Fn.user c) (simpleWorld v u))))).trace).length = 1
          ∧ (runEnv sched (cancel (Ref.helper 0)
            (runEnv pre (then_ (Ref.helper 0) (Fn.user c) (simpleWorld v u))))).helpers.map
              (fun h => h.deleted) = [true])
      ∧ (Env.dispose 0 ∈ sched →
          (runEnv pre (then_ (Ref.helper 0) (Fn.user c) (simpleWorld v u))).helpers.map
            (fun h => h.thread) = [ThreadState.finished] →
          valueCalls (Ref.helper 0) (runEnv sched (cancel (Ref.helper 0)
            (runEnv pre (then_ (Ref.helper 0) (Fn.user c) (simpleWorld v u))))).trace = [v]
          ∧ (runEnv sched (cancel (Ref.helper 0)
            (runEnv pre (then_ (Ref.helper 0) (Fn.user c) (simpleWorld v u))))).user = c v u) := by
  have hthen : then_ (Ref.helper 0) (Fn.user c) (simpleWorld v u)
      = simpleState (some (Fn.user c)) v default ThreadState.running false false
          [Event.started 0] u default false := rfl
  have hrun := runEnv_chain3
    (simpleState (some (Fn.user c)) v default ThreadState.running false false
      [Event.started 0] u default false)
    (simpleState (some (Fn.user c)) v v ThreadState.finished true false
      [Event.started 0, Event.work 0 true, Event.deleteLater (Ref.helper 0)] u default false)
    (simpleState (some (Fn.user c)) v v ThreadState.finished true true
      [Event.started 0, Event.work 0 true, Event.deleteLater (Ref.helper 0),
        Event.value (Ref.helper 0) v] (c v u) default false)
    (Env.finish 0) (Env.dispose 0)
    (fun e he => by
      by_cases hd : e = Env.dispose 0
      · subst hd; exact step_dispose_idle _ _ _ _ _ _ _ _ _ _ (Or.inl rfl)
      · exact step_other _ _ _ _ _ _ _ _ _ _ e he hd)
    (step_finish_running _ _ _ _ _ _ _ _)
    (fun e he => step_pending_not_running _ _ _ _ _ _ _ _ _ _ e (by decide) he)
    (step_dispose_user _ _ _ _ _ _ _ _)
    (fun e => step_fixed_deleted _ _ _ _ _ _ _ _ _ e)
    pre
  rw [hthen] at hpre ⊢
  rcases hrun.1 with h | h | h
  · -- `cancel()` while the thread is still running
    rw [h, cancel_simpleState]
    have hd := runEnv_diamond
      (simpleState (some (Fn.user c)) v default ThreadState.running true false
        ([Event.started 0] ++ [Event.deleteLater (Ref.helper 0)]) u default false)
      (simpleState (some (Fn.user c)) v v ThreadState.finished true false
        ([Event.started 0] ++ [Event.deleteLater (Ref.helper 0)]
          ++ [Event.work 0 true, Event.deleteLater (Ref.helper 0)]) u default false)
      (simpleState (some (Fn.user c)) v v ThreadState.finished true true
        ([Event.started 0] ++ [Event.deleteLater (Ref.helper 0)]
          ++ [Event.work 0 true, Event.deleteLater (Ref.helper 0)]
          ++ [Event.value (Ref.helper 0) v]) (c v u) default false)
      (simpleState (some (Fn.user c)) v default ThreadState.running true true
        ([Event.started 0] ++ [Event.deleteLater (Ref.helper 0)]
          ++ [Event.value (Ref.helper 0) default]) (c default u) default false)
      (fun e h1 h2 => step_other _ _ _ _ _ _ _ _ _ _ e h1 h2)
      (step_finish_running _ _ _ _ _ _ _ _)
      (step_dispose_user _ _ _ _ _ _ _ _)
      (fun e he => step_pending_not_running _ _ _ _ _ _ _ _ _ _ e (by decide) he)
      (step_dispose_user _ _ _ _ _ _ _ _)
      (fun e => step_fixed_deleted _ _ _ _ _ _ _ _ _ e)
      (fun e => step_fixed_deleted _ _ _ _ _ _ _ _ _ e)
      sched
    refine ⟨?_, fun hm => ?_, fun _ hf => ?_⟩
    · rcases hd.1 with h | h | h | h <;> rw [h] <;> simp [simpleState, valueCalls]
    · rcases hd.2 hm with h | h <;> rw [h] <;> simp [simpleState, valueCalls]
    · simp [simpleState] at hf
  · -- `cancel()` after the thread has finished
    rw [h, cancel_simpleState]
    have hd := runEnv_chain2
      (simpleState (some (Fn.user c)) v v ThreadState.finished true false
        ([Event.started 0, Event.work 0 true, Event.deleteLater (Ref.helper 0)]
          ++ [Event.deleteLater (Ref.helper 0)]) u default false)
      (simpleState (some (Fn.user c)) v v ThreadState.finished true true
        ([Event.started 0, Event.work 0 true, Event.deleteLater (Ref.helper 0)]
          ++ [Event.deleteLater (Ref.helper 0)] ++ [Event.value (Ref.helper 0) v])
        (c v u) default false)
      (Env.dispose 0)
      (fun e he => step_pending_not_running _ _ _ _ _ _ _ _ _ _ e (by decide) he)
      (step_dispose_user _ _ _ _ _ _ _ _)
      (fun e => step_fixed_deleted _ _ _ _ _ _ _ _ _ e)
      sched
    refine ⟨?_, fun hm => ?_, fun hm _ => ?_⟩
    · rcases hd.1 with h | h <;> rw [h] <;> simp [simpleState, valueCalls]
    · rw [hd.2 hm]; simp [simpleState, valueCalls]
    · rw [hd.2 hm]; simp [simpleState, valueCalls]
  · rw [h] at hpre
    simp [simpleState, valueCalls] at hpre

/-- Witness of `C6_cancel_does_not_detach`: the WorkItem returns 7, the
thread finishes, `cancel()`, and the deferred delete is delivered. -/
theorem C6_cancel_does_not_detach_witness :
    valueCalls (Ref.helper 0) (runEnv [Env.dispose 0] (cancel (Ref.helper 0)
        (runEnv [Env.finish 0] (then_ (Ref.helper 0) (Fn.user (fun x l => x :: l))
          (simpleWorld (7 : Nat) ([] : List Nat)))))).trace = [7]
      ∧ (runEnv [Env.dispose 0] (cancel (Ref.helper 0)
        (runEnv [Env.finish 0] (then_ (Ref.helper 0) (Fn.user (fun x l => x :: l))
          (simpleWorld (7 : Nat) ([] : List Nat)))))).user = [7] :=
  (C6_cancel_does_not_detach (7 : Nat) ([] : List Nat) (fun x l => x :: l)
    [Env.finish 0] [Env.dispose 0] (by decide)).2.2 (by decide) (by decide)

/-! ### The Composer -/

theorem length_updAt {α : Type} (g : α → α) (i : Nat) (l : List α) :
    (updAt g i l).length = l.length := by
  induction l generalizing i with
  | nil => cases i <;> rfl
  | cons x xs ih => cases i <;> simp [updAt, ih]

theorem getElem?_updAt {α : Type} (g : α → α) (i j : Nat) (l : List α) :
    (updAt g i l)[j]? = if j = i then (l[j]?).map g else l[j]? := by
  induction l generalizing i j with
  | nil => cases i <;> simp [updAt]
  | cons x xs ih =>
    cases i with
    | zero => cases j <;> simp [updAt]
    | succ n => cases j <;> simp [updAt, ih]

theorem updAt_append_left {α : Type} (g : α → α) (i : Nat) (l r : List α) (h : i < l.length) :
    updAt g i (l ++ r) = updAt g i l ++ r := by
  induction l generalizing i with
  | nil => simp at h
  | cons x xs ih =>
    cases i with
    | zero => rfl
    | succ n =>
      simp only [List.cons_append, updAt, List.cons.injEq, true_and]
      exact ih n (by simpa using h)

theorem updAt_updAt {α : Type} (g1 g2 : α → α) (i : Nat) (l : List α) :
    updAt g2 i (updAt g1 i l) = updAt (fun x => g2 (g1 x)) i l := by
  induction l generalizing i with
  | nil => cases i <;> rfl
  | cons x xs ih => cases i <;> simp [updAt, ih]

theorem length_mkHelpers (n : Nat) (ps : List (T × (T → σ → σ))) :
    (mkHelpers n ps).length = ps.length := by
  induction ps generalizing n with
  | nil => rfl
  | cons p ps ih => simp [mkHelpers, ih]

theorem length_mkTasks (n : Nat) (ps : List (T × (T → σ → σ))) :
    (mkTasks n ps).length = ps.length := by
  induction ps generalizing n with
  | nil => rfl
  | cons p ps ih => simp [mkTasks, ih]

theorem length_mkThreads {α : Type} (n : Nat) (ps : List α) :
    (mkThreads n ps).length = ps.length := by
  induction ps generalizing n with
  | nil => rfl
  | cons p ps ih => simp [mkThreads, ih]

theorem getElem?_mkHelpers (n i : Nat) (ps : List (T × (T → σ → σ))) :
    (mkHelpers n ps)[i]? = (ps[i]?).map (fun p => ThreadHelper.ctor (n + i) p.1) := by
  induction ps generalizing n i with
  | nil => simp [mkHelpers]
  | cons p ps ih =>
    cases i with
    | zero => simp [mkHelpers]
    | succ k => simp [mkHelpers, ih, Nat.add_assoc, Nat.add_comm 1 k]

theorem getElem?_mkTasks (n i : Nat) (ps : List (T × (T → σ → σ))) :
    (mkTasks n ps)[i]? = (ps[i]?).map (fun p => (n + i, p.2)) := by
  induction ps generalizing n i with
  | nil => simp [mkTasks]
  | cons p ps ih =>
    cases i with
    | zero => simp [mkTasks]
    | succ k => simp [mkTasks, ih, Nat.add_assoc, Nat.add_comm 1 k]

theorem getElem?_mkThreads {α : Type} (n i : Nat) (ps : List α) :
    (mkThreads n ps)[i]? = (ps[i]?).map (fun _ => some (n + i)) := by
  induction ps generalizing n i with
  | nil => simp [mkThreads]
  | cons p ps ih =>
    cases i with
    | zero => simp [mkThreads]
    | succ k => simp [mkThreads, ih, Nat.add_assoc, Nat.add_comm 1 k]

theorem private_add_pair_eq (ps : List (T × (T → σ → σ))) (w : World T σ) :
    _private_add_pair Ref.top ps w
      = { w with
          helpers := w.helpers ++ mkHelpers w.helpers.length ps
          top := { w.top with
            m_tasks := w.top.m_tasks ++ mkTasks w.helpers.length ps
            m_threads := w.top.m_threads ++ mkThreads w.helpers.length ps } } := by
  induction ps generalizing w with
  | nil => simp [_private_add_pair, mkHelpers, mkTasks, mkThreads]
  | cons p ps ih =>
    simp only [_private_add_pair, run, _private_add, getFuture, modifyFuture]
    simp only [List.getElem?_concat_length, Option.map_some']
    rw [ih]
    simp [mkHelpers, mkTasks, mkThreads, ThreadHelper.ctor, future.ctor]

theorem run_pair_eq (s : T × (T → σ → σ)) (t : List (T × (T → σ → σ))) (u : σ) :
    run_pair s t (World.init u) = (Ref.top, pairWorld (s :: t) u) := by
  simp [run_pair, private_add_pair_eq, pairWorld, World.init, _private_future, future.ctor]

theorem getElem?_mkVHelpers (n i : Nat) (ps : List ((σ → σ) × (σ → σ))) :
    (mkVHelpers n ps)[i]?
      = (ps[i]?).map (fun p => { work := some p.1, fut := future_void.ctor (some (n + i)) }) := by
  induction ps generalizing n i with
  | nil => simp [mkVHelpers]
  | cons p ps ih =>
    cases i with
    | zero => simp [mkVHelpers]
    | succ k => simp [mkVHelpers, ih, Nat.add_assoc, Nat.add_comm 1 k]

theorem getElem?_mkVTasks (n i : Nat) (ps : List ((σ → σ) × (σ → σ))) :
    (mkVTasks n ps)[i]? = (ps[i]?).map (fun p => (n + i, p.2)) := by
  induction ps generalizing n i with
  | nil => simp [mkVTasks]
  | cons p ps ih =>
    cases i with
    | zero => simp [mkVTasks]
    | succ k => simp [mkVTasks, ih, Nat.add_assoc, Nat.add_comm 1 k]

theorem length_mkVTasks (n : Nat) (ps : List ((σ → σ) × (σ → σ))) :
    (mkVTasks n ps).length = ps.length := by
  induction ps generalizing n with
  | nil => rfl
  | cons p ps ih => simp [mkVTasks, ih]

theorem addEntries_addEntries (ts ts' : List (Nat × (σ → σ))) (hs hs' : List (Option Nat)) :
    (fun o : VObj σ => addEntries ts' hs' (addEntries ts hs o))
      = addEntries (ts ++ ts') (hs ++ hs') := by
  funext o
  simp [addEntries]

theorem private_add_void_eq (a b : Nat) (c : σ → σ) (h : List (VObj σ)) (ob : VObj σ)
    (hb : h[b]? = some ob) :
    _private_add_void a b c h = updAt (addEntries [(b, c)] [ob.fut.m_thread]) a h := by
  simp only [_private_add_void, hb]
  rfl

theorem threadOf_updAt (ts : List (Nat × (σ → σ))) (hs : List (Option Nat)) (e a : Nat)
    (h : List (VObj σ)) :
    threadOf (updAt (addEntries ts hs) e h) a = threadOf h a := by
  unfold threadOf
  rw [getElem?_updAt]
  by_cases hae : a = e
  · subst hae
    cases hh : h[a]? <;> simp [addEntries]
  · simp [hae]

theorem private_add_pair_void_eq (e : Nat) (ps : List ((σ → σ) × (σ → σ)))
    (h : List (VObj σ)) (he : e < h.length) :
    _private_add_pair_void e ps h
      = updAt (addEntries (mkVTasks h.length ps) (mkThreads h.length ps)) e
          (h ++ mkVHelpers h.length ps) := by
  induction ps generalizing h with
  | nil =>
    simp only [_private_add_pair_void, mkVTasks, mkThreads, mkVHelpers, List.append_nil]
    apply List.ext_getElem?
    intro n
    rw [getElem?_updAt]
    by_cases hn : n = e
    · subst hn
      cases hh : h[n]? <;> simp [addEntries]
    · simp [hn]
  | cons p ps ih =>
    simp only [_private_add_pair_void, run_void]
    rw [private_add_void_eq e h.length p.2 _ _ (List.getElem?_concat_length _ _)]
    rw [ih _ (by simp [length_updAt]; omega)]
    simp only [length_updAt, List.length_append, List.length_singleton]
    rw [← updAt_append_left _ _ _ _ (by simp; omega), updAt_updAt, addEntries_addEntries]
    simp [mkVTasks, mkThreads, mkVHelpers, future_void.ctor]

theorem private_add_task_eq (e : Nat) (ts : List (σ → σ)) (h : List (VObj σ)) :
    _private_add_task e ts h = _private_add_pair_void e (ts.map (fun f => (f, id))) h := by
  induction ts generalizing h with
  | nil => rfl
  | cons f ts ih => simp [_private_add_task, _private_add_pair_void, ih]

theorem private_add_future_eq (e : Nat) (kids : List Nat) (h : List (VObj σ))
    (hk : ∀ a ∈ kids, a < h.length) :
    _private_add_future e kids h
      = updAt (addEntries (kids.map (fun a => (a, id))) (kids.map (threadOf h))) e h := by
  induction kids generalizing h with
  | nil =>
    simp only [_private_add_future, List.map_nil]
    apply List.ext_getElem?
    intro n
    rw [getElem?_updAt]
    by_cases hn : n = e
    · subst hn
      cases hh : h[n]? <;> simp [addEntries]
    · simp [hn]
  | cons a kids ih =>
    have ha : a < h.length := hk a (by simp)
    have hget : h[a]? = some h[a] := List.getElem?_eq_getElem ha
    simp only [_private_add_future]
    rw [private_add_void_eq e a id h _ hget]
    rw [ih _ (fun b hb => by rw [length_updAt]; exact hk b (by simp [hb]))]
    rw [updAt_updAt, addEntries_addEntries]
    have hth : ∀ b, threadOf (updAt (addEntries [(a, id)] [h[a].fut.m_thread]) e h) b
        = threadOf h b := fun b => threadOf_updAt _ _ _ _ _
    have hta : threadOf h a = h[a].fut.m_thread := by simp [threadOf, hget]
    have hfun : threadOf (updAt (addEntries [(a, id)] [h[a].fut.m_thread]) e h) = threadOf h :=
      funext hth
    simp [hfun, hta]

theorem run_pair_void_heap (s : (σ → σ) × (σ → σ)) (t : List ((σ → σ) × (σ → σ)))
    (h : List (VObj σ)) :
    (run_pair_void s t h).1 = h.length
      ∧ (run_pair_void s t h).2
          = updAt (addEntries (mkVTasks (h.length + 1) (s :: t)) (mkThreads (h.length + 1) (s :: t)))
              h.length
              (h ++ [{ work := none, fut := future_void.ctor none }]
                ++ mkVHelpers (h.length + 1) (s :: t)) := by
  refine ⟨rfl, ?_⟩
  simp only [run_pair_void, _private_future_void]
  rw [private_add_pair_void_eq _ _ _ (by simp)]
  simp

theorem run_futures_heap (s : Nat) (t : List Nat) (h : List (VObj σ))
    (hk : ∀ a ∈ s :: t, a < h.length) :
    (run_futures s t h).1 = h.length
      ∧ (run_futures s t h).2
          = updAt (addEntries ((s :: t).map (fun a => (a, id))) ((s :: t).map (threadOf h)))
              h.length (h ++ [{ work := none, fut := future_void.ctor none }]) := by
  refine ⟨rfl, ?_⟩
  simp only [run_futures, _private_future_void]
  rw [private_add_future_eq _ _ _ (fun a ha => by
    have := hk a ha
    simp only [List.length_append, List.length_singleton]
    omega)]
  have hth : ∀ a ∈ s :: t,
      threadOf (h ++ [{ work := none, fut := future_void.ctor none }]) a = threadOf h a := by
    intro a ha
    simp [threadOf, List.getElem?_append_left (hk a ha)]
  rw [List.map_congr_left hth]

theorem futureAt_updAt_new (ts : List (Nat × (σ → σ))) (hs : List (Option Nat))
    (h r : List (VObj σ)) :
    futureAt (updAt (addEntries ts hs) h.length
        (h ++ [{ work := none, fut := future_void.ctor none }] ++ r)) h.length
      = some { (future_void.ctor none : future_void σ) with m_tasks := ts, m_threads := hs } := by
  have hg : (h ++ [{ work := none, fut := future_void.ctor none }] ++ r)[h.length]?
      = some ({ work := none, fut := future_void.ctor none } : VObj σ) := by
    rw [List.append_assoc, List.getElem?_append_right (Nat.le_refl _)]
    simp
  simp only [futureAt, getElem?_updAt, if_true, hg]
  simp [addEntries, future_void.ctor]

/-- C7, as stated, fails: the future that `Task::run` builds from a single
(WorkItem, continuation) pair has one entry in `m_tasks`, and
`manages_multiple_futures()` returns true for it. -/
theorem C7_counterexample :
    (getFuture (run_pair ((1 : Nat), fun (_ : Nat) (x : Nat) => x) [] (World.init 0)).1
        (run_pair ((1 : Nat), fun (_ : Nat) (x : Nat) => x) [] (World.init 0)).2).map
      manages_multiple_futures = some true := by
  decide

/-- C7, amended : `manages_multiple_futures()` returns false for the future
that `Task::run` builds from one bare WorkItem, and true for every future
that `Task::run` builds from one or more (WorkItem, continuation) pairs or
from two or more bare WorkItems; both for `future<T>` and `future< void >`. -/
theorem C7_manages_multiple_futures (v : T) (s : T × (T → σ → σ))
    (t : List (T × (T → σ → σ))) (u : σ) (f g : σ → σ) (fs : List (σ → σ))
    (sv : (σ → σ) × (σ → σ)) (tv : List ((σ → σ) × (σ → σ))) (h : List (VObj σ)) :
    (getFuture (Ref.helper (run v (World.init u : World T σ)).1)
        (run v (World.init u : World T σ)).2).map manages_multiple_futures = some false
      ∧ (getFuture (run_pair s t (World.init u)).1 (run_pair s t (World.init u)).2).map
          manages_multiple_futures = some true
      ∧ (futureAt (run_void f h).2 (run_void f h).1).map manages_multiple_futures_void
          = some false
      ∧ (futureAt (run_tasks f (g :: fs) h).2 (run_tasks f (g :: fs) h).1).map
          manages_multiple_futures_void = some true
      ∧ (futureAt (run_pair_void sv tv h).2 (run_pair_void sv tv h).1).map
          manages_multiple_futures_void = some true := by
  refine ⟨rfl, ?_, ?_, ?_, ?_⟩
  · rw [run_pair_eq]
    simp [getFuture, pairWorld, manages_multiple_futures, mkTasks]
  · simp [run_void, futureAt, manages_multiple_futures_void, future_void.ctor]
  · have hh := run_pair_void_heap (f, id) ((g :: fs).map (fun k => (k, id))) h
    have he : run_tasks f (g :: fs) h
        = run_pair_void (f, id) ((g :: fs).map (fun k => (k, id))) h := by
      simp only [run_tasks, run_pair_void, private_add_task_eq]
      rfl
    rw [he, hh.1, hh.2, futureAt_updAt_new]
    simp [manages_multiple_futures_void, mkVTasks]
  · have hh := run_pair_void_heap sv tv h
    rw [hh.1, hh.2, futureAt_updAt_new]
    simp [manages_multiple_futures_void, mkVTasks]

theorem run_pair_void_spec (s : (σ → σ) × (σ → σ)) (t : List ((σ → σ) × (σ → σ)))
    (h : List (VObj σ)) :
    ∃ fu, futureAt (run_pair_void s t h).2 (run_pair_void s t h).1 = some fu
      ∧ (threads fu).length = t.length + 1
      ∧ ∀ (i : Nat) (p : (σ → σ) × (σ → σ)), (s :: t)[i]? = some p →
          ∃ o : VObj σ, (run_pair_void s t h).2[h.length + 1 + i]? = some o
            ∧ o.work = some p.1
            ∧ o.fut.m_thread = some (h.length + 1 + i)
            ∧ fu.m_tasks[i]? = some (h.length + 1 + i, p.2)
            ∧ (threads fu)[i]? = some (some (h.length + 1 + i)) := by
  have hh := run_pair_void_heap s t h
  rw [hh.1, hh.2, futureAt_updAt_new]
  refine ⟨_, rfl, ?_, ?_⟩
  · simp [threads, length_mkThreads]
  · intro i p hp
    refine ⟨{ work := some p.1, fut := future_void.ctor (some (h.length + 1 + i)) },
      ?_, rfl, rfl, ?_, ?_⟩
    · have hlen : (h ++ [({ work := none, fut := future_void.ctor none } : VObj σ)]).length
          = h.length + 1 := by simp
      rw [getElem?_updAt, if_neg (by omega),
        List.getElem?_append_right (by rw [hlen]; omega), getElem?_mkVHelpers, hlen]
      have hi : h.length + 1 + i - (h.length + 1) = i := by omega
      rw [hi, hp]
      rfl
    · simp [getElem?_mkVTasks, hp]
    · simp [threads, getElem?_mkThreads, hp]

theorem run_futures_spec (a : Nat) (as : List Nat) (h : List (VObj σ))
    (hk : ∀ b ∈ a :: as, b < h.length) :
    ∃ fu, futureAt (run_futures a as h).2 (run_futures a as h).1 = some fu
      ∧ (threads fu).length = as.length + 1
      ∧ ∀ (i b : Nat), (a :: as)[i]? = some b →
          fu.m_tasks[i]? = some (b, id)
            ∧ (∀ o, h[b]? = some o → (run_futures a as h).2[b]? = some o)
            ∧ ∀ th, threadOf h b = some th → (threads fu)[i]? = some (some th) := by
  have hh := run_futures_heap a as h hk
  have hf := futureAt_updAt_new ((a :: as).map (fun b => (b, (id : σ → σ))))
    ((a :: as).map (threadOf h)) h []
  rw [List.append_nil] at hf
  rw [hh.1, hh.2, hf]
  refine ⟨_, rfl, ?_, ?_⟩
  · simp [threads]
  · intro i b hb
    have hlt : b < h.length := hk b (List.getElem?_mem hb)
    refine ⟨?_, ?_, ?_⟩
    · simp only [List.getElem?_map, hb, Option.map_some']
    · intro o ho
      rw [getElem?_updAt, if_neg (by omega), List.getElem?_append_left hlt, ho]
    · intro th hth
      simp only [threads, List.getElem?_map, hb, Option.map_some', hth]

/-- C8 : the future that the Composer builds from `N ≥ 1` items, right after
construction.  `all_threads()` has `N` entries, and entry `i` is the address
of the thread that powers the child made for (or given as) the `i`-th item:
for items that are pairs or bare WorkItems it is the address of the new
`ThreadHelper` that holds the `i`-th WorkItem, a different one for each `i`;
for an existing future powered by a thread `th` it is `th`.  Stated for each
of the four Composer entry points: value-typed pairs, bare `void` WorkItems,
`void` pairs, and existing `void` futures (whose addresses must be those of
objects of the heap). -/
theorem C8_all_threads (s : T × (T → σ → σ)) (t : List (T × (T → σ → σ))) (u : σ)
    (f : σ → σ) (fs : List (σ → σ)) (sv : (σ → σ) × (σ → σ))
    (tv : List ((σ → σ) × (σ → σ))) (a : Nat) (as : List Nat) (h : List (VObj σ)) :
    ((all_threads (run_pair s t (World.init u)).2.top).length = t.length + 1
        ∧ ∀ (i : Nat) (p : T × (T → σ → σ)), (s :: t)[i]? = some p →
            ∃ hl : ThreadHelper T σ, (run_pair s t (World.init u)).2.helpers[i]? = some hl
              ∧ hl.m_function = p.1
              ∧ hl.m_future.m_thread = some i
              ∧ (run_pair s t (World.init u)).2.top.m_tasks[i]? = some (i, p.2)
              ∧ (all_threads (run_pair s t (World.init u)).2.top)[i]? = some (some i))
      ∧ (∃ fu, futureAt (run_tasks f fs h).2 (run_tasks f fs h).1 = some fu
          ∧ (threads fu).length = fs.length + 1
          ∧ ∀ (i : Nat) (k : σ → σ), (f :: fs)[i]? = some k →
              ∃ o : VObj σ, (run_tasks f fs h).2[h.length + 1 + i]? = some o
                ∧ o.work = some k
                ∧ o.fut.m_thread = some (h.length + 1 + i)
                ∧ fu.m_tasks[i]? = some (h.length + 1 + i, id)
                ∧ (threads fu)[i]? = some (some (h.length + 1 + i)))
      ∧ (∃ fu, futureAt (run_pair_void sv tv h).2 (run_pair_void sv tv h).1 = some fu
          ∧ (threads fu).length = tv.length + 1
          ∧ ∀ (i : Nat) (p : (σ → σ) × (σ → σ)), (sv :: tv)[i]? = some p →
              ∃ o : VObj σ, (run_pair_void sv tv h).2[h.length + 1 + i]? = some o
                ∧ o.work = some p.1
                ∧ o.fut.m_thread = some (h.length + 1 + i)
                ∧ fu.m_tasks[i]? = some (h.length + 1 + i, p.2)
                ∧ (threads fu)[i]? = some (some (h.length + 1 + i)))
      ∧ ((∀ b ∈ a :: as, b < h.length) →
          ∃ fu, futureAt (run_futures a as h).2 (run_futures a as h).1 = some fu
            ∧ (threads fu).length = as.length + 1
            ∧ ∀ (i b : Nat), (a :: as)[i]? = some b →
                fu.m_tasks[i]? = some (b, id)
                  ∧ (∀ o, h[b]? = some o → (run_futures a as h).2[b]? = some o)
                  ∧ ∀ th, threadOf h b = some th →
                      (threads fu)[i]? = some (some th)) := by
  refine ⟨⟨?_, ?_⟩, ?_, run_pair_void_spec sv tv h, run_futures_spec a as h⟩
  · rw [run_pair_eq]
    simp [all_threads, pairWorld, length_mkThreads]
  · intro i p hp
    rw [run_pair_eq]
    refine ⟨ThreadHelper.ctor i p.1, ?_, rfl, rfl, ?_, ?_⟩
    · simp only [pairWorld, getElem?_mkHelpers, Nat.zero_add, hp, Option.map_some']
    · simp only [pairWorld, getElem?_mkTasks, Nat.zero_add, hp, Option.map_some']
    · simp only [pairWorld, all_threads, getElem?_mkThreads, Nat.zero_add, hp, Option.map_some']
  · have he : run_tasks f fs h = run_pair_void (f, id) (fs.map (fun k => (k, id))) h := by
      simp only [run_tasks, run_pair_void, private_add_task_eq]
      rfl
    obtain ⟨fu, hfu, hlen, hall⟩ := run_pair_void_spec (f, id) (fs.map (fun k => (k, id))) h
    rw [he]
    refine ⟨fu, hfu, by simpa using hlen, fun i k hk => ?_⟩
    have hk' : ((f, (id : σ → σ)) :: fs.map (fun k => (k, id)))[i]? = some (k, id) := by
      have : ((f, (id : σ → σ)) :: fs.map (fun k => (k, id)))
          = (f :: fs).map (fun k => (k, id)) := rfl
      rw [this, List.getElem?_map, hk]
      rfl
    exact hall i (k, id) hk'

/-- Witness of `C8_all_threads` : `Task::run( f )` twice gives the simple
futures at addresses 0 and 1, each powered by its own thread; the composite
future made from them has the vector `[ 0,1 ]`. -/
theorem C8_all_threads_witness :
    ∃ fu, futureAt (run_futures 0 [1] (run_void id (run_void id ([] : List (VObj Nat))).2).2).2
          (run_futures 0 [1] (run_void id (run_void id ([] : List (VObj Nat))).2).2).1 = some fu
      ∧ threads fu = [some 0, some 1] := by
  obtain ⟨fu, h1, h2, h3⟩ := (C8_all_threads ((1 : Nat), fun (_ : Nat) (x : Nat) => x) [] 0
    id [] (id, id) [] 0 [1] (run_void id (run_void id ([] : List (VObj Nat))).2).2).2.2.2
    (by decide)
  refine ⟨fu, h1, ?_⟩
  have e0 := (h3 0 0 rfl).2.2 0 rfl
  have e1 := (h3 1 1 rfl).2.2 1 rfl
  apply List.ext_getElem?
  intro n
  match n with
  | 0 => rw [e0]; rfl
  | 1 => rw [e1]; rfl
  | n + 2 =>
    rw [List.getElem?_eq_none (by rw [h2]; simp), List.getElem?_eq_none (by simp)]

/-- C9 fails on the code: `A = Task::run( f,g )` is a composite future with
threads 1 and 2, `B = Task::run( h )` a simple one with thread 3, and
`P = Task::run( A,B )`.  The vector of `P` is `[ nullptr,3 ]`, while the
concatenation of the vectors of its children is `[ 1,2,3 ]`. -/
theorem C9_nested_composite_threads :
    threadsOf
        (run_futures (run_tasks id [id] ([] : List (VObj Nat))).1
          [(run_void id (run_tasks id [id] ([] : List (VObj Nat))).2).1]
          (run_void id (run_tasks id [id] ([] : List (VObj Nat))).2).2).2
        (run_futures (run_tasks id [id] ([] : List (VObj Nat))).1
          [(run_void id (run_tasks id [id] ([] : List (VObj Nat))).2).1]
          (run_void id (run_tasks id [id] ([] : List (VObj Nat))).2).2).1
      = [none, some 3]
    ∧ threadsOf (run_void id (run_tasks id [id] ([] : List (VObj Nat))).2).2
          (run_tasks id [id] ([] : List (VObj Nat))).1
        ++ threadsOf (run_void id (run_tasks id [id] ([] : List (VObj Nat))).2).2
          (run_void id (run_tasks id [id] ([] : List (VObj Nat))).2).1
      = [some 1, some 2, some 3] := by
  decide

/-! ### Parallel composition -/

theorem getElem?_mkRunning (n i : Nat) (ps : List (T × (T → σ → σ))) :
    (mkRunning n ps)[i]? = (ps[i]?).map (fun p => runningHelper Ref.top (n + i) p.1) := by
  induction ps generalizing n i with
  | nil => simp [mkRunning]
  | cons p ps ih =>
    cases i with
    | zero => simp [mkRunning]
    | succ k => simp [mkRunning, ih, Nat.add_assoc, Nat.add_comm 1 k]

theorem length_mkRunning (n : Nat) (ps : List (T × (T → σ → σ))) :
    (mkRunning n ps : List (ThreadHelper T σ)).length = ps.length := by
  induction ps generalizing n with
  | nil => rfl
  | cons p ps ih => simp [mkRunning, ih]

theorem updAt_append_right {α : Type} (g : α → α) (l r : List α) (x : α) :
    updAt g l.length (l ++ x :: r) = l ++ g x :: r := by
  induction l with
  | nil => rfl
  | cons y ys ih => simp [updAt, ih]

theorem getElem?_append_cons_length {α : Type} (l r : List α) (x : α) :
    (l ++ x :: r)[l.length]? = some x := by
  rw [List.getElem?_append_right (Nat.le_refl _)]
  simp

theorem getElem?_updAt_self {α : Type} (g : α → α) (i : Nat) (l : List α) (x : α)
    (h : l[i]? = some x) : (updAt g i l)[i]? = some (g x) := by
  rw [getElem?_updAt, if_pos rfl, h]
  rfl

theorem QThread_start_eq (i : Nat) (h : ThreadHelper T σ) (w : World T σ)
    (hi : w.helpers[i]? = some h) (hr : h.thread ≠ ThreadState.running) :
    QThread_start i w
      = { w with
          helpers := updAt (fun h => { h with thread := ThreadState.running }) i w.helpers
          trace := w.trace ++ [Event.started i] } := by
  simp only [QThread_start, hi, if_neg hr]
  rfl

theorem then_child_eq (i : Nat) (h : ThreadHelper T σ) (fn : Fn T σ) (w : World T σ)
    (hi : w.helpers[i]? = some h) (ht : h.m_future.m_tasks = [])
    (hth : h.m_future.m_thread = some i) (hr : h.thread ≠ ThreadState.running) :
    then_child i fn w
      = { w with
          helpers := updAt (fun h => { h with
              m_future := { h.m_future with m_function := some fn }
              thread := ThreadState.running }) i w.helpers
          trace := w.trace ++ [Event.started i] } := by
  have h1 : (modifyFuture (Ref.helper i) (fun f => { f with m_function := some fn }) w).helpers[i]?
      = some { h with m_future := { h.m_future with m_function := some fn } } := by
    simp only [modifyFuture, modifyHelper]
    exact getElem?_updAt_self _ _ _ _ hi
  simp only [then_child, thenWith, startWith, getFuture, h1, Option.map_some',
    manages_multiple_futures, ht, List.length_nil, gt_iff_lt, Nat.lt_irrefl, decide_False,
    Bool.false_eq_true, if_false, m_start, hth]
  rw [QThread_start_eq i _ _ h1 hr]
  simp only [modifyFuture, modifyHelper, updAt_updAt]

theorem then_child_fresh (pre rest : List (ThreadHelper T σ)) (v : T) (fn : Fn T σ)
    (w : World T σ) (hw : w.helpers = pre ++ ThreadHelper.ctor pre.length v :: rest) :
    then_child pre.length fn w
      = { w with
          helpers := pre ++ { (ThreadHelper.ctor pre.length v : ThreadHelper T σ) with
              m_future := { (future.ctor (some pre.length) : future T σ) with
                m_function := some fn }
              thread := ThreadState.running } :: rest
          trace := w.trace ++ [Event.started pre.length] } := by
  rw [then_child_eq pre.length (ThreadHelper.ctor pre.length v) fn w
    (by rw [hw]; exact getElem?_append_cons_length _ _ _) rfl rfl (by simp [ThreadHelper.ctor])]
  rw [hw, updAt_append_right]
  rfl

theorem start_loop_eq (ps : List (T × (T → σ → σ))) (pre : List (ThreadHelper T σ))
    (w : World T σ) (hw : w.helpers = pre ++ mkHelpers pre.length ps) :
    _start_loop then_child Ref.top pre.length (mkTasks pre.length ps) w
      = { w with
          helpers := pre ++ mkRunning pre.length ps
          trace := w.trace ++ mkStarted pre.length ps } := by
  induction ps generalizing pre w with
  | nil =>
    cases w
    simp_all [_start_loop, mkTasks, mkRunning, mkStarted, mkHelpers]
  | cons p ps ih =>
    simp only [mkTasks, _start_loop]
    rw [then_child_fresh pre (mkHelpers (pre.length + 1) ps) p.1 _ w (by simpa [mkHelpers] using hw)]
    have hlen : (pre ++ [runningHelper Ref.top pre.length p.1]).length = pre.length + 1 := by
      simp
    have := ih (pre ++ [runningHelper Ref.top pre.length p.1])
      { w with
        helpers := pre ++ runningHelper Ref.top pre.length p.1 :: mkHelpers (pre.length + 1) ps
        trace := w.trace ++ [Event.started pre.length] }
      (by simp)
    rw [hlen] at this
    simp only [runningHelper, ThreadHelper.ctor] at this ⊢
    rw [this]
    simp [mkRunning, mkStarted, runningHelper]

theorem start_pairWorld (a : Option (Fn T σ)) (b : Option (σ → σ))
    (s : T × (T → σ → σ)) (t : List (T × (T → σ → σ))) (u : σ) :
    start Ref.top
        ({ pairWorld (s :: t) u with
            top := { (pairWorld (s :: t) u).top with m_function := a, m_function_1 := b } })
      = parWorld a b (s :: t) u := by
  have h := start_loop_eq (s :: t) []
    ({ pairWorld (s :: t) u with
        top := { (pairWorld (s :: t) u).top with m_function := a, m_function_1 := b } })
    (by simp [pairWorld])
  simp only [List.length_nil, List.nil_append] at h
  simp only [start, startWith, getFuture, manages_multiple_futures, _start]
  simp only [pairWorld, length_mkTasks, List.length_cons, gt_iff_lt, Nat.zero_lt_succ,
    decide_True, if_true] at h ⊢
  rw [h]
  rfl

theorem then_1_pairWorld (c : σ → σ) (s : T × (T → σ → σ)) (t : List (T × (T → σ → σ)))
    (u : σ) :
    then_1 Ref.top c (pairWorld (s :: t) u) = parWorld none (some c) (s :: t) u := by
  rw [← start_pairWorld]
  rfl

theorem then_pairWorld (fn : Fn T σ) (s : T × (T → σ → σ)) (t : List (T × (T → σ → σ)))
    (u : σ) :
    then_ Ref.top fn (pairWorld (s :: t) u) = parWorld (some fn) none (s :: t) u := by
  rw [← start_pairWorld]
  rfl

theorem await_pairWorld (sched : List Env) (s : T × (T → σ → σ))
    (t : List (T × (T → σ → σ))) (u : σ) :
    await Ref.top sched (pairWorld (s :: t) u)
      = (exec sched (parWorld (some Fn.await_lambda) none (s :: t) u)).map
          (fun w2 => (w2.q, w2)) := by
  rw [← start_pairWorld]
  rfl

theorem ThreadHelper_run_eq (i : Nat) (h : ThreadHelper T σ) (w : World T σ)
    (hi : w.helpers[i]? = some h) (hr : h.thread = ThreadState.running)
    (hd : h.deleted = false) :
    ThreadHelper_run i w
      = { w with
          helpers := updAt (fun h => { h with
              m_result := h.m_function
              thread := ThreadState.finished
              deferredDelete := true }) i w.helpers
          trace := w.trace ++ [Event.work i true, Event.deleteLater (Ref.helper i)] } := by
  simp only [ThreadHelper_run, hi, hr, hd, and_self, if_true, deleteLater, emit, modifyHelper,
    updAt_updAt, List.append_assoc, List.singleton_append]

theorem ThreadHelper_run_idle (i : Nat) (w : World T σ)
    (hi : ∀ h, w.helpers[i]? = some h → h.thread ≠ ThreadState.running ∨ h.deleted = true) :
    ThreadHelper_run i w = w := by
  unfold ThreadHelper_run
  cases hh : w.helpers[i]? with
  | none => rfl
  | some h =>
    rcases hi h hh with h1 | h1
    · simp [h1]
    · simp [h1]

theorem ThreadHelper_dtor_idle (i : Nat) (w : World T σ)
    (hi : ∀ h, w.helpers[i]? = some h → h.deferredDelete = false ∨ h.deleted = true) :
    ThreadHelper_dtor i w = w := by
  unfold ThreadHelper_dtor
  cases hh : w.helpers[i]? with
  | none => rfl
  | some h =>
    rcases hi h hh with h1 | h1
    · simp [h1]
    · simp [h1]

theorem ThreadHelper_dtor_start (i : Nat) (h : ThreadHelper T σ) (w : World T σ)
    (k : T → σ → σ) (n : Nat)
    (hi : w.helpers[i]? = some h) (hdd : h.deferredDelete = true) (hd : h.deleted = false)
    (hf1 : h.m_future.m_function_1 = none)
    (hf : h.m_future.m_function = some (Fn.start_lambda Ref.top i))
    (ht : w.top.m_tasks[i]? = some (n, k)) (hleaf : Leaf w.top.m_function) :
    ThreadHelper_dtor i w
      = if w.top.m_counter + 1 = w.top.m_tasks.length then
          { w with
            helpers := updAt (fun h => { h with deleted := true }) i w.helpers
            top := { w.top with m_counter := w.top.m_counter + 1 }
            user := terminalEffect w.top.m_function w.top.m_function_1 (k h.m_result w.user)
            trace := w.trace ++ [Event.child i h.m_result]
              ++ terminalEvents w.top.m_function w.top.m_function_1
              ++ [Event.deleteLater Ref.top]
            q := if terminalExit w.top.m_function w.top.m_function_1 = true then default else w.q
            exited := terminalExit w.top.m_function w.top.m_function_1 || w.exited }
        else
          { w with
            helpers := updAt (fun h => { h with deleted := true }) i w.helpers
            top := { w.top with m_counter := w.top.m_counter + 1 }
            user := k h.m_result w.user
            trace := w.trace ++ [Event.child i h.m_result] } := by
  simp only [ThreadHelper_dtor, hi, hdd, hd, and_self, if_true, future_run, getFuture,
    Option.map_some', hf1, hf, call, callWith, modifyFuture, ht, emit]
  by_cases hc : w.top.m_counter + 1 = w.top.m_tasks.length
  · simp only [hc, if_true]
    cases hb : w.top.m_function_1 with
    | some g =>
      simp [modifyHelper, future_deleteLater, emit, call_novalue, terminalEffect,
        terminalEvents, terminalExit]
    | none =>
      rcases hleaf with ha | ⟨f, ha⟩ | ha
      · simp [ha, modifyHelper, future_deleteLater, emit, terminalEffect,
          terminalEvents, terminalExit]
      · simp [ha, modifyHelper, future_deleteLater, emit, terminalEffect,
          terminalEvents, terminalExit, call_top, callWith]
      · simp [ha, modifyHelper, future_deleteLater, emit, terminalEffect,
          terminalEvents, terminalExit, call_top, callWith]
  · simp only [hc, if_false]
    rfl

theorem childCalls_append (l1 l2 : List (Event T)) :
    childCalls (l1 ++ l2) = childCalls l1 ++ childCalls l2 := by
  induction l1 with
  | nil => rfl
  | cons e es ih => cases e <;> simp [childCalls, ih]

theorem startedList_append (l1 l2 : List (Event T)) :
    startedList (l1 ++ l2) = startedList l1 ++ startedList l2 := by
  induction l1 with
  | nil => rfl
  | cons e es ih => cases e <;> simp [startedList, ih]

theorem applyCalls_append (ps : List (T × (T → σ → σ))) (l1 l2 : List (Nat × T)) (x : σ) :
    applyCalls ps (l1 ++ l2) x = applyCalls ps l2 (applyCalls ps l1 x) := by
  induction l1 generalizing x with
  | nil => rfl
  | cons c cs ih => simp [applyCalls, ih]

theorem childCalls_terminalEvents (a : Option (Fn T σ)) (b : Option (σ → σ)) :
    childCalls (terminalEvents a b : List (Event T)) = [] := by
  cases b with
  | some g => rfl
  | none =>
    cases a with
    | none => rfl
    | some fn => cases fn <;> rfl

theorem childCalls_mkStarted {α : Type} (n : Nat) (ps : List α) :
    childCalls (mkStarted n ps : List (Event T)) = [] := by
  induction ps generalizing n with
  | nil => rfl
  | cons p ps ih => simp [mkStarted, childCalls, ih]

theorem countP_isTopEvent_mkStarted {α : Type} (n : Nat) (ps : List α) :
    (mkStarted n ps : List (Event T)).countP isTopEvent = 0 := by
  induction ps generalizing n with
  | nil => rfl
  | cons p ps ih => simp [mkStarted, isTopEvent, ih]

theorem mem_of_full (order : List Nat) (n : Nat) (hn : order.Nodup)
    (hlt : ∀ j ∈ order, j < n) (hlen : order.length = n) (i : Nat) (hi : i < n) :
    i ∈ order := by
  have hsub : order ⊆ List.range n := fun j hj => List.mem_range.2 (hlt j hj)
  have hperm := (List.subperm_of_subset hn hsub).perm_of_length_le (by simp [hlen])
  exact hperm.mem_iff.2 (List.mem_range.2 hi)

theorem perm_range_of_full (order : List Nat) (n : Nat) (hn : order.Nodup)
    (hlt : ∀ j ∈ order, j < n) (hlen : order.length = n) : order.Perm (List.range n) := by
  have hsub : order ⊆ List.range n := fun j hj => List.mem_range.2 (hlt j hj)
  exact (List.subperm_of_subset hn hsub).perm_of_length_le (by simp [hlen])

theorem length_le_of_nodup (order : List Nat) (n : Nat) (hn : order.Nodup)
    (hlt : ∀ j ∈ order, j < n) : order.length ≤ n := by
  have hsub : order ⊆ List.range n := fun j hj => List.mem_range.2 (hlt j hj)
  simpa using (List.subperm_of_subset hn hsub).length_le

theorem full_of_mem (order : List Nat) (n : Nat) (hn : order.Nodup)
    (hlt : ∀ j ∈ order, j < n) (hall : ∀ i, i < n → i ∈ order) : order.length = n := by
  have h1 := length_le_of_nodup order n hn hlt
  have hsub : List.range n ⊆ order := fun j hj => hall j (List.mem_range.1 hj)
  have h2 := (List.subperm_of_subset (List.nodup_range n) hsub).length_le
  simp at h2
  omega

theorem val_eq (ps : List (T × (T → σ → σ))) (j : Nat) (p : T × (T → σ → σ))
    (h : ps[j]? = some p) : val ps j = p.1 := by
  simp [val, h]

theorem cont_eq (ps : List (T × (T → σ → σ))) (j : Nat) (p : T × (T → σ → σ))
    (h : ps[j]? = some p) : cont ps j = p.2 := by
  simp [cont, h]

theorem parInv_init (a : Option (Fn T σ)) (b : Option (σ → σ))
    (s : T × (T → σ → σ)) (t : List (T × (T → σ → σ))) (u : σ) :
    ParInv (s :: t) u a b (parWorld a b (s :: t) u) := by
  have hcalls : childCalls (parWorld a b (s :: t) u).trace = [] := childCalls_mkStarted _ _
  have horder : orderOf (parWorld a b (s :: t) u).trace = [] := by
    simp [orderOf, hcalls]
  refine ⟨?_, ?_, ?_, ?_, ?_, rfl, rfl, rfl, ?_, ?_, ?_⟩
  · rw [horder]; exact List.nodup_nil
  · rw [horder]; intro j hj; simp at hj
  · rw [hcalls]; intro c hc; simp at hc
  · simp [parWorld, length_mkRunning]
  · intro j h hj
    rw [horder]
    simp only [parWorld, getElem?_mkRunning, Nat.zero_add] at hj
    cases hp : (s :: t)[j]? with
    | none => rw [hp] at hj; simp at hj
    | some p =>
      rw [hp] at hj
      simp only [Option.map_some', Option.some.injEq] at hj
      subst hj
      refine ⟨(val_eq _ _ _ hp).symm, rfl, rfl, Or.inl ⟨rfl, rfl, rfl, by simp⟩⟩
  · rw [horder]; rfl
  · intro _
    refine ⟨countP_isTopEvent_mkStarted _ _, ?_, rfl⟩
    rw [hcalls]; rfl
  · rw [horder]; intro h; simp at h

theorem helperOK_mono (ps : List (T × (T → σ → σ))) (j i : Nat) (h : ThreadHelper T σ)
    (order : List Nat) (hok : HelperOK ps j h order) (hji : j ≠ i) :
    HelperOK ps j h (order ++ [i]) := by
  obtain ⟨h1, h2, h3, h4⟩ := hok
  refine ⟨h1, h2, h3, ?_⟩
  rcases h4 with ⟨a1, a2, a3, a4⟩ | ⟨a1, a2, a3, a4, a5⟩ | ⟨a1, a2, a3⟩
  · exact Or.inl ⟨a1, a2, a3, by simp [a4, hji]⟩
  · exact Or.inr (Or.inl ⟨a1, a2, a3, a4, by simp [a5, hji]⟩)
  · exact Or.inr (Or.inr ⟨a1, a2, by simp [a3]⟩)

theorem lt_of_getElem?_eq_some {α : Type} (l : List α) (i : Nat) (x : α)
    (h : l[i]? = some x) : i < l.length := by
  by_contra hc
  rw [List.getElem?_eq_none (Nat.le_of_not_lt hc)] at h
  exact Option.noConfusion h

theorem parInv_finish (ps : List (T × (T → σ → σ))) (u : σ) (a : Option (Fn T σ))
    (b : Option (σ → σ)) (w : World T σ) (hinv : ParInv ps u a b w) (i : Nat) :
    ParInv ps u a b (ThreadHelper_run i w)
      ∧ childCalls (ThreadHelper_run i w).trace = childCalls w.trace
      ∧ (∀ (j : Nat) (h : ThreadHelper T σ), w.helpers[j]? = some h → h.deferredDelete = true →
          ∃ h' : ThreadHelper T σ,
            (ThreadHelper_run i w).helpers[j]? = some h' ∧ h'.deferredDelete = true)
      ∧ (i < ps.length →
          ∃ h' : ThreadHelper T σ,
            (ThreadHelper_run i w).helpers[i]? = some h' ∧ h'.deferredDelete = true) := by
  cases hh : w.helpers[i]? with
  | none =>
    rw [ThreadHelper_run_idle i w (fun h hh' => by rw [hh] at hh'; exact Option.noConfusion hh')]
    refine ⟨hinv, rfl, fun j h hj hd => ⟨h, hj, hd⟩, fun hlt => ?_⟩
    rw [List.getElem?_eq_none_iff, hinv.len] at hh
    omega
  | some h =>
    obtain ⟨hv, hf, hf1, hphase⟩ := hinv.helper i h hh
    have hiN : i < ps.length := hinv.len ▸ lt_of_getElem?_eq_some _ _ _ hh
    rcases hphase with ⟨hd, hdd, hthr, hno⟩ | ⟨hd, hdd, hthr, hres, hno⟩ | ⟨hd, hdd, hin⟩
    · rw [ThreadHelper_run_eq i h w hh hthr hd]
      have hcalls : childCalls (w.trace ++ [Event.work i true, Event.deleteLater (Ref.helper i)])
          = childCalls w.trace := by
        simp [childCalls_append, childCalls]
      have horder : orderOf (w.trace ++ [Event.work i true, Event.deleteLater (Ref.helper i)])
          = orderOf w.trace := by
        simp [orderOf, hcalls]
      refine ⟨⟨?_, ?_, ?_, ?_, ?_, hinv.tasks, hinv.fn, hinv.fn1, ?_, ?_, ?_⟩, hcalls, ?_, ?_⟩
      · simp only [horder]; exact hinv.nodup
      · simp only [horder]; exact hinv.lt
      · simp only [hcalls]; exact hinv.vals
      · simp only [length_updAt]; exact hinv.len
      · intro j h' hj
        simp only [horder]
        simp only [getElem?_updAt] at hj
        by_cases hji : j = i
        · subst hji
          rw [if_pos rfl, hh] at hj
          simp only [Option.map_some', Option.some.injEq] at hj
          subst hj
          exact ⟨hv, hf, hf1, Or.inr (Or.inl ⟨hd, rfl, rfl, hv, hno⟩)⟩
        · rw [if_neg hji] at hj
          exact hinv.helper j h' hj
      · simp only [horder]; exact hinv.counter
      · simp only [horder, hcalls]
        intro hlt
        obtain ⟨h1, h2, h3⟩ := hinv.pending hlt
        refine ⟨?_, h2, h3⟩
        simp [List.countP_append, h1, isTopEvent]
      · simp only [horder]
        intro hlen
        exact absurd (mem_of_full _ _ hinv.nodup hinv.lt hlen i hiN) hno
      · intro j h' hj hd'
        by_cases hji : j = i
        · subst hji
          exact ⟨_, getElem?_updAt_self _ _ _ _ hj, rfl⟩
        · refine ⟨h', ?_, hd'⟩
          show (updAt _ i w.helpers)[j]? = some h'
          rw [getElem?_updAt, if_neg hji]
          exact hj
      · intro _
        exact ⟨_, getElem?_updAt_self _ _ _ _ hh, rfl⟩
    · rw [ThreadHelper_run_idle i w (fun h' hh' => by
        rw [hh] at hh'
        simp only [Option.some.injEq] at hh'
        subst hh'
        left
        rw [hthr]
        decide)]
      exact ⟨hinv, rfl, fun j h hj hd => ⟨h, hj, hd⟩, fun _ => ⟨h, hh, hdd⟩⟩
    · rw [ThreadHelper_run_idle i w (fun h' hh' => by
        rw [hh] at hh'
        simp only [Option.some.injEq] at hh'
        subst hh'
        exact Or.inr hd)]
      exact ⟨hinv, rfl, fun j h hj hd => ⟨h, hj, hd⟩, fun _ => ⟨h, hh, hdd⟩⟩

theorem countP_isTopEvent_terminalEvents_child (tr : List (Event T)) (i : Nat) (v : T)
    (h : tr.countP isTopEvent = 0) : (tr ++ [Event.child i v]).countP isTopEvent = 0 := by
  simp [List.countP_append, h, isTopEvent]

theorem parInv_dispose (ps : List (T × (T → σ → σ))) (u : σ) (a : Option (Fn T σ))
    (b : Option (σ → σ)) (hleaf : Leaf a) (w : World T σ) (hinv : ParInv ps u a b w) (i : Nat) :
    ParInv ps u a b (ThreadHelper_dtor i w)
      ∧ (childCalls (ThreadHelper_dtor i w).trace = childCalls w.trace
          ∨ childCalls (ThreadHelper_dtor i w).trace = childCalls w.trace ++ [(i, val ps i)])
      ∧ (∀ h, w.helpers[i]? = some h → h.deferredDelete = true →
          i ∈ orderOf (ThreadHelper_dtor i w).trace)
      ∧ (∀ (j : Nat) (h : ThreadHelper T σ), w.helpers[j]? = some h → h.deferredDelete = true →
          ∃ h' : ThreadHelper T σ,
            (ThreadHelper_dtor i w).helpers[j]? = some h' ∧ h'.deferredDelete = true) := by
  cases hh : w.helpers[i]? with
  | none =>
    rw [ThreadHelper_dtor_idle i w (fun h hh' => by rw [hh] at hh'; exact Option.noConfusion hh')]
    exact ⟨hinv, Or.inl rfl, fun h hh' => Option.noConfusion hh', fun j h hj hd => ⟨h, hj, hd⟩⟩
  | some h =>
    obtain ⟨hv, hf, hf1, hphase⟩ := hinv.helper i h hh
    have hiN : i < ps.length := hinv.len ▸ lt_of_getElem?_eq_some _ _ _ hh
    rcases hphase with ⟨hd, hdd, hthr, hno⟩ | ⟨hd, hdd, hthr, hres, hno⟩ | ⟨hd, hdd, hin⟩
    · rw [ThreadHelper_dtor_idle i w (fun h' hh' => by
        rw [hh] at hh'
        simp only [Option.some.injEq] at hh'
        subst hh'
        exact Or.inl hdd)]
      refine ⟨hinv, Or.inl rfl, fun h' hh' hdd' => ?_, fun j h hj hd => ⟨h, hj, hd⟩⟩
      simp only [Option.some.injEq] at hh'
      subst hh'
      rw [hdd] at hdd'
      exact Bool.noConfusion hdd'
    · -- the helper is finished and its deferred delete is pending
      have hp : ps[i]? = some ps[i] := List.getElem?_eq_getElem hiN
      have ht : w.top.m_tasks[i]? = some (i, ps[i].2) := by
        rw [hinv.tasks, getElem?_mkTasks, hp]
        simp
      have hlt : (orderOf w.trace).length < ps.length := by
        rcases Nat.lt_or_ge (orderOf w.trace).length ps.length with h1 | h1
        · exact h1
        · have h2 := length_le_of_nodup _ _ hinv.nodup hinv.lt
          exact absurd (mem_of_full _ _ hinv.nodup hinv.lt (Nat.le_antisymm h2 h1) i hiN) hno
      obtain ⟨hp1, hp2, hp3⟩ := hinv.pending hlt
      have hcont : cont ps i = ps[i].2 := cont_eq _ _ _ hp
      have hcalls1 : childCalls (w.trace ++ [Event.child i (val ps i)])
          = childCalls w.trace ++ [(i, val ps i)] := by
        simp [childCalls_append, childCalls]
      have hcalls2 : childCalls (w.trace ++ [Event.child i (val ps i)] ++ terminalEvents a b
            ++ [Event.deleteLater Ref.top])
          = childCalls w.trace ++ [(i, val ps i)] := by
        simp [childCalls_append, childCalls, childCalls_terminalEvents]
      have hnodup : (orderOf w.trace ++ [i]).Nodup := by
        simp [List.nodup_append, hinv.nodup, hno]
      have hlt' : ∀ j ∈ orderOf w.trace ++ [i], j < ps.length := by
        intro j hj
        simp only [List.mem_append, List.mem_singleton] at hj
        rcases hj with hj | hj
        · exact hinv.lt j hj
        · exact hj ▸ hiN
      have hvals : ∀ c ∈ childCalls w.trace ++ [(i, val ps i)], c.2 = val ps c.1 := by
        intro c hc
        simp only [List.mem_append, List.mem_singleton] at hc
        rcases hc with hc | hc
        · exact hinv.vals c hc
        · subst hc; rfl
      have hhelper : ∀ j h', (updAt (fun h : ThreadHelper T σ => { h with deleted := true }) i
          w.helpers)[j]? = some h' → HelperOK ps j h' (orderOf w.trace ++ [i]) := by
        intro j h' hj
        simp only [getElem?_updAt] at hj
        by_cases hji : j = i
        · subst hji
          rw [if_pos rfl, hh] at hj
          simp only [Option.map_some', Option.some.injEq] at hj
          subst hj
          exact ⟨hv, hf, hf1, Or.inr (Or.inr ⟨rfl, hdd, by simp⟩)⟩
        · rw [if_neg hji] at hj
          exact helperOK_mono ps j i h' _ (hinv.helper j h' hj) hji
      have hddmono : ∀ (j : Nat) (h' : ThreadHelper T σ), w.helpers[j]? = some h' →
          h'.deferredDelete = true →
          ∃ h'' : ThreadHelper T σ,
            (updAt (fun h : ThreadHelper T σ => { h with deleted := true }) i
              w.helpers)[j]? = some h'' ∧ h''.deferredDelete = true := by
        intro j h' hj hd'
        by_cases hji : j = i
        · subst hji
          exact ⟨_, getElem?_updAt_self _ _ _ _ hj, hd'⟩
        · refine ⟨h', ?_, hd'⟩
          rw [getElem?_updAt, if_neg hji]
          exact hj
      have huser : ps[i].2 (val ps i) w.user
          = applyCalls ps (childCalls w.trace ++ [(i, val ps i)]) u := by
        rw [applyCalls_append, ← hp2]
        simp [applyCalls, hcont]
      rw [ThreadHelper_dtor_start i h w ps[i].2 i hh hdd hd hf1 hf ht (hinv.fn ▸ hleaf)]
      rw [hinv.counter, hinv.tasks, length_mkTasks, hinv.fn, hinv.fn1, hres, hp3]
      by_cases hc : (orderOf w.trace).length + 1 = ps.length
      · rw [if_pos hc]
        have horder : orderOf (w.trace ++ [Event.child i (val ps i)] ++ terminalEvents a b
            ++ [Event.deleteLater Ref.top]) = orderOf w.trace ++ [i] := by
          unfold orderOf
          rw [hcalls2]
          simp
        refine ⟨⟨?_, ?_, ?_, ?_, ?_, hinv.tasks, hinv.fn, hinv.fn1, ?_, ?_, ?_⟩,
          Or.inr hcalls2, fun _ _ _ => ?_, hddmono⟩
        · simp only [horder]; exact hnodup
        · simp only [horder]; exact hlt'
        · simp only [hcalls2]; exact hvals
        · simp only [length_updAt]; exact hinv.len
        · simp only [horder]; exact hhelper
        · simp only [horder]; simp
        · simp only [horder]
          intro hl
          simp only [List.length_append, List.length_singleton] at hl
          omega
        · intro _
          refine ⟨w.trace, i, rfl, hp1, ?_, by simp, ?_⟩
          · simp only [hcalls2, huser]
          · intro hx; simp [hx]
        · simp only [horder]; simp
      · rw [if_neg hc]
        have horder : orderOf (w.trace ++ [Event.child i (val ps i)]) = orderOf w.trace ++ [i] := by
          unfold orderOf
          rw [hcalls1]
          simp
        refine ⟨⟨?_, ?_, ?_, ?_, ?_, hinv.tasks, hinv.fn, hinv.fn1, ?_, ?_, ?_⟩,
          Or.inr hcalls1, fun _ _ _ => ?_, hddmono⟩
        · simp only [horder]; exact hnodup
        · simp only [horder]; exact hlt'
        · simp only [hcalls1]; exact hvals
        · simp only [length_updAt]; exact hinv.len
        · simp only [horder]; exact hhelper
        · simp only [horder]; simp
        · intro _
          refine ⟨countP_isTopEvent_terminalEvents_child _ _ _ hp1, ?_, rfl⟩
          simp only [hcalls1, huser]
        · simp only [horder]
          intro hl
          simp only [List.length_append, List.length_singleton] at hl
          exact absurd hl hc
        · simp only [horder]; simp
    · rw [ThreadHelper_dtor_idle i w (fun h' hh' => by
        rw [hh] at hh'
        simp only [Option.some.injEq] at hh'
        subst hh'
        exact Or.inr hd)]
      exact ⟨hinv, Or.inl rfl, fun _ _ _ => hin, fun j h hj hd => ⟨h, hj, hd⟩⟩

theorem parInv_step (ps : List (T × (T → σ → σ))) (u : σ) (a : Option (Fn T σ))
    (b : Option (σ → σ)) (hleaf : Leaf a) (w : World T σ) (hinv : ParInv ps u a b w) (e : Env) :
    ParInv ps u a b (step e w)
      ∧ (∀ j, j ∈ orderOf w.trace → j ∈ orderOf (step e w).trace)
      ∧ (∀ j, Ready w j → Ready (step e w) j) := by
  cases e with
  | finish i =>
    obtain ⟨h1, h2, h3, _⟩ := parInv_finish ps u a b w hinv i
    refine ⟨h1, fun j hj => ?_, fun j ⟨h, hj, hd⟩ => h3 j h hj hd⟩
    simp only [step, orderOf, h2]
    exact hj
  | dispose i =>
    obtain ⟨h1, h2, _, h4⟩ := parInv_dispose ps u a b hleaf w hinv i
    refine ⟨h1, fun j hj => ?_, fun j ⟨h, hj, hd⟩ => h4 j h hj hd⟩
    simp only [step, orderOf]
    rcases h2 with h2 | h2
    · rw [h2]; exact hj
    · rw [h2, List.map_append]
      exact List.mem_append_left _ hj

theorem parInv_runEnv (ps : List (T × (T → σ → σ))) (u : σ) (a : Option (Fn T σ))
    (b : Option (σ → σ)) (hleaf : Leaf a) (sched : List Env) (w : World T σ)
    (hinv : ParInv ps u a b w) :
    ParInv ps u a b (runEnv sched w)
      ∧ (∀ j, j ∈ orderOf w.trace → j ∈ orderOf (runEnv sched w).trace) := by
  induction sched generalizing w with
  | nil => exact ⟨hinv, fun _ h => h⟩
  | cons e es ih =>
    obtain ⟨h1, h2, _⟩ := parInv_step ps u a b hleaf w hinv e
    obtain ⟨h3, h4⟩ := ih (step e w) h1
    exact ⟨h3, fun j hj => h4 j (h2 j hj)⟩

theorem par_delivered_of_ready (ps : List (T × (T → σ → σ))) (u : σ) (a : Option (Fn T σ))
    (b : Option (σ → σ)) (hleaf : Leaf a) (i : Nat) (sched : List Env) (w : World T σ)
    (hinv : ParInv ps u a b w) (hr : Ready w i) (hs : Env.dispose i ∈ sched) :
    i ∈ orderOf (runEnv sched w).trace := by
  induction sched generalizing w with
  | nil => simp at hs
  | cons e es ih =>
    obtain ⟨h1, _, h3⟩ := parInv_step ps u a b hleaf w hinv e
    by_cases he : e = Env.dispose i
    · subst he
      obtain ⟨h, hj, hd⟩ := hr
      have hin := (parInv_dispose ps u a b hleaf w hinv i).2.2.1 h hj hd
      exact (parInv_runEnv ps u a b hleaf es _ h1).2 i hin
    · have hs' : Env.dispose i ∈ es := by
        simp only [List.mem_cons] at hs
        rcases hs with hs | hs
        · exact absurd hs.symm he
        · exact hs
      exact ih (step e w) h1 (h3 i hr) hs'

theorem par_delivered (ps : List (T × (T → σ → σ))) (u : σ) (a : Option (Fn T σ))
    (b : Option (σ → σ)) (hleaf : Leaf a) (i : Nat) (hi : i < ps.length) (sched : List Env)
    (w : World T σ) (hinv : ParInv ps u a b w)
    (hs : List.Sublist [Env.finish i, Env.dispose i] sched) :
    i ∈ orderOf (runEnv sched w).trace := by
  induction sched generalizing w with
  | nil => simp at hs
  | cons e es ih =>
    obtain ⟨h1, _, _⟩ := parInv_step ps u a b hleaf w hinv e
    rcases List.sublist_cons_iff.1 hs with hs' | ⟨r, hr, hs'⟩
    · exact ih (step e w) h1 hs'
    · have he : e = Env.finish i ∧ r = [Env.dispose i] := by simpa using hr.symm
      obtain ⟨he1, he2⟩ := he
      subst he1 he2
      obtain ⟨h', hj, hd⟩ := (parInv_finish ps u a b w hinv i).2.2.2 hi
      exact par_delivered_of_ready ps u a b hleaf i es _ h1 ⟨h', hj, hd⟩
        (List.singleton_sublist.1 hs')

theorem par_complete (ps : List (T × (T → σ → σ))) (u : σ) (a : Option (Fn T σ))
    (b : Option (σ → σ)) (hleaf : Leaf a) (sched : List Env) (w : World T σ)
    (hinv : ParInv ps u a b w) (hc : Complete ps.length sched) :
    (orderOf (runEnv sched w).trace).length = ps.length := by
  have h1 := (parInv_runEnv ps u a b hleaf sched w hinv).1
  exact full_of_mem _ _ h1.nodup h1.lt
    (fun i hi => par_delivered ps u a b hleaf i hi sched w hinv (hc i hi))

theorem exec_some (sched : List Env) (w w' : World T σ) (h : exec sched w = some w') :
    ∃ pre, w' = runEnv pre w ∧ w'.exited = true := by
  induction sched generalizing w with
  | nil =>
    by_cases hx : w.exited = true
    · simp only [exec, hx, if_true, Option.some.injEq] at h
      exact ⟨[], h ▸ rfl, h ▸ hx⟩
    · simp [exec, hx] at h
  | cons e es ih =>
    by_cases hx : w.exited = true
    · simp only [exec, hx, if_true, Option.some.injEq] at h
      exact ⟨[], h ▸ rfl, h ▸ hx⟩
    · simp only [exec, hx, if_false] at h
      obtain ⟨pre, h1, h2⟩ := ih (step e w) h
      exact ⟨e :: pre, h1, h2⟩

theorem exec_isSome (sched : List Env) (w : World T σ)
    (h : (runEnv sched w).exited = true) : ∃ w', exec sched w = some w' := by
  induction sched generalizing w with
  | nil => exact ⟨w, by simp only [runEnv] at h; simp [exec, h]⟩
  | cons e es ih =>
    by_cases hx : w.exited = true
    · exact ⟨w, by simp [exec, hx]⟩
    · simp only [exec, hx, if_false]
      exact ih (step e w) h

theorem isTopEvent_of_isTerminal (e : Event T) (h : isTerminal Ref.top e = true) :
    isTopEvent e = true := by
  cases e with
  | value r v => cases r <;> simp_all [isTerminal, isTopEvent]
  | novalue r => cases r <;> simp_all [isTerminal, isTopEvent]
  | started i => simp [isTerminal] at h
  | work i b => simp [isTerminal] at h
  | child j v => simp [isTerminal] at h
  | deleteLater r => simp [isTerminal] at h

theorem countP_isTerminal_zero (l : List (Event T)) (h : l.countP isTopEvent = 0) :
    l.countP (isTerminal Ref.top) = 0 := by
  rw [List.countP_eq_zero] at h ⊢
  exact fun e he ht => h e he (isTopEvent_of_isTerminal e ht)

theorem then_any_pairWorld (c : Continuation T σ) (s : T × (T → σ → σ))
    (t : List (T × (T → σ → σ))) (u : σ) :
    ∃ a b, then_any Ref.top c (run_pair s t (World.init u)).2 = parWorld a b (s :: t) u
      ∧ Leaf a ∧ terminalEvents a b = [terminalEvent c] := by
  rw [run_pair_eq]
  cases c with
  | value f =>
    exact ⟨some (Fn.user f), none, then_pairWorld _ s t u, Or.inr (Or.inl ⟨f, rfl⟩), rfl⟩
  | novalue g =>
    exact ⟨none, some g, then_1_pairWorld _ s t u, Or.inl rfl, rfl⟩

theorem isTerminal_terminalEvent (c : Continuation T σ) :
    isTerminal Ref.top (terminalEvent c) = true := by
  cases c <;> simp [terminalEvent, isTerminal]

/-- C1 : a composite future built from the pairs `s, t ...` (so `N ≥ 1`
children) and driven by `then( c )`, either overload.  Under every schedule
the terminal continuation has been called at most once; when it has been
called, the trace ends with "a per-child continuation, `c`, `deleteLater()`
of the future", `c` was not called before, and the per-child continuations
called before `c` are those of all `N` children, each once; and `c` has been
called under every schedule in which every child finishes and is disposed
of, whatever the order. -/
theorem C1_parallel_terminal_once (s : T × (T → σ → σ)) (t : List (T × (T → σ → σ)))
    (u : σ) (c : Continuation T σ) (sched : List Env) :
    (runEnv sched (then_any Ref.top c (run_pair s t (World.init u)).2)).trace.countP
        (isTerminal Ref.top) ≤ 1
      ∧ ((runEnv sched (then_any Ref.top c (run_pair s t (World.init u)).2)).trace.countP
            (isTerminal Ref.top) = 1 →
          ∃ pre j,
            (runEnv sched (then_any Ref.top c (run_pair s t (World.init u)).2)).trace
                = pre ++ [Event.child j (val (s :: t) j), terminalEvent c,
                    Event.deleteLater Ref.top]
              ∧ pre.countP (isTerminal Ref.top) = 0
              ∧ (orderOf (pre ++ [Event.child j (val (s :: t) j)])).Perm
                  (List.range (t.length + 1)))
      ∧ (Complete (t.length + 1) sched →
          (runEnv sched (then_any Ref.top c (run_pair s t (World.init u)).2)).trace.countP
            (isTerminal Ref.top) = 1) := by
  obtain ⟨a, b, hw, hleaf, hterm⟩ := then_any_pairWorld c s t u
  rw [hw]
  have hinv := (parInv_runEnv (s :: t) u a b hleaf sched _ (parInv_init a b s t u)).1
  have hle := length_le_of_nodup _ _ hinv.nodup hinv.lt
  rcases Nat.lt_or_ge (orderOf (runEnv sched (parWorld a b (s :: t) u)).trace).length
      (s :: t).length with hlt | hge
  · have h0 := countP_isTerminal_zero _ (hinv.pending hlt).1
    refine ⟨by omega, fun h1 => by omega, fun hc => ?_⟩
    have := par_complete (s :: t) u a b hleaf sched _ (parInv_init a b s t u) hc
    omega
  · have hlen := Nat.le_antisymm hle hge
    obtain ⟨pre, j, htr, hpre, _, _, _⟩ := hinv.done hlen
    have hpre0 := countP_isTerminal_zero _ hpre
    have hcount : (runEnv sched (parWorld a b (s :: t) u)).trace.countP (isTerminal Ref.top)
        = 1 := by
      rw [htr, hterm]
      have h1 := isTerminal_terminalEvent c
      have h2 : isTerminal Ref.top (Event.deleteLater Ref.top : Event T) = false := rfl
      have h3 : ∀ v, isTerminal Ref.top (Event.child j v : Event T) = false := fun _ => rfl
      simp [List.countP_append, List.countP_cons, hpre0, h1, h2, h3]
    refine ⟨by omega, fun _ => ⟨pre, j, ?_, hpre0, ?_⟩, fun _ => hcount⟩
    · rw [htr, hterm]; simp
    · have horder : orderOf (pre ++ [Event.child j (val (s :: t) j)])
          = orderOf (runEnv sched (parWorld a b (s :: t) u)).trace := by
        unfold orderOf
        rw [htr, hterm]
        simp only [childCalls_append]
        cases c <;> simp [childCalls, terminalEvent]
      rw [horder]
      exact perm_range_of_full _ _ hinv.nodup hinv.lt hlen

/-- Witness of `C1_parallel_terminal_once` : two children, the second
completing first; the terminal continuation has been called once. -/
theorem C1_parallel_terminal_once_witness :
    (runEnv [Env.finish 1, Env.dispose 1, Env.finish 0, Env.dispose 0]
        (then_any Ref.top (Continuation.novalue (fun l => 0 :: l))
          (run_pair ((1 : Nat), fun x (l : List Nat) => x :: l) [(2, fun x l => x :: l)]
            (World.init [])).2)).trace.countP (isTerminal Ref.top) = 1 :=
  (C1_parallel_terminal_once ((1 : Nat), fun x (l : List Nat) => x :: l) [(2, fun x l => x :: l)]
    [] (Continuation.novalue (fun l => 0 :: l))
    [Env.finish 1, Env.dispose 1, Env.finish 0, Env.dispose 0]).2.2 (by
      intro i hi
      simp only [List.length_cons, List.length_nil] at hi
      have : i = 0 ∨ i = 1 := by omega
      rcases this with rfl | rfl <;> decide)

theorem map_range_val {M : Type} (g : T → M) (ps : List (T × (T → σ → σ))) :
    (List.range ps.length).map (fun j => g (val ps j)) = ps.map (fun p => g p.1) := by
  apply List.ext_getElem?
  intro n
  rw [List.getElem?_map, List.getElem?_map]
  by_cases hn : n < ps.length
  · rw [List.getElem?_range hn, List.getElem?_eq_getElem hn]
    simp [val, List.getElem?_eq_getElem hn]
  · have hn' : ps.length ≤ n := Nat.le_of_not_lt hn
    rw [List.getElem?_eq_none (by simpa using hn'), List.getElem?_eq_none hn']
    rfl

theorem calls_eq_of_vals (ps : List (T × (T → σ → σ))) (calls : List (Nat × T))
    (h : ∀ c ∈ calls, c.2 = val ps c.1) :
    calls = (calls.map Prod.fst).map (fun j => (j, val ps j)) := by
  induction calls with
  | nil => rfl
  | cons c cs ih =>
    have hc := h c (by simp)
    have := ih (fun c' hc' => h c' (by simp [hc']))
    simp only [List.map_cons, List.cons.injEq]
    exact ⟨Prod.ext rfl hc, this⟩

theorem acc_applyCalls {M : Type} [AddCommMonoid M] (acc : σ → M) (g : T → M)
    (ps : List (T × (T → σ → σ)))
    (hadd : ∀ p ∈ ps, ∀ v x, acc (p.2 v x) = acc x + g v)
    (calls : List (Nat × T)) (hlt : ∀ c ∈ calls, c.1 < ps.length) (x : σ) :
    acc (applyCalls ps calls x) = acc x + (calls.map (fun c => g c.2)).sum := by
  induction calls generalizing x with
  | nil => simp [applyCalls]
  | cons c cs ih =>
    have hc : c.1 < ps.length := hlt c (by simp)
    have hp : ps[c.1]? = some ps[c.1] := List.getElem?_eq_getElem hc
    have hcont : cont ps c.1 = ps[c.1].2 := cont_eq _ _ _ hp
    simp only [applyCalls, List.map_cons, List.sum_cons]
    rw [ih (fun c' hc' => hlt c' (by simp [hc'])), hcont,
      hadd ps[c.1] (List.getElem_mem _) c.2 x, add_assoc]

/-- C10 : a composite future built from the pairs `s, t ...` and driven by
`await()`.  Whenever `await()` returns, under whatever schedule, the
per-child continuations that have been called are those of all `N`
children, each exactly once and each with the value of its own WorkItem, and
the caller's state is the result of these calls; hence, when every
continuation adds `g` of its argument to an accumulator `acc` of the
caller's state, the accumulator has grown by the sum of `g` over all values.
And `await()` does return under every schedule in which every child
finishes and is disposed of. -/
theorem C10_parallel_await_sum {M : Type} [AddCommMonoid M] (acc : σ → M) (g : T → M)
    (s : T × (T → σ → σ)) (t : List (T × (T → σ → σ))) (u : σ) (sched : List Env) :
    (∀ r, await Ref.top sched (run_pair s t (World.init u)).2 = some r →
        (orderOf r.2.trace).Perm (List.range (t.length + 1))
          ∧ (∀ c ∈ childCalls r.2.trace, c.2 = val (s :: t) c.1)
          ∧ r.2.user = applyCalls (s :: t) (childCalls r.2.trace) u
          ∧ ((∀ p ∈ s :: t, ∀ v x, acc (p.2 v x) = acc x + g v) →
              acc r.2.user = acc u + ((s :: t).map (fun p => g p.1)).sum))
      ∧ (Complete (t.length + 1) sched →
          ∃ r, await Ref.top sched (run_pair s t (World.init u)).2 = some r) := by
  rw [run_pair_eq, await_pairWorld]
  have hleaf : Leaf (some (Fn.await_lambda : Fn T σ)) := Or.inr (Or.inr rfl)
  have hinit := parInv_init (some (Fn.await_lambda : Fn T σ)) none s t u
  refine ⟨fun r hr => ?_, fun hc => ?_⟩
  · cases hex : exec sched (parWorld (some Fn.await_lambda) none (s :: t) u) with
    | none => rw [hex] at hr; simp at hr
    | some w' =>
      rw [hex] at hr
      simp only [Option.map_some', Option.some.injEq] at hr
      subst hr
      obtain ⟨pre, hw', hx⟩ := exec_some _ _ _ hex
      have hinv := (parInv_runEnv (s :: t) u _ none hleaf pre _ hinit).1
      rw [← hw'] at hinv
      have hle := length_le_of_nodup _ _ hinv.nodup hinv.lt
      rcases Nat.lt_or_ge (orderOf w'.trace).length (s :: t).length with hlt | hge
      · have := (hinv.pending hlt).2.2
        rw [hx] at this
        exact Bool.noConfusion this
      · have hlen := Nat.le_antisymm hle hge
        obtain ⟨_, _, _, _, huser, _, _⟩ := hinv.done hlen
        have hperm := perm_range_of_full _ _ hinv.nodup hinv.lt hlen
        have huser' : w'.user = applyCalls (s :: t) (childCalls w'.trace) u := huser
        refine ⟨hperm, hinv.vals, huser', fun hadd => ?_⟩
        have hlt' : ∀ c ∈ childCalls w'.trace, c.1 < (s :: t).length :=
          fun c hc => hinv.lt c.1 (List.mem_map_of_mem Prod.fst hc)
        rw [huser', acc_applyCalls acc g (s :: t) hadd _ hlt' u]
        congr 1
        have hcalls := calls_eq_of_vals (s :: t) _ hinv.vals
        have hmap : (childCalls w'.trace).map (fun c => g c.2)
            = (orderOf w'.trace).map (fun j => g (val (s :: t) j)) := by
          conv_lhs => rw [hcalls]
          simp [orderOf, List.map_map, Function.comp_def]
        rw [hmap, (hperm.map _).sum_eq, map_range_val g (s :: t)]
  · have hlen := par_complete (s :: t) u _ none hleaf sched _ hinit hc
    have hinv := (parInv_runEnv (s :: t) u _ none hleaf sched _ hinit).1
    obtain ⟨_, _, _, _, _, hx, _⟩ := hinv.done hlen
    obtain ⟨w', hw'⟩ := exec_isSome sched _ (hx.trans rfl)
    exact ⟨(w'.q, w'), by rw [hw']; rfl⟩

/-- Witness of `C10_parallel_await_sum` : WorkItems returning 1, 2 and 3 whose
continuations add their argument to a sum; the second child completes first,
then the third, then the first.  `await()` returns and the sum is 6. -/
theorem C10_parallel_await_sum_witness :
    ∃ r, await Ref.top
          [Env.finish 1, Env.dispose 1, Env.finish 0, Env.finish 2, Env.dispose 2, Env.dispose 0]
          (run_pair ((1 : Nat), fun v (x : Nat) => x + v)
            [(2, fun v x => x + v), (3, fun v x => x + v)] (World.init 0)).2 = some r
      ∧ r.2.user = 6 := by
  have h := C10_parallel_await_sum (fun x : Nat => x) (fun v : Nat => v)
    ((1 : Nat), fun v (x : Nat) => x + v) [(2, fun v x => x + v), (3, fun v x => x + v)] 0
    [Env.finish 1, Env.dispose 1, Env.finish 0, Env.finish 2, Env.dispose 2, Env.dispose 0]
  obtain ⟨r, hr⟩ := h.2 (by
    intro i hi
    simp only [List.length_cons, List.length_nil] at hi
    have : i = 0 ∨ i = 1 ∨ i = 2 := by omega
    rcases this with rfl | rfl | rfl <;> decide)
  refine ⟨r, hr, ?_⟩
  have := (h.1 r hr).2.2.2 (by
    intro p hp v x
    simp only [List.mem_cons, List.mem_singleton, List.not_mem_nil, or_false] at hp
    rcases hp with rfl | rfl | rfl <;> rfl)
  simpa using this

/-! ### Sequential composition -/

theorem ThreadHelper_dtor_queue_last (i : Nat) (h : ThreadHelper T σ) (w : World T σ)
    (k : T → σ → σ) (n : Nat) (g : σ → σ)
    (hi : w.helpers[i]? = some h) (hdd : h.deferredDelete = true) (hd : h.deleted = false)
    (hf1 : h.m_future.m_function_1 = none)
    (hf : h.m_future.m_function = some (Fn.queue_lambda Ref.top))
    (ht : w.top.m_tasks[w.top.m_counter]? = some (n, k))
    (hg : w.top.m_function_1 = some g)
    (hlast : w.top.m_counter + 1 = w.top.m_tasks.length) :
    ThreadHelper_dtor i w
      = { w with
          helpers := updAt (fun h => { h with deleted := true }) i w.helpers
          top := { w.top with m_counter := w.top.m_counter + 1 }
          user := g (k h.m_result w.user)
          trace := w.trace ++ [Event.child w.top.m_counter h.m_result, Event.novalue Ref.top,
            Event.deleteLater Ref.top] } := by
  simp only [ThreadHelper_dtor, hi, hdd, hd, and_self, if_true, future_run, getFuture,
    Option.map_some', hf1, hf, call, callWith, ht, hlast, hg, modifyFuture, emit,
    call_novalue, future_deleteLater, modifyHelper, List.append_assoc, List.singleton_append]
  simp

theorem ThreadHelper_dtor_queue_next (i : Nat) (h : ThreadHelper T σ) (w : World T σ)
    (k k' : T → σ → σ) (n n' : Nat) (h' : ThreadHelper T σ)
    (hi : w.helpers[i]? = some h) (hdd : h.deferredDelete = true) (hd : h.deleted = false)
    (hf1 : h.m_future.m_function_1 = none)
    (hf : h.m_future.m_function = some (Fn.queue_lambda Ref.top))
    (ht : w.top.m_tasks[w.top.m_counter]? = some (n, k))
    (hnext : w.top.m_counter + 1 ≠ w.top.m_tasks.length)
    (ht' : w.top.m_tasks[w.top.m_counter + 1]? = some (n', k'))
    (hi' : w.helpers[n']? = some h') (htk : h'.m_future.m_tasks = [])
    (hth : h'.m_future.m_thread = some n') (hr : h'.thread ≠ ThreadState.running) :
    ThreadHelper_dtor i w
      = { w with
          helpers := updAt (fun h => { h with deleted := true }) i
            (updAt (fun h => { h with
              m_future := { h.m_future with m_function := some (Fn.queue_lambda Ref.top) }
              thread := ThreadState.running }) n' w.helpers)
          top := { w.top with m_counter := w.top.m_counter + 1 }
          user := k h.m_result w.user
          trace := w.trace ++ [Event.child w.top.m_counter h.m_result, Event.started n'] } := by
  simp only [ThreadHelper_dtor, hi, hdd, hd, and_self, if_true, future_run, getFuture,
    Option.map_some', hf1, hf, call, callWith, ht, hnext, if_false, modifyFuture, emit, _queue,
    ht']
  rw [then_child_eq n' h' _ _ (by exact hi') htk hth hr]
  simp [modifyHelper]

theorem queue_pairWorld (c : σ → σ) (s : T × (T → σ → σ)) (t : List (T × (T → σ → σ)))
    (u : σ) :
    queue Ref.top c (pairWorld (s :: t) u) = seqWorld c s t u := by
  have h := then_child_fresh [] (mkHelpers 1 t) s.1 (Fn.queue_lambda Ref.top)
    ({ pairWorld (s :: t) u with
        top := { (pairWorld (s :: t) u).top with m_function_1 := some c } })
    (by simp [pairWorld, mkHelpers])
  simp only [List.length_nil, List.nil_append] at h
  simp only [queue, getFuture, manages_multiple_futures, _queue, modifyFuture]
  simp only [pairWorld, length_mkTasks, List.length_cons, gt_iff_lt, Nat.zero_lt_succ,
    decide_True, if_true, mkTasks, List.getElem?_cons_zero] at h ⊢
  rw [h]
  rfl

theorem seqInv_init (c : σ → σ) (s : T × (T → σ → σ)) (t : List (T × (T → σ → σ)))
    (u : σ) : SeqInv (s :: t) u c (seqWorld c s t u) 0 false := by
  refine ⟨?_, rfl, rfl, rfl, Nat.zero_le _, ?_, ?_, ?_⟩
  · simp [seqWorld, length_mkHelpers]
  · intro j h hj
    cases j with
    | zero =>
      simp only [seqWorld, List.getElem?_cons_zero, Option.some.injEq] at hj
      subst hj
      have hv : val (s :: t) 0 = s.1 := val_eq _ _ _ (List.getElem?_cons_zero)
      exact ⟨hv.symm, rfl, rfl, rfl, Or.inr (Or.inl ⟨rfl, rfl, rfl, Or.inl ⟨rfl, rfl, rfl⟩⟩)⟩
    | succ n =>
      simp only [seqWorld, List.getElem?_cons_succ, getElem?_mkHelpers] at hj
      cases hp : t[n]? with
      | none => rw [hp] at hj; simp at hj
      | some p =>
        rw [hp] at hj
        simp only [Option.map_some', Option.some.injEq] at hj
        subst hj
        have hv : val (s :: t) (n + 1) = p.1 := val_eq _ _ _ (by simpa using hp)
        refine ⟨hv.symm, rfl, rfl, ?_, Or.inr (Or.inr ⟨Nat.succ_pos n, rfl, rfl, rfl⟩)⟩
        simp [ThreadHelper.ctor, future.ctor, Nat.add_comm]
  · simp [seqWorld, seqTrace, seqUpTo]
  · simp [seqWorld, seqUser, applyUpTo]

theorem seq_idle (ps : List (T × (T → σ → σ))) (u : σ) (c : σ → σ) (w : World T σ)
    (k : Nat) (fin : Bool) (hinv : SeqInv ps u c w k fin) (e : Env)
    (he : k < ps.length → e ≠ nextEvent k fin) : step e w = w := by
  cases e with
  | finish i =>
    refine ThreadHelper_run_idle i w (fun h hh => ?_)
    obtain ⟨_, _, _, _, hph⟩ := hinv.helper i h hh
    have hiN : i < ps.length := hinv.len ▸ lt_of_getElem?_eq_some _ _ _ hh
    rcases hph with ⟨_, hd⟩ | ⟨hik, _, _, hph⟩ | ⟨_, hthr, _, _⟩
    · exact Or.inr hd
    · rcases hph with ⟨hfin, _, _⟩ | ⟨_, _, hthr, _⟩
      · subst hik hfin
        exact absurd rfl (he hiN)
      · left; rw [hthr]; decide
    · left; rw [hthr]; decide
  | dispose i =>
    refine ThreadHelper_dtor_idle i w (fun h hh => ?_)
    obtain ⟨_, _, _, _, hph⟩ := hinv.helper i h hh
    have hiN : i < ps.length := hinv.len ▸ lt_of_getElem?_eq_some _ _ _ hh
    rcases hph with ⟨_, hd⟩ | ⟨hik, _, _, hph⟩ | ⟨_, _, hdd, _⟩
    · exact Or.inr hd
    · rcases hph with ⟨_, hdd, _⟩ | ⟨hfin, _, _, _⟩
      · exact Or.inl hdd
      · subst hik hfin
        exact absurd rfl (he hiN)
    · exact Or.inl hdd

theorem seq_finish (ps : List (T × (T → σ → σ))) (u : σ) (c : σ → σ) (w : World T σ)
    (k : Nat) (hinv : SeqInv ps u c w k false) (hk : k < ps.length) :
    SeqInv ps u c (step (Env.finish k) w) k true := by
  have hkl : k < w.helpers.length := hinv.len ▸ hk
  have hh : w.helpers[k]? = some w.helpers[k] := List.getElem?_eq_getElem hkl
  obtain ⟨hv, hf1, htk, hth, hph⟩ := hinv.helper k _ hh
  rcases hph with ⟨hlt, _⟩ | ⟨_, hf, hd, hph⟩ | ⟨hlt, _⟩
  · exact absurd hlt (Nat.lt_irrefl _)
  · rcases hph with ⟨_, hdd, hthr⟩ | ⟨hfin, _⟩
    · simp only [step]
      rw [ThreadHelper_run_eq k _ w hh hthr hd]
      refine ⟨?_, hinv.tasks, hinv.fn1, hinv.counter, hinv.le, ?_, ?_, hinv.user⟩
      · simp only [length_updAt]; exact hinv.len
      · intro j h' hj
        simp only [getElem?_updAt] at hj
        by_cases hjk : j = k
        · subst hjk
          rw [if_pos rfl, hh] at hj
          simp only [Option.map_some', Option.some.injEq] at hj
          subst hj
          exact ⟨hv, hf1, htk, hth,
            Or.inr (Or.inl ⟨rfl, hf, hd, Or.inr ⟨rfl, rfl, rfl, hv⟩⟩)⟩
        · rw [if_neg hjk] at hj
          obtain ⟨a1, a2, a3, a4, a5⟩ := hinv.helper j h' hj
          refine ⟨a1, a2, a3, a4, ?_⟩
          rcases a5 with a5 | ⟨a5, _⟩ | a5
          · exact Or.inl a5
          · exact absurd a5 hjk
          · exact Or.inr (Or.inr a5)
      · simp [hinv.trace, seqTrace, hk]
    · exact Bool.noConfusion hfin
  · exact absurd hlt (Nat.lt_irrefl _)

theorem seq_dispose (ps : List (T × (T → σ → σ))) (u : σ) (c : σ → σ) (w : World T σ)
    (k : Nat) (hinv : SeqInv ps u c w k true) (hk : k < ps.length) :
    SeqInv ps u c (step (Env.dispose k) w) (k + 1) false := by
  have hkl : k < w.helpers.length := hinv.len ▸ hk
  have hh : w.helpers[k]? = some w.helpers[k] := List.getElem?_eq_getElem hkl
  obtain ⟨hv, hf1, htk, hth, hph⟩ := hinv.helper k _ hh
  have hp : ps[k]? = some ps[k] := List.getElem?_eq_getElem hk
  have hcont : cont ps k = ps[k].2 := cont_eq _ _ _ hp
  have ht : w.top.m_tasks[w.top.m_counter]? = some (k, ps[k].2) := by
    rw [hinv.counter, hinv.tasks, getElem?_mkTasks, hp]
    simp
  have huser : w.user = applyUpTo ps u k := by
    rw [hinv.user, seqUser, if_pos hk]
  rcases hph with ⟨hlt, _⟩ | ⟨_, hf, hd, hph⟩ | ⟨hlt, _⟩
  · exact absurd hlt (Nat.lt_irrefl _)
  · rcases hph with ⟨hfin, _⟩ | ⟨_, hdd, hthr, hres⟩
    · exact Bool.noConfusion hfin
    · simp only [step]
      by_cases hlast : k + 1 = ps.length
      · -- child `k` is the last one
        rw [ThreadHelper_dtor_queue_last k _ w ps[k].2 k c hh hdd hd hf1 hf ht hinv.fn1
          (by rw [hinv.counter, hinv.tasks, length_mkTasks]; exact hlast)]
        rw [hinv.counter, hres]
        refine ⟨?_, hinv.tasks, hinv.fn1, rfl, by omega, ?_, ?_, ?_⟩
        · simp only [length_updAt]; exact hinv.len
        · intro j h' hj
          simp only [getElem?_updAt] at hj
          by_cases hjk : j = k
          · subst hjk
            rw [if_pos rfl, hh] at hj
            simp only [Option.map_some', Option.some.injEq] at hj
            subst hj
            exact ⟨hv, hf1, htk, hth, Or.inl ⟨Nat.lt_succ_self _, rfl⟩⟩
          · rw [if_neg hjk] at hj
            obtain ⟨a1, a2, a3, a4, a5⟩ := hinv.helper j h' hj
            have hjN : j < ps.length := hinv.len ▸ lt_of_getElem?_eq_some _ _ _ hj
            refine ⟨a1, a2, a3, a4, ?_⟩
            rcases a5 with ⟨a5, a6⟩ | ⟨a5, _⟩ | ⟨a5, _⟩
            · exact Or.inl ⟨Nat.lt_succ_of_lt a5, a6⟩
            · exact absurd a5 hjk
            · omega
        · have hnot : ¬ (k + 1 < ps.length) := by omega
          simp [hinv.trace, seqTrace, hk, hnot, seqUpTo, seqBlock]
        · have hnot : ¬ (k + 1 < ps.length) := by omega
          simp only [seqUser, if_neg hnot, applyUpTo, hcont, huser]
      · -- child `k + 1` is started
        have hk1 : k + 1 < ps.length := by omega
        have hk1l : k + 1 < w.helpers.length := hinv.len ▸ hk1
        have hh' : w.helpers[k + 1]? = some w.helpers[k + 1] := List.getElem?_eq_getElem hk1l
        have hp' : ps[k + 1]? = some ps[k + 1] := List.getElem?_eq_getElem hk1
        have ht' : w.top.m_tasks[w.top.m_counter + 1]? = some (k + 1, ps[k + 1].2) := by
          rw [hinv.counter, hinv.tasks, getElem?_mkTasks, hp']
          simp
        obtain ⟨hv', hf1', htk', hth', hph'⟩ := hinv.helper (k + 1) _ hh'
        have hfresh : w.helpers[k + 1].thread = ThreadState.notStarted
            ∧ w.helpers[k + 1].deferredDelete = false ∧ w.helpers[k + 1].deleted = false := by
          rcases hph' with ⟨hlt, _⟩ | ⟨hlt, _⟩ | ⟨_, b1, b2, b3⟩
          · omega
          · omega
          · exact ⟨b1, b2, b3⟩
        rw [ThreadHelper_dtor_queue_next k _ w ps[k].2 ps[k + 1].2 k (k + 1) _ hh hdd hd hf1 hf
          ht (by rw [hinv.counter, hinv.tasks, length_mkTasks]; exact hlast) ht' hh' htk' hth'
          (by rw [hfresh.1]; decide)]
        rw [hinv.counter, hres]
        refine ⟨?_, hinv.tasks, hinv.fn1, rfl, by omega, ?_, ?_, ?_⟩
        · simp only [length_updAt]; exact hinv.len
        · intro j h' hj
          simp only [getElem?_updAt] at hj
          by_cases hjk : j = k
          · subst hjk
            rw [if_pos rfl, if_neg (by omega), hh] at hj
            simp only [Option.map_some', Option.some.injEq] at hj
            subst hj
            exact ⟨hv, hf1, htk, hth, Or.inl ⟨Nat.lt_succ_self _, rfl⟩⟩
          · rw [if_neg hjk] at hj
            by_cases hjk1 : j = k + 1
            · subst hjk1
              rw [if_pos rfl, hh'] at hj
              simp only [Option.map_some', Option.some.injEq] at hj
              subst hj
              exact ⟨hv', hf1', htk', hth',
                Or.inr (Or.inl ⟨rfl, rfl, hfresh.2.2, Or.inl ⟨rfl, hfresh.2.1, rfl⟩⟩)⟩
            · rw [if_neg hjk1] at hj
              obtain ⟨a1, a2, a3, a4, a5⟩ := hinv.helper j h' hj
              refine ⟨a1, a2, a3, a4, ?_⟩
              rcases a5 with ⟨a5, a6⟩ | ⟨a5, _⟩ | ⟨a5, a6⟩
              · exact Or.inl ⟨Nat.lt_succ_of_lt a5, a6⟩
              · exact absurd a5 hjk
              · exact Or.inr (Or.inr ⟨by omega, a6⟩)
        · simp [hinv.trace, seqTrace, hk, hk1, seqUpTo, seqBlock]
        · simp only [seqUser, if_pos hk1, applyUpTo, hcont, huser]
  · exact absurd hlt (Nat.lt_irrefl _)

theorem seq_next (ps : List (T × (T → σ → σ))) (u : σ) (c : σ → σ) (w : World T σ)
    (k : Nat) (fin : Bool) (hinv : SeqInv ps u c w k fin) (hk : k < ps.length) :
    SeqInv ps u c (step (nextEvent k fin) w) (if fin = true then k + 1 else k) (!fin) := by
  cases fin with
  | false => exact seq_finish ps u c w k hinv hk
  | true => exact seq_dispose ps u c w k hinv hk

theorem seq_step (ps : List (T × (T → σ → σ))) (u : σ) (c : σ → σ) (w : World T σ)
    (k : Nat) (fin : Bool) (hinv : SeqInv ps u c w k fin) (e : Env) :
    ∃ k' fin', SeqInv ps u c (step e w) k' fin' := by
  by_cases he : k < ps.length ∧ e = nextEvent k fin
  · obtain ⟨hk, he⟩ := he
    subst he
    exact ⟨_, _, seq_next ps u c w k fin hinv hk⟩
  · rw [seq_idle ps u c w k fin hinv e (fun hk h => he ⟨hk, h⟩)]
    exact ⟨k, fin, hinv⟩

theorem seq_runEnv (ps : List (T × (T → σ → σ))) (u : σ) (c : σ → σ) (sched : List Env)
    (w : World T σ) (k : Nat) (fin : Bool) (hinv : SeqInv ps u c w k fin) :
    ∃ k' fin', SeqInv ps u c (runEnv sched w) k' fin' := by
  induction sched generalizing w k fin with
  | nil => exact ⟨k, fin, hinv⟩
  | cons e es ih =>
    obtain ⟨k', fin', h⟩ := seq_step ps u c w k fin hinv e
    exact ih (step e w) k' fin' h

theorem seq_done_stable (ps : List (T × (T → σ → σ))) (u : σ) (c : σ → σ) (sched : List Env)
    (w : World T σ) (fin : Bool) (hinv : SeqInv ps u c w ps.length fin) :
    runEnv sched w = w := by
  induction sched with
  | nil => rfl
  | cons e es ih =>
    simp only [runEnv]
    rw [seq_idle ps u c w ps.length fin hinv e (fun hk => absurd hk (Nat.lt_irrefl _))]
    exact ih

theorem seq_live (ps : List (T × (T → σ → σ))) (u : σ) (c : σ → σ) (sched : List Env)
    (w : World T σ) (k m : Nat) (fin : Bool) (hinv : SeqInv ps u c w k fin)
    (hkm : k + m + 1 = ps.length)
    (hs : List.Sublist
      (if fin = true then Env.dispose k :: seqSched (k + 1) m else seqSched k (m + 1)) sched) :
    ∃ fin', SeqInv ps u c (runEnv sched w) ps.length fin' := by
  induction sched generalizing w k m fin with
  | nil => cases fin <;> simp [seqSched] at hs
  | cons e es ih =>
    have hk : k < ps.length := by omega
    simp only [runEnv]
    by_cases he : e = nextEvent k fin
    · subst he
      have hnext := seq_next ps u c w k fin hinv hk
      cases fin with
      | false =>
        simp only [nextEvent, seqSched, Bool.false_eq_true, if_false] at hs hnext ⊢
        have hs' := List.cons_sublist_cons.1 hs
        exact ih _ k m true hnext hkm (by simpa using hs')
      | true =>
        simp only [nextEvent, if_true] at hs hnext ⊢
        have hs' := List.cons_sublist_cons.1 hs
        cases m with
        | zero =>
          have hkN : k + 1 = ps.length := by omega
          rw [hkN] at hnext
          rw [seq_done_stable ps u c es _ _ hnext]
          exact ⟨_, hnext⟩
        | succ m' =>
          exact ih _ (k + 1) m' false hnext (by omega) (by simpa using hs')
    · rw [seq_idle ps u c w k fin hinv e (fun _ => he)]
      refine ih w k m fin hinv hkm ?_
      rcases List.sublist_cons_iff.1 hs with hs' | ⟨r, hr, _⟩
      · exact hs'
      · exfalso
        apply he
        cases fin with
        | false =>
          simp only [seqSched, Bool.false_eq_true, if_false, List.cons.injEq] at hr
          exact hr.1.symm
        | true =>
          simp only [if_true, List.cons.injEq] at hr
          exact hr.1.symm

theorem startsAfterChild_snoc (ps : List (T × (T → σ → σ))) (tr : List (Event T))
    (e : Event T) (h : StartsAfterChild ps tr)
    (he : ∀ i, e = Event.started (i + 1) → Event.child i (val ps i) ∈ tr) :
    StartsAfterChild ps (tr ++ [e]) := by
  intro pre post i heq
  rcases List.eq_nil_or_concat post with hp | ⟨post', y, hp⟩
  · subst hp
    have h2 := List.append_inj' heq rfl
    have h3 : e = Event.started (i + 1) := by simpa using h2.2
    rw [← h2.1]
    exact he i h3
  · rw [hp, List.concat_eq_append] at heq
    have h1 : tr ++ [e] = (pre ++ Event.started (i + 1) :: post') ++ [y] := by
      rw [heq]; simp
    have h2 := List.append_inj' h1 rfl
    exact h pre post' i h2.1

theorem startsAfterChild_initial (ps : List (T × (T → σ → σ))) (tr full : List (Event T))
    (h : StartsAfterChild ps full) (hp : tr <+: full) : StartsAfterChild ps tr := by
  intro pre post i heq
  obtain ⟨rest, hr⟩ := hp
  exact h pre (post ++ rest) i (by rw [← hr, heq]; simp)

theorem child_mem_seqUpTo (ps : List (T × (T → σ → σ))) (i : Nat) :
    Event.child i (val ps i) ∈ seqUpTo ps (i + 1) := by
  simp [seqUpTo, seqBlock]

theorem startsAfterChild_seqUpTo (ps : List (T × (T → σ → σ))) (k : Nat) :
    StartsAfterChild ps (seqUpTo ps k) := by
  induction k with
  | zero =>
    intro pre post i heq
    simp [seqUpTo] at heq
  | succ k ih =>
    have h1 : seqUpTo ps (k + 1)
        = seqUpTo ps k ++ [Event.started k] ++ [Event.work k true]
            ++ [Event.deleteLater (Ref.helper k)] ++ [Event.child k (val ps k)] := by
      simp [seqUpTo, seqBlock]
    rw [h1]
    refine startsAfterChild_snoc ps _ _ (startsAfterChild_snoc ps _ _
      (startsAfterChild_snoc ps _ _ (startsAfterChild_snoc ps _ _ ih ?_) ?_) ?_) ?_
    · intro i hi
      have hki : k = i + 1 := by simpa using hi
      subst hki
      exact child_mem_seqUpTo ps i
    · intro i hi; exact Event.noConfusion hi
    · intro i hi; exact Event.noConfusion hi
    · intro i hi; exact Event.noConfusion hi

theorem seqUpTo_initial (ps : List (T × (T → σ → σ))) (k n : Nat) (h : k ≤ n) :
    seqUpTo ps k <+: seqUpTo ps n := by
  induction n with
  | zero =>
    have : k = 0 := by omega
    subst this
    exact List.prefix_refl _
  | succ n ih =>
    by_cases hk : k = n + 1
    · subst hk; exact List.prefix_refl _
    · exact (ih (by omega)).trans (List.prefix_append _ _)

theorem seqTrace_initial (ps : List (T × (T → σ → σ))) (k : Nat) (fin : Bool)
    (h : k ≤ ps.length) :
    seqTrace ps k fin
      <+: seqUpTo ps ps.length ++ [Event.novalue Ref.top, Event.deleteLater Ref.top] := by
  unfold seqTrace
  by_cases hk : k < ps.length
  · rw [if_pos hk]
    have h1 : seqUpTo ps k ++ [Event.started k]
          ++ (if fin = true then [Event.work k true, Event.deleteLater (Ref.helper k)] else [])
        <+: seqUpTo ps (k + 1) := by
      simp only [seqUpTo, seqBlock, List.append_assoc]
      rw [List.prefix_append_right_inj]
      cases fin
      · exact ⟨[Event.work k true, Event.deleteLater (Ref.helper k), Event.child k (val ps k)],
          by simp⟩
      · exact ⟨[Event.child k (val ps k)], by simp⟩
    exact (h1.trans (seqUpTo_initial ps (k + 1) ps.length hk)).trans (List.prefix_append _ _)
  · rw [if_neg hk]
    have : k = ps.length := by omega
    subst this
    exact List.prefix_refl _

theorem startedList_seqUpTo (ps : List (T × (T → σ → σ))) (k : Nat) :
    startedList (seqUpTo ps k) = List.range k := by
  induction k with
  | zero => rfl
  | succ k ih =>
    simp [seqUpTo, seqBlock, startedList_append, ih, startedList, List.range_succ]

theorem startedList_seqTrace (ps : List (T × (T → σ → σ))) (k : Nat) (fin : Bool) :
    startedList (seqTrace ps k fin)
      = List.range (startedList (seqTrace ps k fin)).length := by
  unfold seqTrace
  by_cases hk : k < ps.length
  · rw [if_pos hk]
    cases fin <;>
      simp [startedList_append, startedList_seqUpTo, startedList, List.range_succ]
  · rw [if_neg hk]
    simp [startedList_append, startedList_seqUpTo, startedList]

/-- C2 : a composite future built from the pairs `s, t ...` and driven by
`queue( c )`.  Under every schedule the observed trace is an initial part of
one fixed sequence, "child 0 started, its WorkItem executed, its helper
scheduled for deletion, its per-child continuation called, child 1 started,
...", ending with the call of `c`; in particular the thread of child `i + 1`
is started only after the per-child continuation of child `i` has been
called, and the threads started are those of children `0, 1, 2, ...` in this
order.  The whole sequence is observed when the children finish and are
disposed of one after the other. -/
theorem C2_queue_sequential (s : T × (T → σ → σ)) (t : List (T × (T → σ → σ)))
    (u : σ) (c : σ → σ) (sched : List Env) :
    (runEnv sched (queue Ref.top c (run_pair s t (World.init u)).2)).trace
        <+: seqUpTo (s :: t) (t.length + 1)
              ++ [Event.novalue Ref.top, Event.deleteLater Ref.top]
      ∧ (∀ pre post i,
          (runEnv sched (queue Ref.top c (run_pair s t (World.init u)).2)).trace
              = pre ++ Event.started (i + 1) :: post →
            Event.child i (val (s :: t) i) ∈ pre)
      ∧ startedList (runEnv sched (queue Ref.top c (run_pair s t (World.init u)).2)).trace
          = List.range (startedList
              (runEnv sched (queue Ref.top c (run_pair s t (World.init u)).2)).trace).length
      ∧ (List.Sublist (seqSched 0 (t.length + 1)) sched →
          (runEnv sched (queue Ref.top c (run_pair s t (World.init u)).2)).trace
            = seqUpTo (s :: t) (t.length + 1)
                ++ [Event.novalue Ref.top, Event.deleteLater Ref.top]) := by
  rw [run_pair_eq, queue_pairWorld]
  have hinit := seqInv_init c s t u
  obtain ⟨k, fin, hinv⟩ := seq_runEnv (s :: t) u c sched _ 0 false hinit
  have hpre := seqTrace_initial (s :: t) k fin hinv.le
  have hfull : StartsAfterChild (s :: t)
      (seqUpTo (s :: t) (s :: t).length
        ++ [Event.novalue Ref.top, Event.deleteLater Ref.top]) := by
    have h1 : seqUpTo (s :: t) (s :: t).length
          ++ [Event.novalue Ref.top, Event.deleteLater Ref.top]
        = seqUpTo (s :: t) (s :: t).length ++ [Event.novalue Ref.top]
            ++ [Event.deleteLater Ref.top] := by simp
    rw [h1]
    refine startsAfterChild_snoc _ _ _ (startsAfterChild_snoc _ _ _
      (startsAfterChild_seqUpTo _ _) ?_) ?_
    · intro i hi; exact Event.noConfusion hi
    · intro i hi; exact Event.noConfusion hi
  refine ⟨?_, ?_, ?_, fun hs => ?_⟩
  · rw [hinv.trace]; exact hpre
  · rw [hinv.trace]; exact startsAfterChild_initial _ _ _ hfull hpre
  · rw [hinv.trace]; exact startedList_seqTrace _ _ _
  · obtain ⟨fin', hdone⟩ := seq_live (s :: t) u c sched _ 0 t.length false hinit
      (by simp) (by simpa using hs)
    rw [hdone.trace]
    simp [seqTrace]

/-- Witness of `C2_queue_sequential` : two children that finish and are
disposed of in turn; the whole sequence is observed. -/
theorem C2_queue_sequential_witness :
    (runEnv [Env.finish 0, Env.dispose 0, Env.finish 1, Env.dispose 1]
        (queue Ref.top (fun l => 0 :: l)
          (run_pair ((1 : Nat), fun x (l : List Nat) => x :: l) [(2, fun x l => x :: l)]
            (World.init [])).2)).trace
      = seqUpTo [((1 : Nat), fun x (l : List Nat) => x :: l), (2, fun x l => x :: l)] 2
          ++ [Event.novalue Ref.top, Event.deleteLater Ref.top] :=
  (C2_queue_sequential ((1 : Nat), fun x (l : List Nat) => x :: l) [(2, fun x l => x :: l)]
    [] (fun l => 0 :: l)
    [Env.finish 0, Env.dispose 0, Env.finish 1, Env.dispose 1]).2.2.2 (by decide)

/-! ### The completion counter and the value of a composite future -/

theorem await_eq_exec (this : Ref) (sched : List Env) (w : World T σ) :
    await this sched w = (exec sched (await_enter this w)).map (fun w2 => (w2.q, w2)) :=
  rfl

theorem await_enter_pairWorld (s : T × (T → σ → σ)) (t : List (T × (T → σ → σ))) (u : σ) :
    await_enter Ref.top (pairWorld (s :: t) u)
      = parWorld (some Fn.await_lambda) none (s :: t) u := by
  rw [← start_pairWorld]
  rfl

theorem parInv_counter_le (ps : List (T × (T → σ → σ))) (u : σ) (a : Option (Fn T σ))
    (b : Option (σ → σ)) (w : World T σ) (hinv : ParInv ps u a b w) :
    w.top.m_counter ≤ w.top.m_tasks.length ∧ w.top.m_tasks.length = ps.length := by
  rw [hinv.counter, hinv.tasks, length_mkTasks]
  exact ⟨length_le_of_nodup _ _ hinv.nodup hinv.lt, rfl⟩

/-- C15 : a composite future built from the pairs `s, t ...` (`N` children).
In every state reached, under whatever schedule, after `then( c )` (either
overload), inside or after `await()`, or after `queue( g )`, the counter
`m_counter` is at most the number of children, `m_tasks.size()`, which is
`N`. -/
theorem C15_counter_le_children (s : T × (T → σ → σ)) (t : List (T × (T → σ → σ)))
    (u : σ) (c : Continuation T σ) (g : σ → σ) (sched : List Env) :
    ((runEnv sched (then_any Ref.top c (run_pair s t (World.init u)).2)).top.m_counter
        ≤ (runEnv sched (then_any Ref.top c (run_pair s t (World.init u)).2)).top.m_tasks.length
      ∧ (runEnv sched (then_any Ref.top c (run_pair s t (World.init u)).2)).top.m_tasks.length
        = t.length + 1)
    ∧ ((runEnv sched (await_enter Ref.top (run_pair s t (World.init u)).2)).top.m_counter
        ≤ (runEnv sched (await_enter Ref.top (run_pair s t (World.init u)).2)).top.m_tasks.length
      ∧ (runEnv sched (await_enter Ref.top (run_pair s t (World.init u)).2)).top.m_tasks.length
        = t.length + 1)
    ∧ (∀ r, await Ref.top sched (run_pair s t (World.init u)).2 = some r →
        r.2.top.m_counter ≤ r.2.top.m_tasks.length ∧ r.2.top.m_tasks.length = t.length + 1)
    ∧ ((runEnv sched (queue Ref.top g (run_pair s t (World.init u)).2)).top.m_counter
        ≤ (runEnv sched (queue Ref.top g (run_pair s t (World.init u)).2)).top.m_tasks.length
      ∧ (runEnv sched (queue Ref.top g (run_pair s t (World.init u)).2)).top.m_tasks.length
        = t.length + 1) := by
  have hleaf : Leaf (some (Fn.await_lambda : Fn T σ)) := Or.inr (Or.inr rfl)
  have hawait := parInv_init (some (Fn.await_lambda : Fn T σ)) none s t u
  refine ⟨?_, ?_, fun r hr => ?_, ?_⟩
  · obtain ⟨a, b, hw, hl, _⟩ := then_any_pairWorld c s t u
    rw [hw]
    exact parInv_counter_le _ u a b _
      (parInv_runEnv (s :: t) u a b hl sched _ (parInv_init a b s t u)).1
  · rw [run_pair_eq, await_enter_pairWorld]
    exact parInv_counter_le _ u _ none _ (parInv_runEnv (s :: t) u _ none hleaf sched _ hawait).1
  · rw [run_pair_eq, await_eq_exec, await_enter_pairWorld] at hr
    cases hex : exec sched (parWorld (some Fn.await_lambda) none (s :: t) u) with
    | none => rw [hex] at hr; simp at hr
    | some w' =>
      rw [hex] at hr
      simp only [Option.map_some', Option.some.injEq] at hr
      subst hr
      obtain ⟨pre, hw', _⟩ := exec_some _ _ _ hex
      have hinv := (parInv_runEnv (s :: t) u _ none hleaf pre _ hawait).1
      rw [← hw'] at hinv
      exact parInv_counter_le _ u _ none _ hinv
  · rw [run_pair_eq, queue_pairWorld]
    obtain ⟨k, fin, hinv⟩ := seq_runEnv (s :: t) u g sched _ 0 false (seqInv_init g s t u)
    rw [hinv.counter, hinv.tasks, length_mkTasks]
    exact ⟨hinv.le, rfl⟩

theorem valueCalls_append (r : Ref) (l1 l2 : List (Event T)) :
    valueCalls r (l1 ++ l2) = valueCalls r l1 ++ valueCalls r l2 := by
  induction l1 with
  | nil => rfl
  | cons e es ih =>
    cases e with
    | value r' v =>
      by_cases h : r' = r
      · simp [valueCalls, h, ih]
      · simp [valueCalls, h, ih]
    | started i => simp [valueCalls, ih]
    | work i b => simp [valueCalls, ih]
    | child j v => simp [valueCalls, ih]
    | novalue r' => simp [valueCalls, ih]
    | deleteLater r' => simp [valueCalls, ih]

theorem valueCalls_top_nil (l : List (Event T)) (h : l.countP isTopEvent = 0) :
    valueCalls Ref.top l = [] := by
  induction l with
  | nil => rfl
  | cons e es ih =>
    rw [List.countP_cons] at h
    have h1 : es.countP isTopEvent = 0 := by omega
    cases e with
    | value r' v =>
      cases r' with
      | top => simp [isTopEvent] at h
      | helper i => simp [valueCalls, ih h1]
    | started i => simp [valueCalls, ih h1]
    | work i b => simp [valueCalls, ih h1]
    | child j v => simp [valueCalls, ih h1]
    | novalue r' => simp [valueCalls, ih h1]
    | deleteLater r' => simp [valueCalls, ih h1]

/-- C17 : a composite future built from the pairs `s, t ...`, whatever the
values of the WorkItems.  `get()` returns `T()`; whenever `await()` returns
it returns `T()`, and it does return under every schedule in which every
child finishes and is disposed of; and a value continuation registered with
`then` is called with nothing but `T()`, and is called with it under every
such schedule. -/
theorem C17_composite_value_default (s : T × (T → σ → σ)) (t : List (T × (T → σ → σ)))
    (u : σ) (f : T → σ → σ) (sched : List Env) :
    (get Ref.top (run_pair s t (World.init u)).2).1 = default
      ∧ (∀ r, await Ref.top sched (run_pair s t (World.init u)).2 = some r → r.1 = default)
      ∧ (Complete (t.length + 1) sched →
          ∃ r, await Ref.top sched (run_pair s t (World.init u)).2 = some r ∧ r.1 = default)
      ∧ (valueCalls Ref.top
            (runEnv sched (then_ Ref.top (Fn.user f) (run_pair s t (World.init u)).2)).trace = []
          ∨ valueCalls Ref.top
            (runEnv sched (then_ Ref.top (Fn.user f) (run_pair s t (World.init u)).2)).trace
              = [default])
      ∧ (Complete (t.length + 1) sched →
          valueCalls Ref.top
            (runEnv sched (then_ Ref.top (Fn.user f) (run_pair s t (World.init u)).2)).trace
              = [default]) := by
  have hleaf : Leaf (some (Fn.await_lambda : Fn T σ)) := Or.inr (Or.inr rfl)
  have hawait := parInv_init (some (Fn.await_lambda : Fn T σ)) none s t u
  have hret : ∀ r, await Ref.top sched (run_pair s t (World.init u)).2 = some r →
      r.1 = default := by
    intro r hr
    rw [run_pair_eq, await_pairWorld] at hr
    cases hex : exec sched (parWorld (some Fn.await_lambda) none (s :: t) u) with
    | none => rw [hex] at hr; simp at hr
    | some w' =>
      rw [hex] at hr
      simp only [Option.map_some', Option.some.injEq] at hr
      subst hr
      obtain ⟨pre, hw', hx⟩ := exec_some _ _ _ hex
      have hinv := (parInv_runEnv (s :: t) u _ none hleaf pre _ hawait).1
      rw [← hw'] at hinv
      have hle := length_le_of_nodup _ _ hinv.nodup hinv.lt
      rcases Nat.lt_or_ge (orderOf w'.trace).length (s :: t).length with hlt | hge
      · have := (hinv.pending hlt).2.2
        rw [hx] at this
        exact Bool.noConfusion this
      · obtain ⟨_, _, _, _, _, _, hq⟩ := hinv.done (Nat.le_antisymm hle hge)
        exact hq rfl
  have huser : Leaf (some (Fn.user f)) := Or.inr (Or.inl ⟨f, rfl⟩)
  have hthen := (parInv_runEnv (s :: t) u _ none huser sched _
    (parInv_init (some (Fn.user f)) none s t u)).1
  have hdone : (orderOf (runEnv sched (parWorld (some (Fn.user f)) none (s :: t) u)).trace).length
        = (s :: t).length →
      valueCalls Ref.top (runEnv sched (parWorld (some (Fn.user f)) none (s :: t) u)).trace
        = [default] := by
    intro hlen
    obtain ⟨pre, j, htr, hpre, _⟩ := hthen.done hlen
    rw [htr]
    simp [valueCalls_append, valueCalls_top_nil pre hpre, terminalEvents, valueCalls]
  refine ⟨?_, hret, fun hc => ?_, ?_, fun hc => ?_⟩
  · rw [run_pair_eq]
    simp [get, getWith, getFuture, pairWorld, manages_multiple_futures, mkTasks]
  · have hlen := par_complete (s :: t) u _ none hleaf sched _ hawait hc
    have hinv := (parInv_runEnv (s :: t) u _ none hleaf sched _ hawait).1
    obtain ⟨_, _, _, _, _, hx, _⟩ := hinv.done hlen
    obtain ⟨w', hw'⟩ := exec_isSome sched _ (hx.trans rfl)
    have hr : await Ref.top sched (run_pair s t (World.init u)).2 = some (w'.q, w') := by
      rw [run_pair_eq, await_pairWorld, hw']
      rfl
    exact ⟨_, hr, hret _ hr⟩
  · rw [run_pair_eq, then_pairWorld]
    have hle := length_le_of_nodup _ _ hthen.nodup hthen.lt
    rcases Nat.lt_or_ge
        (orderOf (runEnv sched (parWorld (some (Fn.user f)) none (s :: t) u)).trace).length
        (s :: t).length with hlt | hge
    · exact Or.inl (valueCalls_top_nil _ (hthen.pending hlt).1)
    · exact Or.inr (hdone (Nat.le_antisymm hle hge))
  · rw [run_pair_eq, then_pairWorld]
    exact hdone (par_complete (s :: t) u _ none huser sched _
      (parInv_init (some (Fn.user f)) none s t u) hc)

/-! ### The continuation of `queue` -/

theorem countP_isTerminal_seqUpTo (ps : List (T × (T → σ → σ))) (k : Nat) :
    (seqUpTo ps k).countP (isTerminal Ref.top) = 0 := by
  induction k with
  | zero => rfl
  | succ k ih => simp [seqUpTo, seqBlock, List.countP_append, List.countP_cons, ih, isTerminal]

theorem childCalls_seqUpTo (ps : List (T × (T → σ → σ))) (k : Nat) :
    childCalls (seqUpTo ps k) = (List.range k).map (fun j => (j, val ps j)) := by
  induction k with
  | zero => rfl
  | succ k ih =>
    simp [seqUpTo, seqBlock, childCalls_append, ih, childCalls, List.range_succ]

/-- C12 : a composite future built from the pairs `s, t ...` (`N` children)
and driven by `queue( g )`.  Under every schedule `g` has been called at
most once; when it has been called, the trace ends with "per-child
continuation of the last child, `g`, `deleteLater()` of the future", `g` was
not called before, the per-child continuations of all earlier children were
called before, in order, the caller's state is `g` applied to the result of
all per-child continuations, and no later happening changes anything: no
further child is started.  And `g` has been called once the children have
finished and been disposed of in turn. -/
theorem C12_queue_terminal_once (s : T × (T → σ → σ)) (t : List (T × (T → σ → σ)))
    (u : σ) (g : σ → σ) (sched sched' : List Env) :
    (runEnv sched (queue Ref.top g (run_pair s t (World.init u)).2)).trace.countP
        (isTerminal Ref.top) ≤ 1
      ∧ ((runEnv sched (queue Ref.top g (run_pair s t (World.init u)).2)).trace.countP
            (isTerminal Ref.top) = 1 →
          ∃ pre,
            (runEnv sched (queue Ref.top g (run_pair s t (World.init u)).2)).trace
                = pre ++ [Event.child t.length (val (s :: t) t.length), Event.novalue Ref.top,
                    Event.deleteLater Ref.top]
              ∧ pre.countP (isTerminal Ref.top) = 0
              ∧ childCalls pre = (List.range t.length).map (fun j => (j, val (s :: t) j))
              ∧ (runEnv sched (queue Ref.top g (run_pair s t (World.init u)).2)).user
                  = g (applyUpTo (s :: t) u (t.length + 1))
              ∧ runEnv sched' (runEnv sched (queue Ref.top g (run_pair s t (World.init u)).2))
                  = runEnv sched (queue Ref.top g (run_pair s t (World.init u)).2))
      ∧ (List.Sublist (seqSched 0 (t.length + 1)) sched →
          (runEnv sched (queue Ref.top g (run_pair s t (World.init u)).2)).trace.countP
            (isTerminal Ref.top) = 1) := by
  rw [run_pair_eq, queue_pairWorld]
  have hinit := seqInv_init g s t u
  obtain ⟨k, fin, hinv⟩ := seq_runEnv (s :: t) u g sched _ 0 false hinit
  have hfull : (seqTrace (s :: t) (s :: t).length fin).countP (isTerminal Ref.top) = 1 := by
    simp [seqTrace, List.countP_append, List.countP_cons, countP_isTerminal_seqUpTo, isTerminal]
  by_cases hk : k < (s :: t).length
  · have h0 : (runEnv sched (seqWorld g s t u)).trace.countP (isTerminal Ref.top) = 0 := by
      rw [hinv.trace, seqTrace, if_pos hk]
      cases fin <;>
        simp [List.countP_append, List.countP_cons, countP_isTerminal_seqUpTo, isTerminal]
    refine ⟨by omega, fun h1 => by omega, fun hs => ?_⟩
    obtain ⟨fin', hdone⟩ := seq_live (s :: t) u g sched _ 0 t.length false hinit
      (by simp) (by simpa using hs)
    rw [hdone.trace]
    exact (by
      simp [seqTrace, List.countP_append, List.countP_cons, countP_isTerminal_seqUpTo,
        isTerminal])
  · have hkN : k = (s :: t).length := Nat.le_antisymm hinv.le (Nat.le_of_not_lt hk)
    subst hkN
    have h1 : (runEnv sched (seqWorld g s t u)).trace.countP (isTerminal Ref.top) = 1 := by
      rw [hinv.trace]; exact hfull
    refine ⟨by omega, fun _ => ?_, fun _ => h1⟩
    refine ⟨seqUpTo (s :: t) t.length ++ [Event.started t.length, Event.work t.length true,
      Event.deleteLater (Ref.helper t.length)], ?_, ?_, ?_, ?_, ?_⟩
    · rw [hinv.trace]
      simp [seqTrace, seqUpTo, seqBlock]
    · simp [List.countP_append, List.countP_cons, countP_isTerminal_seqUpTo, isTerminal]
    · simp [childCalls_append, childCalls_seqUpTo, childCalls]
    · rw [hinv.user]
      simp [seqUser]
    · exact seq_done_stable (s :: t) u g sched' _ fin hinv

/-! ### `get` on a composite future -/

theorem get_child_fresh (pre rest : List (ThreadHelper T σ)) (v : T) (w : World T σ)
    (hw : w.helpers = pre ++ ThreadHelper.ctor pre.length v :: rest) :
    get_child pre.length w
      = (v, { w with
          helpers := pre ++ { (ThreadHelper.ctor pre.length v : ThreadHelper T σ) with
              deferredDelete := true } :: rest
          trace := w.trace ++ [Event.deleteLater (Ref.helper pre.length),
            Event.work pre.length false] }) := by
  have h0 : w.helpers[pre.length]? = some (ThreadHelper.ctor pre.length v) := by
    rw [hw]; exact getElem?_append_cons_length _ _ _
  have h1 : (updAt (fun h : ThreadHelper T σ => { h with deferredDelete := true }) pre.length
      w.helpers) = pre ++ { (ThreadHelper.ctor pre.length v : ThreadHelper T σ) with
        deferredDelete := true } :: rest := by
    rw [hw, updAt_append_right]
  simp only [get_child, getWith, getFuture, h0, Option.map_some', manages_multiple_futures,
    ThreadHelper.ctor, future.ctor, List.length_nil, gt_iff_lt, Nat.lt_irrefl, decide_False,
    Bool.false_eq_true, if_false, m_get, deleteLater, emit, modifyHelper] at h1 ⊢
  rw [h1, getElem?_append_cons_length]
  simp

theorem get_loop_eq (ps : List (T × (T → σ → σ))) (pre : List (ThreadHelper T σ))
    (w : World T σ) (hw : w.helpers = pre ++ mkHelpers pre.length ps) :
    get_loop get_child pre.length (mkTasks pre.length ps) w
      = { w with
          helpers := pre ++ mkGot pre.length ps
          user := ps.foldl (fun x p => p.2 p.1 x) w.user
          trace := w.trace ++ getTrace pre.length ps } := by
  induction ps generalizing pre w with
  | nil =>
    cases w
    simp_all [get_loop, mkTasks, mkGot, getTrace, mkHelpers]
  | cons p ps ih =>
    simp only [mkTasks, get_loop]
    rw [get_child_fresh pre (mkHelpers (pre.length + 1) ps) p.1 w (by simpa [mkHelpers] using hw)]
    have hlen : (pre ++ [({ (ThreadHelper.ctor pre.length p.1 : ThreadHelper T σ) with
        deferredDelete := true })]).length = pre.length + 1 := by simp
    have := ih (pre ++ [{ (ThreadHelper.ctor pre.length p.1 : ThreadHelper T σ) with
        deferredDelete := true }])
      (emit (Event.child pre.length p.1)
        { w with
          helpers := pre ++ { (ThreadHelper.ctor pre.length p.1 : ThreadHelper T σ) with
              deferredDelete := true } :: mkHelpers (pre.length + 1) ps
          trace := w.trace ++ [Event.deleteLater (Ref.helper pre.length),
            Event.work pre.length false]
          user := p.2 p.1 w.user })
      (by simp [emit])
    rw [hlen] at this
    rw [this]
    simp [mkGot, getTrace, emit]

theorem getElem?_childCalls_getTrace (n j : Nat) (ps : List (T × (T → σ → σ))) :
    (childCalls (getTrace n ps))[j]? = (ps[j]?).map (fun p => (n + j, p.1)) := by
  induction ps generalizing n j with
  | nil => simp [getTrace, childCalls]
  | cons p ps ih =>
    cases j with
    | zero => simp [getTrace, childCalls]
    | succ k => simp [getTrace, childCalls, ih, Nat.add_assoc, Nat.add_comm 1 k]

theorem length_childCalls_getTrace (n : Nat) (ps : List (T × (T → σ → σ))) :
    (childCalls (getTrace n ps)).length = ps.length := by
  induction ps generalizing n with
  | nil => rfl
  | cons p ps ih => simp [getTrace, childCalls, ih]

theorem getElem?_mkGot (n i : Nat) (ps : List (T × (T → σ → σ))) :
    (mkGot n ps)[i]? = (ps[i]?).map (fun p =>
      ({ (ThreadHelper.ctor (n + i) p.1 : ThreadHelper T σ) with deferredDelete := true })) := by
  induction ps generalizing n i with
  | nil => simp [mkGot]
  | cons p ps ih =>
    cases i with
    | zero => simp [mkGot]
    | succ k => simp [mkGot, ih, Nat.add_assoc, Nat.add_comm 1 k]

theorem get_pairWorld (s : T × (T → σ → σ)) (t : List (T × (T → σ → σ))) (u : σ) :
    get Ref.top (pairWorld (s :: t) u)
      = (default, { pairWorld (s :: t) u with
          helpers := mkGot 0 (s :: t)
          user := (s :: t).foldl (fun x p => p.2 p.1 x) u
          trace := getTrace 0 (s :: t) ++ [Event.deleteLater Ref.top] }) := by
  have h := get_loop_eq (s :: t) [] (pairWorld (s :: t) u) (by simp [pairWorld])
  simp only [List.length_nil, List.nil_append] at h
  simp only [get, getWith, getFuture, manages_multiple_futures, future_deleteLater, emit]
  simp only [pairWorld, length_mkTasks, List.length_cons, gt_iff_lt, Nat.zero_lt_succ,
    decide_True, if_true] at h ⊢
  rw [h]
  simp

theorem ThreadHelper_dtor_none (i : Nat) (h : ThreadHelper T σ) (w : World T σ)
    (hi : w.helpers[i]? = some h) (hdd : h.deferredDelete = true) (hd : h.deleted = false)
    (hf1 : h.m_future.m_function_1 = none) (hf : h.m_future.m_function = none) :
    ThreadHelper_dtor i w
      = { w with helpers := updAt (fun h => { h with deleted := true }) i w.helpers } := by
  simp only [ThreadHelper_dtor, hi, hdd, hd, and_self, if_true, future_run, getFuture,
    Option.map_some', hf1, hf, modifyHelper]

theorem gotInv_step (w : World T σ) (hinv : GotInv w) (e : Env) :
    GotInv (step e w) ∧ (step e w).trace = w.trace ∧ (step e w).user = w.user := by
  cases e with
  | finish i =>
    have : ThreadHelper_run i w = w :=
      ThreadHelper_run_idle i w (fun h hh => Or.inl (by rw [(hinv i h hh).2.2]; decide))
    show GotInv (ThreadHelper_run i w) ∧ (ThreadHelper_run i w).trace = w.trace
      ∧ (ThreadHelper_run i w).user = w.user
    rw [this]
    exact ⟨hinv, rfl, rfl⟩
  | dispose i =>
    show GotInv (ThreadHelper_dtor i w) ∧ (ThreadHelper_dtor i w).trace = w.trace
      ∧ (ThreadHelper_dtor i w).user = w.user
    cases hh : w.helpers[i]? with
    | none =>
      rw [ThreadHelper_dtor_idle i w (fun h hh' => by rw [hh] at hh'; exact Option.noConfusion hh')]
      exact ⟨hinv, rfl, rfl⟩
    | some h =>
      by_cases hc : h.deferredDelete = true ∧ h.deleted = false
      · obtain ⟨hf, hf1, hthr⟩ := hinv i h hh
        rw [ThreadHelper_dtor_none i h w hh hc.1 hc.2 hf1 hf]
        refine ⟨fun j h' hj => ?_, rfl, rfl⟩
        simp only [getElem?_updAt] at hj
        by_cases hji : j = i
        · subst hji
          rw [if_pos rfl, hh] at hj
          simp only [Option.map_some', Option.some.injEq] at hj
          subst hj
          exact ⟨hf, hf1, hthr⟩
        · rw [if_neg hji] at hj
          exact hinv j h' hj
      · rw [ThreadHelper_dtor_idle i w (fun h' hh' => by
          rw [hh] at hh'
          simp only [Option.some.injEq] at hh'
          subst hh'
          by_cases hdd : h.deferredDelete = true
          · right
            cases hdel : h.deleted with
            | true => rfl
            | false => exact absurd ⟨hdd, hdel⟩ hc
          · left
            simpa using hdd)]
        exact ⟨hinv, rfl, rfl⟩

theorem gotInv_runEnv (sched : List Env) (w : World T σ) (hinv : GotInv w) :
    (runEnv sched w).trace = w.trace ∧ (runEnv sched w).user = w.user := by
  induction sched generalizing w with
  | nil => exact ⟨rfl, rfl⟩
  | cons e es ih =>
    obtain ⟨h1, h2, h3⟩ := gotInv_step w hinv e
    obtain ⟨h4, h5⟩ := ih (step e w) h1
    exact ⟨h4.trans h2, h5.trans h3⟩

/-- C11 : a composite future built from the pairs `s, t ...` (`N` children).
By the time `get()` returns, exactly `N` per-child continuations have been
called, the `j`-th call being that of the continuation of child `j` with
the value of the WorkItem of child `j`; the caller's state is the result of
applying the continuations in child order; and no later happening calls a
continuation or touches the caller's state again. -/
theorem C11_composite_get_in_order (s : T × (T → σ → σ)) (t : List (T × (T → σ → σ)))
    (u : σ) (sched : List Env) :
    (childCalls (get Ref.top (run_pair s t (World.init u)).2).2.trace).length = t.length + 1
      ∧ (∀ (j : Nat) (p : T × (T → σ → σ)), (s :: t)[j]? = some p →
          (childCalls (get Ref.top (run_pair s t (World.init u)).2).2.trace)[j]?
            = some (j, p.1))
      ∧ (get Ref.top (run_pair s t (World.init u)).2).2.user
          = (s :: t).foldl (fun x p => p.2 p.1 x) u
      ∧ (runEnv sched (get Ref.top (run_pair s t (World.init u)).2).2).trace
          = (get Ref.top (run_pair s t (World.init u)).2).2.trace
      ∧ (runEnv sched (get Ref.top (run_pair s t (World.init u)).2).2).user
          = (get Ref.top (run_pair s t (World.init u)).2).2.user := by
  rw [run_pair_eq, get_pairWorld]
  have hcalls : childCalls (getTrace 0 (s :: t) ++ [Event.deleteLater Ref.top])
      = childCalls (getTrace 0 (s :: t)) := by
    simp [childCalls_append, childCalls]
  have hgot : GotInv ({ pairWorld (s :: t) u with
      helpers := mkGot 0 (s :: t)
      user := (s :: t).foldl (fun x p => p.2 p.1 x) u
      trace := getTrace 0 (s :: t) ++ [Event.deleteLater Ref.top] } : World T σ) := by
    intro j h hj
    simp only [getElem?_mkGot] at hj
    cases hp : (s :: t)[j]? with
    | none => rw [hp] at hj; simp at hj
    | some p =>
      rw [hp] at hj
      simp only [Option.map_some', Option.some.injEq] at hj
      subst hj
      exact ⟨rfl, rfl, rfl⟩
  refine ⟨?_, fun j p hp => ?_, rfl, (gotInv_runEnv sched _ hgot).1,
    (gotInv_runEnv sched _ hgot).2⟩
  · simp only [hcalls, length_childCalls_getTrace, List.length_cons]
  · simp only [hcalls, getElem?_childCalls_getTrace, hp, Option.map_some', Nat.zero_add]

/-- Witness of `C11_composite_get_in_order` : two children whose
continuations append "a" and "b"; after `get()` the string is "ab". -/
theorem C11_composite_get_in_order_witness :
    (get Ref.top (run_pair ((), fun (_ : Unit) (x : String) => x ++ "a")
        [((), fun _ x => x ++ "b")] (World.init "")).2).2.user = "ab" := by
  have h := (C11_composite_get_in_order ((), fun (_ : Unit) (x : String) => x ++ "a")
    [((), fun _ x => x ++ "b")] "" []).2.2.1
  rw [h]
  decide

/-! ### Both continuation slots; sequences of operations -/

theorem simpleWorld_eq2 (v : T) (u : σ) :
    (simpleWorld v u : World T σ)
      = simpleState2 none none v default ThreadState.notStarted false false [] u default false :=
  rfl

theorem step2_other (fn : Option (Fn T σ)) (fn1 : Option (σ → σ)) (v res : T)
    (thr : ThreadState) (dd del : Bool) (tr : List (Event T)) (u : σ) (q : T) (ex : Bool)
    (e : Env) (h1 : e ≠ Env.finish 0) (h2 : e ≠ Env.dispose 0) :
    step e (simpleState2 fn fn1 v res thr dd del tr u q ex)
      = simpleState2 fn fn1 v res thr dd del tr u q ex := by
  cases e with
  | finish i =>
    cases i with
    | zero => exact absurd rfl h1
    | succ n => rfl
  | dispose i =>
    cases i with
    | zero => exact absurd rfl h2
    | succ n => rfl

theorem step2_finish_running (fn : Option (Fn T σ)) (fn1 : Option (σ → σ)) (v res : T)
    (dd : Bool) (tr : List (Event T)) (u : σ) (q : T) (ex : Bool) :
    step (Env.finish 0) (simpleState2 fn fn1 v res ThreadState.running dd false tr u q ex)
      = simpleState2 fn fn1 v v ThreadState.finished true false
          (tr ++ [Event.work 0 true, Event.deleteLater (Ref.helper 0)]) u q ex := by
  simp [step, ThreadHelper_run, simpleState2, deleteLater, emit, modifyHelper, updAt]

theorem step2_finish_idle (fn : Option (Fn T σ)) (fn1 : Option (σ → σ)) (v res : T)
    (thr : ThreadState) (dd del : Bool) (tr : List (Event T)) (u : σ) (q : T) (ex : Bool)
    (h : thr ≠ ThreadState.running ∨ del = true) :
    step (Env.finish 0) (simpleState2 fn fn1 v res thr dd del tr u q ex)
      = simpleState2 fn fn1 v res thr dd del tr u q ex := by
  rcases h with h | h
  · simp [step, ThreadHelper_run, simpleState2, h]
  · simp [step, ThreadHelper_run, simpleState2, h]

theorem step2_dispose_idle (fn : Option (Fn T σ)) (fn1 : Option (σ → σ)) (v res : T)
    (thr : ThreadState) (dd del : Bool) (tr : List (Event T)) (u : σ) (q : T) (ex : Bool)
    (h : dd = false ∨ del = true) :
    step (Env.dispose 0) (simpleState2 fn fn1 v res thr dd del tr u q ex)
      = simpleState2 fn fn1 v res thr dd del tr u q ex := by
  rcases h with h | h
  · simp [step, ThreadHelper_dtor, simpleState2, h]
  · simp [step, ThreadHelper_dtor, simpleState2, h]

theorem step2_dispose (fn : Option (Fn T σ)) (fn1 : Option (σ → σ)) (hleaf : Leaf fn)
    (v res : T) (thr : ThreadState) (tr : List (Event T)) (u : σ) (q : T) (ex : Bool) :
    step (Env.dispose 0) (simpleState2 fn fn1 v res thr true false tr u q ex)
      = simpleState2 fn fn1 v res thr true true (tr ++ runEvents (Ref.helper 0) res fn fn1)
          (runEffect res fn fn1 u)
          (if terminalExit fn fn1 = true then res else q) (terminalExit fn fn1 || ex) := by
  cases fn1 with
  | some g =>
    simp [step, ThreadHelper_dtor, simpleState2, future_run, getFuture, modifyHelper, updAt,
      future.ctor, call_novalue, emit, runEvents, runEffect, terminalExit]
  | none =>
    rcases hleaf with h | ⟨f, h⟩ | h
    · subst h
      simp [step, ThreadHelper_dtor, simpleState2, future_run, getFuture, modifyHelper, updAt,
        future.ctor, runEvents, runEffect, terminalExit]
    · subst h
      simp [step, ThreadHelper_dtor, simpleState2, future_run, getFuture, modifyHelper, updAt,
        future.ctor, call, callWith, emit, runEvents, runEffect, terminalExit]
    · subst h
      simp [step, ThreadHelper_dtor, simpleState2, future_run, getFuture, modifyHelper, updAt,
        future.ctor, call, callWith, runEvents, runEffect, terminalExit]

theorem start2 (fn : Option (Fn T σ)) (fn1 : Option (σ → σ)) (v res : T)
    (thr : ThreadState) (dd del : Bool) (tr : List (Event T)) (u : σ) (q : T) (ex : Bool) :
    start (Ref.helper 0) (simpleState2 fn fn1 v res thr dd del tr u q ex)
      = simpleState2 fn fn1 v res ThreadState.running dd del (startTrace thr tr) u q ex := by
  cases thr <;>
    simp [start, startWith, simpleState2, getFuture, modifyHelper, updAt, future.ctor,
      manages_multiple_futures, m_start, QThread_start, emit, startTrace]

theorem then2 (f : Fn T σ) (fn : Option (Fn T σ)) (fn1 : Option (σ → σ)) (v res : T)
    (thr : ThreadState) (dd del : Bool) (tr : List (Event T)) (u : σ) (q : T) (ex : Bool) :
    then_ (Ref.helper 0) f (simpleState2 fn fn1 v res thr dd del tr u q ex)
      = simpleState2 (some f) fn1 v res ThreadState.running dd del (startTrace thr tr) u q ex := by
  have h : then_ (Ref.helper 0) f (simpleState2 fn fn1 v res thr dd del tr u q ex)
      = start (Ref.helper 0) (simpleState2 (some f) fn1 v res thr dd del tr u q ex) := rfl
  rw [h, start2]

theorem then_1_2 (g : σ → σ) (fn : Option (Fn T σ)) (fn1 : Option (σ → σ)) (v res : T)
    (thr : ThreadState) (dd del : Bool) (tr : List (Event T)) (u : σ) (q : T) (ex : Bool) :
    then_1 (Ref.helper 0) g (simpleState2 fn fn1 v res thr dd del tr u q ex)
      = simpleState2 fn (some g) v res ThreadState.running dd del (startTrace thr tr) u q ex := by
  have h : then_1 (Ref.helper 0) g (simpleState2 fn fn1 v res thr dd del tr u q ex)
      = start (Ref.helper 0) (simpleState2 fn (some g) v res thr dd del tr u q ex) := rfl
  rw [h, start2]

theorem queue2 (g : σ → σ) (fn : Option (Fn T σ)) (fn1 : Option (σ → σ)) (v res : T)
    (thr : ThreadState) (dd del : Bool) (tr : List (Event T)) (u : σ) (q : T) (ex : Bool) :
    queue (Ref.helper 0) g (simpleState2 fn fn1 v res thr dd del tr u q ex)
      = simpleState2 fn (some g) v res ThreadState.running dd del (startTrace thr tr) u q ex := by
  have h : queue (Ref.helper 0) g (simpleState2 fn fn1 v res thr dd del tr u q ex)
      = then_1 (Ref.helper 0) g (simpleState2 fn fn1 v res thr dd del tr u q ex) := rfl
  rw [h, then_1_2]

theorem await_enter2 (fn : Option (Fn T σ)) (fn1 : Option (σ → σ)) (v res : T)
    (thr : ThreadState) (dd del : Bool) (tr : List (Event T)) (u : σ) (q : T) (ex : Bool) :
    await_enter (Ref.helper 0) (simpleState2 fn fn1 v res thr dd del tr u q ex)
      = simpleState2 (some Fn.await_lambda) fn1 v res ThreadState.running dd del
          (startTrace thr tr) u default false := by
  have h : await_enter (Ref.helper 0) (simpleState2 fn fn1 v res thr dd del tr u q ex)
      = start (Ref.helper 0)
          (simpleState2 (some Fn.await_lambda) fn1 v res thr dd del tr u default false) := rfl
  rw [h, start2]

theorem cancel2 (fn : Option (Fn T σ)) (fn1 : Option (σ → σ)) (v res : T)
    (thr : ThreadState) (dd del : Bool) (tr : List (Event T)) (u : σ) (q : T) (ex : Bool) :
    cancel (Ref.helper 0) (simpleState2 fn fn1 v res thr dd del tr u q ex)
      = simpleState2 fn fn1 v res thr true del (tr ++ [Event.deleteLater (Ref.helper 0)])
          u q ex := by
  simp [cancel, cancelWith, simpleState2, getFuture, modifyHelper, updAt,
    future.ctor, manages_multiple_futures, m_cancel, deleteLater, emit]

theorem get2 (fn : Option (Fn T σ)) (fn1 : Option (σ → σ)) (v res : T)
    (thr : ThreadState) (dd del : Bool) (tr : List (Event T)) (u : σ) (q : T) (ex : Bool) :
    get (Ref.helper 0) (simpleState2 fn fn1 v res thr dd del tr u q ex)
      = (v, simpleState2 fn fn1 v res thr true del
          (tr ++ [Event.deleteLater (Ref.helper 0), Event.work 0 false]) u q ex) := by
  simp [get, getWith, simpleState2, getFuture, modifyHelper, updAt,
    future.ctor, manages_multiple_futures, m_get, deleteLater, emit]

theorem countP_isWork_runEvents (this : Ref) (r : T) (fn : Option (Fn T σ))
    (fn1 : Option (σ → σ)) : (runEvents this r fn fn1).countP isWork = 0 := by
  cases fn1 with
  | some g => rfl
  | none =>
    cases fn with
    | none => rfl
    | some f => cases f <;> rfl

theorem workInv_quiet (b : Bool) (w : World T σ) (o : Op T σ) (ho : isLaunch o = false)
    (hinv : WorkInv b w) : WorkInv b (applyOp (Ref.helper 0) o w) := by
  obtain ⟨fn, fn1, v, res, thr, dd, del, tr, u, q, ex, hw, hleaf, hph⟩ := hinv
  subst hw
  cases o with
  | start => exact Bool.noConfusion ho
  | then_ c => exact Bool.noConfusion ho
  | get => exact Bool.noConfusion ho
  | await => exact Bool.noConfusion ho
  | queue g => exact Bool.noConfusion ho
  | cancel =>
    refine ⟨fn, fn1, v, res, thr, true, del, _, u, q, ex, cancel2 _ _ _ _ _ _ _ _ _ _ _, hleaf, ?_⟩
    simpa [List.countP_append, List.countP_cons, isWork] using hph
  | env e =>
    simp only [applyOp]
    by_cases h1 : e = Env.finish 0
    · subst h1
      by_cases h2 : thr = ThreadState.running ∧ del = false
      · obtain ⟨h2, h3⟩ := h2
        subst h2 h3
        refine ⟨fn, fn1, v, v, ThreadState.finished, true, false, _, u, q, ex,
          step2_finish_running _ _ _ _ _ _ _ _ _, hleaf, ?_⟩
        rcases hph with ⟨_, h, _⟩ | ⟨hb, hph⟩
        · exact ThreadState.noConfusion h
        · rcases hph with ⟨h, _⟩ | ⟨_, h⟩ | ⟨h, _⟩
          · exact ThreadState.noConfusion h
          · refine Or.inr ⟨hb, Or.inr (Or.inr ⟨rfl, ?_⟩)⟩
            simp [List.countP_append, List.countP_cons, isWork, h]
          · exact ThreadState.noConfusion h
      · rw [step2_finish_idle _ _ _ _ _ _ _ _ _ _ _ (by
          by_cases h4 : thr = ThreadState.running
          · right
            cases del with
            | true => rfl
            | false => exact absurd ⟨h4, rfl⟩ h2
          · exact Or.inl h4)]
        exact ⟨fn, fn1, v, res, thr, dd, del, tr, u, q, ex, rfl, hleaf, hph⟩
    · by_cases h2 : e = Env.dispose 0
      · subst h2
        by_cases h3 : dd = true ∧ del = false
        · obtain ⟨h3, h4⟩ := h3
          subst h3 h4
          refine ⟨fn, fn1, v, res, thr, true, true, _, _, _, _,
            step2_dispose fn fn1 hleaf _ _ _ _ _ _ _, hleaf, ?_⟩
          simpa [List.countP_append, countP_isWork_runEvents] using hph
        · rw [step2_dispose_idle _ _ _ _ _ _ _ _ _ _ _ (by
            cases dd with
            | false => exact Or.inl rfl
            | true =>
              right
              cases del with
              | true => rfl
              | false => exact absurd ⟨rfl, rfl⟩ h3)]
          exact ⟨fn, fn1, v, res, thr, dd, del, tr, u, q, ex, rfl, hleaf, hph⟩
      · rw [step2_other _ _ _ _ _ _ _ _ _ _ _ e h1 h2]
        exact ⟨fn, fn1, v, res, thr, dd, del, tr, u, q, ex, rfl, hleaf, hph⟩

theorem workInv_launch (w : World T σ) (o : Op T σ) (ho : isLaunch o = true)
    (hinv : WorkInv false w) : WorkInv true (applyOp (Ref.helper 0) o w) := by
  obtain ⟨fn, fn1, v, res, thr, dd, del, tr, u, q, ex, hw, hleaf, hph⟩ := hinv
  subst hw
  have hthr : thr = ThreadState.notStarted ∧ tr.countP isWork = 0 := by
    rcases hph with ⟨_, h1, h2⟩ | ⟨h, _⟩
    · exact ⟨h1, h2⟩
    · exact Bool.noConfusion h
  obtain ⟨hthr, hcount⟩ := hthr
  subst hthr
  have hstarted : (startTrace ThreadState.notStarted tr).countP isWork = 0 := by
    simp [startTrace, List.countP_append, List.countP_cons, isWork, hcount]
  cases o with
  | start =>
    exact ⟨fn, fn1, v, res, ThreadState.running, dd, del, _, u, q, ex,
      start2 _ _ _ _ _ _ _ _ _ _ _, hleaf, Or.inr ⟨rfl, Or.inr (Or.inl ⟨rfl, hstarted⟩)⟩⟩
  | then_ c =>
    cases c with
    | value f =>
      exact ⟨some (Fn.user f), fn1, v, res, ThreadState.running, dd, del, _, u, q, ex,
        then2 (Fn.user f) fn fn1 v res ThreadState.notStarted dd del tr u q ex,
        Or.inr (Or.inl ⟨f, rfl⟩),
        Or.inr ⟨rfl, Or.inr (Or.inl ⟨rfl, hstarted⟩)⟩⟩
    | novalue g =>
      exact ⟨fn, some g, v, res, ThreadState.running, dd, del, _, u, q, ex,
        then_1_2 g fn fn1 v res ThreadState.notStarted dd del tr u q ex, hleaf,
        Or.inr ⟨rfl, Or.inr (Or.inl ⟨rfl, hstarted⟩)⟩⟩
  | get =>
    refine ⟨fn, fn1, v, res, ThreadState.notStarted, true, del, _, u, q, ex,
      congrArg Prod.snd (get2 _ _ _ _ _ _ _ _ _ _ _), hleaf, Or.inr ⟨rfl, Or.inl ⟨rfl, ?_⟩⟩⟩
    simp [List.countP_append, List.countP_cons, isWork, hcount]
  | await =>
    exact ⟨some Fn.await_lambda, fn1, v, res, ThreadState.running, dd, del, _, u, default, false,
      await_enter2 _ _ _ _ _ _ _ _ _ _ _, Or.inr (Or.inr rfl),
      Or.inr ⟨rfl, Or.inr (Or.inl ⟨rfl, hstarted⟩)⟩⟩
  | queue g =>
    exact ⟨fn, some g, v, res, ThreadState.running, dd, del, _, u, q, ex,
      queue2 _ _ _ _ _ _ _ _ _ _ _ _, hleaf, Or.inr ⟨rfl, Or.inr (Or.inl ⟨rfl, hstarted⟩)⟩⟩
  | cancel => exact Bool.noConfusion ho
  | env e => exact Bool.noConfusion ho

theorem workInv_runOps (ops : List (Op T σ)) (b : Bool) (w : World T σ) (hinv : WorkInv b w)
    (hops : ops.countP isLaunch ≤ (if b = true then 0 else 1)) :
    (runOps (Ref.helper 0) ops w).trace.countP isWork ≤ 1 := by
  induction ops generalizing b w with
  | nil =>
    obtain ⟨fn, fn1, v, res, thr, dd, del, tr, u, q, ex, hw, _, hph⟩ := hinv
    subst hw
    simp only [runOps, simpleState2]
    rcases hph with ⟨_, _, h⟩ | ⟨_, ⟨_, h⟩ | ⟨_, h⟩ | ⟨_, h⟩⟩ <;> omega
  | cons o os ih =>
    simp only [runOps]
    cases ho : isLaunch o with
    | false =>
      refine ih b _ (workInv_quiet b w o ho hinv) ?_
      rw [List.countP_cons_of_neg _ _ (by simp [ho])] at hops
      exact hops
    | true =>
      rw [List.countP_cons_of_pos _ _ ho] at hops
      cases b with
      | true => simp at hops
      | false =>
        refine ih true _ (workInv_launch w o ho hinv) ?_
        simp only [Bool.false_eq_true, if_false] at hops
        simp only [if_true]
        omega

/-- C14, as stated, fails: `get()` called twice on the future of a WorkItem
executes the WorkItem twice, and so does `then( c )` followed by `get()` once
the thread has run. -/
theorem C14_counterexample :
    (runOps (Ref.helper 0) [Op.get, Op.get]
        (simpleWorld (7 : Nat) ([] : List Nat))).trace.countP isWork = 2
      ∧ (runOps (Ref.helper 0)
          [Op.then_ (Continuation.value (fun x l => x :: l)), Op.get, Op.env (Env.finish 0)]
          (simpleWorld (7 : Nat) ([] : List Nat))).trace.countP isWork = 2 := by
  decide

/-- C14, amended : a simple future made by `Task::run`, and any sequence of
public operations and asynchronous happenings in which at most one of
`start`, `then`, `get`, `await`, `queue` occurs (`cancel` any number of
times).  The WorkItem is executed at most once. -/
theorem C14_work_at_most_once (v : T) (u : σ) (ops : List (Op T σ))
    (h : ops.countP isLaunch ≤ 1) :
    (runOps (Ref.helper 0) ops (simpleWorld v u)).trace.countP isWork ≤ 1 := by
  refine workInv_runOps ops false _ ?_ (by simpa using h)
  exact ⟨none, none, v, default, ThreadState.notStarted, false, false, [], u, default, false,
    rfl, Or.inl rfl, Or.inl ⟨rfl, rfl, rfl⟩⟩

/-- Witness of `C14_work_at_most_once` : `cancel()`, `then( c )`, the thread
finishes, `cancel()` again, the deferred delete is delivered. -/
theorem C14_work_at_most_once_witness :
    (runOps (Ref.helper 0)
        [Op.cancel, Op.then_ (Continuation.value (fun x l => x :: l)), Op.env (Env.finish 0),
          Op.cancel, Op.env (Env.dispose 0)]
        (simpleWorld (7 : Nat) ([] : List Nat))).trace.countP isWork ≤ 1 :=
  C14_work_at_most_once (7 : Nat) ([] : List Nat)
    [Op.cancel, Op.then_ (Continuation.value (fun x l => x :: l)), Op.env (Env.finish 0),
      Op.cancel, Op.env (Env.dispose 0)] (by decide)

theorem updAt_eq_self {α : Type} (g : α → α) (i : Nat) (l : List α) (x : α)
    (h : l[i]? = some x) (hg : g x = x) : updAt g i l = l := by
  apply List.ext_getElem?
  intro n
  rw [getElem?_updAt]
  by_cases hn : n = i
  · subst hn
    rw [if_pos rfl, h]
    simp [hg]
  · rw [if_neg hn]

theorem then_child_running (i : Nat) (h : ThreadHelper T σ) (fn : Fn T σ) (w : World T σ)
    (hi : w.helpers[i]? = some h) (hf : h.m_future.m_function = some fn)
    (ht : h.m_future.m_tasks = []) (hth : h.m_future.m_thread = some i)
    (hr : h.thread = ThreadState.running) : then_child i fn w = w := by
  have h1 : modifyFuture (Ref.helper i) (fun f => { f with m_function := some fn }) w = w := by
    simp only [modifyFuture, modifyHelper]
    rw [updAt_eq_self _ i w.helpers h hi (by
      cases h with
      | mk a b c d e f =>
        cases b
        simp_all)]
  simp only [then_child, thenWith, h1, startWith, getFuture, hi, Option.map_some',
    manages_multiple_futures, ht, List.length_nil, gt_iff_lt, Nat.lt_irrefl, decide_False,
    Bool.false_eq_true, if_false, m_start, hth, QThread_start, hr, if_true]

theorem start_loop_running (ps : List (T × (T → σ → σ))) (pre : List (ThreadHelper T σ))
    (w : World T σ) (hw : w.helpers = pre ++ mkRunning pre.length ps) :
    _start_loop then_child Ref.top pre.length (mkTasks pre.length ps) w = w := by
  induction ps generalizing pre with
  | nil => rfl
  | cons p ps ih =>
    simp only [mkTasks, _start_loop]
    rw [then_child_running pre.length (runningHelper Ref.top pre.length p.1) _ w
      (by rw [hw]; exact getElem?_append_cons_length _ _ _) rfl rfl rfl rfl]
    have hlen : (pre ++ [runningHelper Ref.top pre.length p.1]).length = pre.length + 1 := by
      simp
    have := ih (pre ++ [runningHelper Ref.top pre.length p.1]) (by
      rw [hw]; simp [mkRunning])
    rw [hlen] at this
    exact this

theorem start_parWorld (a : Option (Fn T σ)) (b : Option (σ → σ))
    (s : T × (T → σ → σ)) (t : List (T × (T → σ → σ))) (u : σ) :
    start Ref.top (parWorld a b (s :: t) u) = parWorld a b (s :: t) u := by
  have h := start_loop_running (s :: t) [] (parWorld a b (s :: t) u) (by simp [parWorld])
  simp only [List.length_nil] at h
  simp only [start, startWith, getFuture, manages_multiple_futures, _start]
  simp only [parWorld, length_mkTasks, List.length_cons, gt_iff_lt, Nat.zero_lt_succ,
    decide_True, if_true] at h ⊢
  exact h

theorem then_any_parWorld (c : Continuation T σ) (a : Option (Fn T σ)) (b : Option (σ → σ))
    (s : T × (T → σ → σ)) (t : List (T × (T → σ → σ))) (u : σ) :
    then_any Ref.top c (parWorld a b (s :: t) u)
      = parWorld (regSlots [c] (a, b)).1 (regSlots [c] (a, b)).2 (s :: t) u := by
  cases c with
  | value f =>
    have h : then_any Ref.top (Continuation.value f) (parWorld a b (s :: t) u)
        = start Ref.top (parWorld (some (Fn.user f)) b (s :: t) u) := rfl
    rw [h, start_parWorld]
    rfl
  | novalue g =>
    have h : then_any Ref.top (Continuation.novalue g) (parWorld a b (s :: t) u)
        = start Ref.top (parWorld a (some g) (s :: t) u) := rfl
    rw [h, start_parWorld]
    rfl

theorem regSlots_cons (c : Continuation T σ) (cs : List (Continuation T σ))
    (x : Option (Fn T σ) × Option (σ → σ)) :
    regSlots (c :: cs) x = regSlots cs (regSlots [c] x) := by
  cases c <;> rfl

theorem registerAll_parWorld (cs : List (Continuation T σ)) (a : Option (Fn T σ))
    (b : Option (σ → σ)) (s : T × (T → σ → σ)) (t : List (T × (T → σ → σ))) (u : σ) :
    registerAll Ref.top cs (parWorld a b (s :: t) u)
      = parWorld (regSlots cs (a, b)).1 (regSlots cs (a, b)).2 (s :: t) u := by
  induction cs generalizing a b with
  | nil => rfl
  | cons c cs ih =>
    simp only [registerAll]
    rw [then_any_parWorld, ih, ← regSlots_cons]

theorem registerAll_pairWorld (c : Continuation T σ) (cs : List (Continuation T σ))
    (s : T × (T → σ → σ)) (t : List (T × (T → σ → σ))) (u : σ) :
    registerAll Ref.top (c :: cs) (run_pair s t (World.init u)).2
      = parWorld (regSlots (c :: cs) (none, none)).1 (regSlots (c :: cs) (none, none)).2
          (s :: t) u := by
  rw [run_pair_eq]
  simp only [registerAll]
  have h : then_any Ref.top c (pairWorld (s :: t) u)
      = parWorld (regSlots [c] (none, none)).1 (regSlots [c] (none, none)).2 (s :: t) u := by
    cases c with
    | value f => exact then_pairWorld _ s t u
    | novalue g => exact then_1_pairWorld _ s t u
  rw [h, registerAll_parWorld, ← regSlots_cons]

theorem registerAll_running (cs : List (Continuation T σ)) (a : Option (Fn T σ))
    (b : Option (σ → σ)) (v res : T) (dd del : Bool) (tr : List (Event T)) (u : σ) (q : T)
    (ex : Bool) :
    registerAll (Ref.helper 0) cs (simpleState2 a b v res ThreadState.running dd del tr u q ex)
      = simpleState2 (regSlots cs (a, b)).1 (regSlots cs (a, b)).2 v res ThreadState.running
          dd del tr u q ex := by
  induction cs generalizing a b with
  | nil => rfl
  | cons c cs ih =>
    simp only [registerAll]
    cases c with
    | value f =>
      have h : then_any (Ref.helper 0) (Continuation.value f)
          (simpleState2 a b v res ThreadState.running dd del tr u q ex)
          = simpleState2 (some (Fn.user f)) b v res ThreadState.running dd del tr u q ex :=
        then2 (Fn.user f) a b v res ThreadState.running dd del tr u q ex
      rw [h, ih]
      rfl
    | novalue g =>
      have h : then_any (Ref.helper 0) (Continuation.novalue g)
          (simpleState2 a b v res ThreadState.running dd del tr u q ex)
          = simpleState2 a (some g) v res ThreadState.running dd del tr u q ex :=
        then_1_2 g a b v res ThreadState.running dd del tr u q ex
      rw [h, ih]
      rfl

theorem registerAll_simpleWorld (c : Continuation T σ) (cs : List (Continuation T σ))
    (v : T) (u : σ) :
    registerAll (Ref.helper 0) (c :: cs) (simpleWorld v u)
      = simpleState2 (regSlots (c :: cs) (none, none)).1 (regSlots (c :: cs) (none, none)).2
          v default ThreadState.running false false [Event.started 0] u default false := by
  simp only [registerAll]
  have h : then_any (Ref.helper 0) c (simpleWorld v u)
      = simpleState2 (regSlots [c] (none, none)).1 (regSlots [c] (none, none)).2 v default
          ThreadState.running false false [Event.started 0] u default false := by
    cases c <;> rfl
  rw [h, registerAll_running, ← regSlots_cons]

theorem populated_regSlots (cs : List (Continuation T σ))
    (x : Option (Fn T σ) × Option (σ → σ)) (h : Populated x) : Populated (regSlots cs x) := by
  induction cs generalizing x with
  | nil => exact h
  | cons c cs ih =>
    cases c with
    | value f => exact ih _ ⟨Or.inr ⟨f, rfl⟩, Or.inr ⟨f, rfl⟩⟩
    | novalue g => exact ih _ ⟨h.1, Or.inl (by simp)⟩

theorem populated_regSlots_cons (c : Continuation T σ) (cs : List (Continuation T σ)) :
    Populated (regSlots (c :: cs) ((none, none) : Option (Fn T σ) × Option (σ → σ))) := by
  rw [regSlots_cons]
  apply populated_regSlots
  cases c with
  | value f => exact ⟨Or.inr ⟨f, rfl⟩, Or.inr ⟨f, rfl⟩⟩
  | novalue g => exact ⟨Or.inl rfl, Or.inl (by simp [regSlots])⟩

theorem runEvents_populated (this : Ref) (r : T) (x : Option (Fn T σ) × Option (σ → σ))
    (h : Populated x) : runEvents this r x.1 x.2 = [invoked this r x] := by
  obtain ⟨a, b⟩ := x
  cases b with
  | some g => rfl
  | none =>
    rcases h.2 with h2 | ⟨f, h2⟩
    · exact absurd rfl h2
    · simp only at h2
      subst h2
      rfl

theorem leaf_of_populated (x : Option (Fn T σ) × Option (σ → σ)) (h : Populated x) :
    Leaf x.1 := by
  rcases h.1 with h1 | h1
  · exact Or.inl h1
  · exact Or.inr (Or.inl h1)

theorem terminalEvents_eq_runEvents (a : Option (Fn T σ)) (b : Option (σ → σ)) :
    terminalEvents a b = runEvents Ref.top default a b :=
  rfl

theorem terminalEffect_eq_runEffect (a : Option (Fn T σ)) (b : Option (σ → σ)) :
    terminalEffect a b = runEffect default a b :=
  rfl

theorem isTerminal_invoked (this : Ref) (r : T) (x : Option (Fn T σ) × Option (σ → σ)) :
    isTerminal this (invoked this r x) = true := by
  obtain ⟨a, b⟩ := x
  cases b <;> simp [invoked, isTerminal]

theorem filter_isTerminal_nil (l : List (Event T)) (h : l.countP isTopEvent = 0) :
    l.filter (isTerminal Ref.top) = [] := by
  rw [List.filter_eq_nil_iff]
  have h0 := countP_isTerminal_zero l h
  rw [List.countP_eq_zero] at h0
  exact h0

theorem simple_registered (x : Option (Fn T σ) × Option (σ → σ)) (hp : Populated x)
    (v : T) (u : σ) (sched : List Env) :
    (((runEnv sched (simpleState2 x.1 x.2 v default ThreadState.running false false
            [Event.started 0] u default false)).trace.filter (isTerminal (Ref.helper 0)) = []
        ∧ (runEnv sched (simpleState2 x.1 x.2 v default ThreadState.running false false
            [Event.started 0] u default false)).user = u)
      ∨ ((runEnv sched (simpleState2 x.1 x.2 v default ThreadState.running false false
            [Event.started 0] u default false)).trace.filter (isTerminal (Ref.helper 0))
          = [invoked (Ref.helper 0) v x]
        ∧ (runEnv sched (simpleState2 x.1 x.2 v default ThreadState.running false false
            [Event.started 0] u default false)).user = runEffect v x.1 x.2 u))
    ∧ (List.Sublist [Env.finish 0, Env.dispose 0] sched →
        (runEnv sched (simpleState2 x.1 x.2 v default ThreadState.running false false
            [Event.started 0] u default false)).trace.filter (isTerminal (Ref.helper 0))
          = [invoked (Ref.helper 0) v x]
        ∧ (runEnv sched (simpleState2 x.1 x.2 v default ThreadState.running false false
            [Event.started 0] u default false)).user = runEffect v x.1 x.2 u) := by
  have hleaf := leaf_of_populated x hp
  have hev := runEvents_populated (Ref.helper 0) v x hp
  have hchain := runEnv_chain3
    (simpleState2 x.1 x.2 v default ThreadState.running false false
      [Event.started 0] u default false)
    (simpleState2 x.1 x.2 v v ThreadState.finished true false
      ([Event.started 0] ++ [Event.work 0 true, Event.deleteLater (Ref.helper 0)]) u default
      false)
    (simpleState2 x.1 x.2 v v ThreadState.finished true true
      (([Event.started 0] ++ [Event.work 0 true, Event.deleteLater (Ref.helper 0)])
        ++ runEvents (Ref.helper 0) v x.1 x.2)
      (runEffect v x.1 x.2 u) (if terminalExit x.1 x.2 = true then v else default)
      (terminalExit x.1 x.2 || false))
    (Env.finish 0) (Env.dispose 0)
    (fun e he => by
      by_cases h2 : e = Env.dispose 0
      · subst h2; exact step2_dispose_idle _ _ _ _ _ _ _ _ _ _ _ (Or.inl rfl)
      · exact step2_other _ _ _ _ _ _ _ _ _ _ _ e he h2)
    (step2_finish_running _ _ _ _ _ _ _ _ _)
    (fun e he => by
      by_cases h1 : e = Env.finish 0
      · subst h1
        exact step2_finish_idle _ _ _ _ _ _ _ _ _ _ _ (Or.inl (by decide))
      · exact step2_other _ _ _ _ _ _ _ _ _ _ _ e h1 he)
    (step2_dispose _ _ hleaf _ _ _ _ _ _ _)
    (fun e => by
      by_cases h1 : e = Env.finish 0
      · subst h1
        exact step2_finish_idle _ _ _ _ _ _ _ _ _ _ _ (Or.inr rfl)
      · by_cases h2 : e = Env.dispose 0
        · subst h2; exact step2_dispose_idle _ _ _ _ _ _ _ _ _ _ _ (Or.inr rfl)
        · exact step2_other _ _ _ _ _ _ _ _ _ _ _ e h1 h2)
    sched
  have hterm := isTerminal_invoked (Ref.helper 0) v x
  have hlast : ((simpleState2 x.1 x.2 v v ThreadState.finished true true
      (([Event.started 0] ++ [Event.work 0 true, Event.deleteLater (Ref.helper 0)])
        ++ runEvents (Ref.helper 0) v x.1 x.2)
      (runEffect v x.1 x.2 u) (if terminalExit x.1 x.2 = true then v else default)
      (terminalExit x.1 x.2 || false)).trace.filter (isTerminal (Ref.helper 0))
        = [invoked (Ref.helper 0) v x]) := by
    rw [hev]
    have h1 : isTerminal (Ref.helper 0) (Event.started 0 : Event T) = false := rfl
    have h2 : isTerminal (Ref.helper 0) (Event.work 0 true : Event T) = false := rfl
    have h3 : isTerminal (Ref.helper 0) (Event.deleteLater (Ref.helper 0) : Event T) = false :=
      rfl
    simp [simpleState2, List.filter_cons, h1, h2, h3, hterm]
  refine ⟨?_, fun hs => ?_⟩
  · rcases hchain.1 with h | h | h
    · rw [h]; exact Or.inl ⟨rfl, rfl⟩
    · rw [h]; exact Or.inl ⟨rfl, rfl⟩
    · rw [h]; exact Or.inr ⟨hlast, rfl⟩
  · rw [hchain.2 hs]; exact ⟨hlast, rfl⟩

theorem composite_registered (x : Option (Fn T σ) × Option (σ → σ)) (hp : Populated x)
    (s : T × (T → σ → σ)) (t : List (T × (T → σ → σ))) (u : σ) (sched : List Env) :
    ((runEnv sched (parWorld x.1 x.2 (s :: t) u)).trace.filter (isTerminal Ref.top) = []
      ∨ ((runEnv sched (parWorld x.1 x.2 (s :: t) u)).trace.filter (isTerminal Ref.top)
          = [invoked Ref.top default x]
        ∧ (runEnv sched (parWorld x.1 x.2 (s :: t) u)).user
          = runEffect default x.1 x.2 (applyCalls (s :: t)
              (childCalls (runEnv sched (parWorld x.1 x.2 (s :: t) u)).trace) u)))
    ∧ (Complete (t.length + 1) sched →
        (runEnv sched (parWorld x.1 x.2 (s :: t) u)).trace.filter (isTerminal Ref.top)
          = [invoked Ref.top default x]
        ∧ (runEnv sched (parWorld x.1 x.2 (s :: t) u)).user
          = runEffect default x.1 x.2 (applyCalls (s :: t)
              (childCalls (runEnv sched (parWorld x.1 x.2 (s :: t) u)).trace) u)) := by
  have hleaf := leaf_of_populated x hp
  have hev := runEvents_populated Ref.top default x hp
  have hterm := isTerminal_invoked Ref.top default x
  have hinv := (parInv_runEnv (s :: t) u x.1 x.2 hleaf sched _ (parInv_init x.1 x.2 s t u)).1
  have hle := length_le_of_nodup _ _ hinv.nodup hinv.lt
  have hdone : (orderOf (runEnv sched (parWorld x.1 x.2 (s :: t) u)).trace).length
      = (s :: t).length →
      (runEnv sched (parWorld x.1 x.2 (s :: t) u)).trace.filter (isTerminal Ref.top)
          = [invoked Ref.top default x]
        ∧ (runEnv sched (parWorld x.1 x.2 (s :: t) u)).user
          = runEffect default x.1 x.2 (applyCalls (s :: t)
              (childCalls (runEnv sched (parWorld x.1 x.2 (s :: t) u)).trace) u) := by
    intro hlen
    obtain ⟨pre, j, htr, hpre, huser, _, _⟩ := hinv.done hlen
    refine ⟨?_, ?_⟩
    · rw [htr, terminalEvents_eq_runEvents, hev]
      have h2 : isTerminal Ref.top (Event.deleteLater Ref.top : Event T) = false := rfl
      have h3 : ∀ v, isTerminal Ref.top (Event.child j v : Event T) = false := fun _ => rfl
      simp [List.filter_append, List.filter_cons, filter_isTerminal_nil pre hpre, hterm, h2, h3]
    · rw [huser, terminalEffect_eq_runEffect]
  refine ⟨?_, fun hc => ?_⟩
  · rcases Nat.lt_or_ge (orderOf (runEnv sched (parWorld x.1 x.2 (s :: t) u)).trace).length
        (s :: t).length with hlt | hge
    · exact Or.inl (filter_isTerminal_nil _ (hinv.pending hlt).1)
    · exact Or.inr (hdone (Nat.le_antisymm hle hge))
  · exact hdone (par_complete (s :: t) u x.1 x.2 hleaf sched _ (parInv_init x.1 x.2 s t u) hc)

/-- C13 : a future on which `then` has been called at least once (the calls
`c :: cs`, of either overload, in that order), so that at least one slot is
filled; `regSlots` gives the two slots.  For a simple future with value `v`
and for a composite future built from the pairs `s, t ...`, under every
schedule the calls of terminal continuations of the future are either none
or exactly one, the call `invoked` : of the no-value slot when it is filled
(whether or not the value slot is filled too), of the value slot otherwise;
and when it has been made, the caller's state is the result of that single
call.  It has been made under every schedule in which the thread finishes and
the helper is disposed of (every child, for the composite future). -/
theorem C13_one_slot_once (c : Continuation T σ) (cs : List (Continuation T σ)) (v : T)
    (s : T × (T → σ → σ)) (t : List (T × (T → σ → σ))) (u : σ) (sched : List Env) :
    (((runEnv sched (registerAll (Ref.helper 0) (c :: cs) (simpleWorld v u))).trace.filter
            (isTerminal (Ref.helper 0)) = []
        ∧ (runEnv sched (registerAll (Ref.helper 0) (c :: cs) (simpleWorld v u))).user = u)
      ∨ ((runEnv sched (registerAll (Ref.helper 0) (c :: cs) (simpleWorld v u))).trace.filter
            (isTerminal (Ref.helper 0))
          = [invoked (Ref.helper 0) v (regSlots (c :: cs) (none, none))]
        ∧ (runEnv sched (registerAll (Ref.helper 0) (c :: cs) (simpleWorld v u))).user
          = runEffect v (regSlots (c :: cs) (none, none)).1 (regSlots (c :: cs) (none, none)).2
              u))
    ∧ (List.Sublist [Env.finish 0, Env.dispose 0] sched →
        (runEnv sched (registerAll (Ref.helper 0) (c :: cs) (simpleWorld v u))).trace.filter
            (isTerminal (Ref.helper 0))
          = [invoked (Ref.helper 0) v (regSlots (c :: cs) (none, none))]
        ∧ (runEnv sched (registerAll (Ref.helper 0) (c :: cs) (simpleWorld v u))).user
          = runEffect v (regSlots (c :: cs) (none, none)).1 (regSlots (c :: cs) (none, none)).2
              u)
    ∧ ((runEnv sched (registerAll Ref.top (c :: cs) (run_pair s t (World.init u)).2)).trace.filter
            (isTerminal Ref.top) = []
      ∨ ((runEnv sched
            (registerAll Ref.top (c :: cs) (run_pair s t (World.init u)).2)).trace.filter
            (isTerminal Ref.top)
          = [invoked Ref.top default (regSlots (c :: cs) (none, none))]
        ∧ (runEnv sched (registerAll Ref.top (c :: cs) (run_pair s t (World.init u)).2)).user
          = runEffect default (regSlots (c :: cs) (none, none)).1
              (regSlots (c :: cs) (none, none)).2
              (applyCalls (s :: t) (childCalls (runEnv sched
                (registerAll Ref.top (c :: cs) (run_pair s t (World.init u)).2)).trace) u)))
    ∧ (Complete (t.length + 1) sched →
        (runEnv sched (registerAll Ref.top (c :: cs) (run_pair s t (World.init u)).2)).trace.filter
            (isTerminal Ref.top)
          = [invoked Ref.top default (regSlots (c :: cs) (none, none))]
        ∧ (runEnv sched (registerAll Ref.top (c :: cs) (run_pair s t (World.init u)).2)).user
          = runEffect default (regSlots (c :: cs) (none, none)).1
              (regSlots (c :: cs) (none, none)).2
              (applyCalls (s :: t) (childCalls (runEnv sched
                (registerAll Ref.top (c :: cs) (run_pair s t (World.init u)).2)).trace) u)) := by
  have hp := populated_regSlots_cons c cs
  rw [registerAll_simpleWorld, registerAll_pairWorld]
  have h1 := simple_registered _ hp v u sched
  have h2 := composite_registered _ hp s t u sched
  exact ⟨h1.1, h1.2, h2.1, h2.2⟩

/-- Witness of `C13_one_slot_once` : both slots are filled, the value slot
first; the simple future's thread finishes and its helper is disposed of, and
the only terminal call is that of the no-value continuation. -/
theorem C13_one_slot_once_witness :
    (runEnv [Env.finish 0, Env.dispose 0]
        (registerAll (Ref.helper 0)
          [Continuation.value (fun (x : Nat) (l : List Nat) => x :: l),
            Continuation.novalue (fun l => 0 :: l)]
          (simpleWorld 7 []))).trace.filter (isTerminal (Ref.helper 0))
      = [Event.novalue (Ref.helper 0)]
    ∧ (runEnv [Env.finish 0, Env.dispose 0]
        (registerAll (Ref.helper 0)
          [Continuation.value (fun (x : Nat) (l : List Nat) => x :: l),
            Continuation.novalue (fun l => 0 :: l)]
          (simpleWorld 7 []))).user = [0] :=
  (C13_one_slot_once (Continuation.value (fun (x : Nat) (l : List Nat) => x :: l))
    [Continuation.novalue (fun l => 0 :: l)] 7 ((1 : Nat), fun x l => x :: l) [] []
    [Env.finish 0, Env.dispose 0]).2.1 (List.Sublist.refl _)

theorem find_loop_none (e : Nat) (F : Nat → Nat → NetWorld σ → NetWorld σ) (w : NetWorld σ)
    (l : entries_t σ) (s : Nat) (h : ∀ x ∈ l, x.1 ≠ e) :
    NetworkAccessManager.find_network_reply_loop e F w l s = (false, w) := by
  induction l generalizing s with
  | nil => rfl
  | cons x l ih =>
    simp only [NetworkAccessManager.find_network_reply_loop]
    rw [if_neg (h x (by simp))]
    exact ih (s + 1) (fun y hy => h y (by simp [hy]))

theorem find_loop_some (e : Nat) (F : Nat → Nat → NetWorld σ → NetWorld σ) (w : NetWorld σ)
    (l1 : entries_t σ) (x : Nat × Bool × (Nat → σ → σ)) (l2 : entries_t σ) (s : Nat)
    (h1 : ∀ y ∈ l1, y.1 ≠ e) (hx : x.1 = e) :
    NetworkAccessManager.find_network_reply_loop e F w (l1 ++ x :: l2) s
      = (true, F e (s + l1.length) w) := by
  induction l1 generalizing s with
  | nil =>
    simp only [List.nil_append, NetworkAccessManager.find_network_reply_loop]
    rw [if_pos hx]
    rfl
  | cons y l1 ih =>
    show (if y.1 = e then (true, F e s w)
      else NetworkAccessManager.find_network_reply_loop e F w (l1 ++ x :: l2) (s + 1)) = _
    rw [if_neg (h1 y (by simp)), ih (s + 1) (fun z hz => h1 z (by simp [hz]))]
    simp only [List.length_cons]
    rw [Nat.add_assoc, Nat.add_comm 1]

theorem split_first (e : Nat) (l : entries_t σ) (h : ∃ x ∈ l, x.1 = e) :
    ∃ l1 x l2, l = l1 ++ x :: l2 ∧ x.1 = e ∧ ∀ y ∈ l1, y.1 ≠ e := by
  induction l with
  | nil =>
    obtain ⟨x, hx, _⟩ := h
    simp at hx
  | cons y l ih =>
    by_cases hy : y.1 = e
    · exact ⟨[], y, l, rfl, hy, fun z hz => by simp at hz⟩
    · obtain ⟨x, hx, hxe⟩ := h
      have hx' : x ∈ l := by
        rcases List.mem_cons.1 hx with h1 | h1
        · subst h1; exact absurd hxe hy
        · exact h1
      obtain ⟨l1, x', l2, hl, hx'e, hpre⟩ := ih ⟨x, hx', hxe⟩
      refine ⟨y :: l1, x', l2, by rw [hl]; rfl, hx'e, ?_⟩
      intro z hz
      rcases List.mem_cons.1 hz with h1 | h1
      · subst h1; exact hy
      · exact hpre z h1

theorem eraseIdx_append_cons_length {α : Type} (l1 : List α) (x : α) (l2 : List α) :
    (l1 ++ x :: l2).eraseIdx l1.length = l1 ++ l2 := by
  induction l1 with
  | nil => rfl
  | cons y l1 ih => simp [List.eraseIdx, ih]

theorem cancel_absent (e : Nat) (w : NetWorld σ) (h : ∀ x ∈ w.m_entries, x.1 ≠ e) :
    NetworkAccessManager.cancel e w = (false, w) :=
  find_loop_none e _ w w.m_entries 0 h

theorem networkReply_absent (e : Nat) (w : NetWorld σ) (h : ∀ x ∈ w.m_entries, x.1 ≠ e) :
    NetworkAccessManager.networkReply e w = w := by
  simp only [NetworkAccessManager.networkReply, NetworkAccessManager.find_network_reply]
  rw [find_loop_none e _ w w.m_entries 0 h]

theorem cancel_present (e : Nat) (w : NetWorld σ) (l1 : entries_t σ)
    (x : Nat × Bool × (Nat → σ → σ)) (l2 : entries_t σ) (hw : w.m_entries = l1 ++ x :: l2)
    (hx : x.1 = e) (h1 : ∀ y ∈ l1, y.1 ≠ e) :
    NetworkAccessManager.cancel e w
      = (true, { m_entries := l1 ++ l2
                 user := w.user
                 log := w.log ++ (if x.2.1 = true then [NetEvent.deleteLater e] else [])
                   ++ [NetEvent.close e, NetEvent.abort e] }) := by
  simp only [NetworkAccessManager.cancel, NetworkAccessManager.find_network_reply]
  rw [hw, find_loop_some e _ w l1 x l2 0 h1 hx]
  simp only [Nat.zero_add, NetworkAccessManager.cancel_lambda]
  rw [hw, getElem?_append_cons_length]
  by_cases hb : x.2.1 = true
  · simp [hb, hw, eraseIdx_append_cons_length]
  · simp [hb, hw, eraseIdx_append_cons_length]

theorem networkReply_present (e : Nat) (w : NetWorld σ) (l1 : entries_t σ)
    (x : Nat × Bool × (Nat → σ → σ)) (l2 : entries_t σ) (hw : w.m_entries = l1 ++ x :: l2)
    (hx : x.1 = e) (h1 : ∀ y ∈ l1, y.1 ≠ e) :
    NetworkAccessManager.networkReply e w
      = { m_entries := l1 ++ l2
          user := x.2.2 e w.user
          log := w.log ++ [NetEvent.callback e]
            ++ (if x.2.1 = true then [NetEvent.deleteLater e] else []) } := by
  simp only [NetworkAccessManager.networkReply, NetworkAccessManager.find_network_reply]
  rw [hw, find_loop_some e _ w l1 x l2 0 h1 hx]
  simp only [Nat.zero_add, NetworkAccessManager.networkReply_lambda]
  rw [hw, getElem?_append_cons_length]
  by_cases hb : x.2.1 = true
  · simp [hb, hw, eraseIdx_append_cons_length]
  · simp [hb, hw, eraseIdx_append_cons_length]

theorem present_or_absent (e : Nat) (l : entries_t σ) :
    (∀ x ∈ l, x.1 ≠ e) ∨ ∃ l1 x l2, l = l1 ++ x :: l2 ∧ x.1 = e ∧ ∀ y ∈ l1, y.1 ≠ e := by
  by_cases h : ∃ x ∈ l, x.1 = e
  · exact Or.inr (split_first e l h)
  · refine Or.inl (fun x hx hxe => h ⟨x, hx, hxe⟩)

theorem absent_applyNetOp (e : Nat) (o : NetOp σ) (w : NetWorld σ)
    (h : ∀ x ∈ w.m_entries, x.1 ≠ e) (ho : addsReply e o = false) :
    ∀ x ∈ (applyNetOp o w).m_entries, x.1 ≠ e := by
  cases o with
  | emplace_back y =>
    intro x hx
    simp only [applyNetOp, NetworkAccessManager.emplace_back, List.mem_append,
      List.mem_singleton] at hx
    rcases hx with hx | hx
    · exact h x hx
    · subst hx
      simpa [addsReply] using ho
  | cancel e' =>
    rcases present_or_absent e' w.m_entries with h' | ⟨l1, y, l2, hw, hy, hpre⟩
    · simp only [applyNetOp]
      rw [cancel_absent e' w h']
      exact h
    · simp only [applyNetOp]
      rw [cancel_present e' w l1 y l2 hw hy hpre]
      intro x hx
      apply h x
      rw [hw]
      simp only [List.mem_append] at hx
      rcases hx with hx | hx
      · simp [hx]
      · simp [hx]
  | networkReply e' =>
    rcases present_or_absent e' w.m_entries with h' | ⟨l1, y, l2, hw, hy, hpre⟩
    · simp only [applyNetOp]
      rw [networkReply_absent e' w h']
      exact h
    · simp only [applyNetOp]
      rw [networkReply_present e' w l1 y l2 hw hy hpre]
      intro x hx
      apply h x
      rw [hw]
      simp only [List.mem_append] at hx
      rcases hx with hx | hx
      · simp [hx]
      · simp [hx]

theorem absent_runNetOps (e : Nat) (ops : List (NetOp σ)) (w : NetWorld σ)
    (h : ∀ x ∈ w.m_entries, x.1 ≠ e) (ho : ∀ o ∈ ops, addsReply e o = false) :
    ∀ x ∈ (runNetOps ops w).m_entries, x.1 ≠ e := by
  induction ops generalizing w with
  | nil => exact h
  | cons o ops ih =>
    exact ih (applyNetOp o w) (absent_applyNetOp e o w h (ho o (by simp)))
      (fun o' ho' => ho o' (by simp [ho']))

theorem absent_after_cancel (e : Nat) (w : NetWorld σ)
    (h : w.m_entries.countP (fun x => decide (x.1 = e)) ≤ 1) :
    ∀ x ∈ (NetworkAccessManager.cancel e w).2.m_entries, x.1 ≠ e := by
  rcases present_or_absent e w.m_entries with h' | ⟨l1, y, l2, hw, hy, hpre⟩
  · rw [cancel_absent e w h']
    exact h'
  · rw [cancel_present e w l1 y l2 hw hy hpre]
    rw [hw, List.countP_append, List.countP_cons] at h
    simp only [hy, decide_True, if_true] at h
    have h2 : l2.countP (fun x => decide (x.1 = e)) = 0 := by omega
    rw [List.countP_eq_zero] at h2
    intro x hx
    simp only [List.mem_append] at hx
    rcases hx with hx | hx
    · exact hpre x hx
    · simpa using h2 x hx

/-- C18 : `NetworkAccessManager::cancel( e )` returns `true` exactly when
some entry of `m_entries` has reply `e`.  When it returns `true`, the entries
were `pre ++ x :: post` with `x` the first entry whose reply is `e`, and they
are `pre ++ post` afterwards; when it returns `false`, nothing has changed.
When at most one entry had reply `e`, so in particular when `e` was pending
once, then after `cancel( e )` and after any further operations on the
manager that do not make `e` pending again, the slot `networkReply( e )`
changes nothing: it calls no callback. -/
theorem C18_cancel_removes_first (e : Nat) (w : NetWorld σ) (ops : List (NetOp σ)) :
    ((NetworkAccessManager.cancel e w).1 = true ↔ ∃ x ∈ w.m_entries, x.1 = e)
    ∧ ((NetworkAccessManager.cancel e w).1 = true →
        ∃ pre x post, w.m_entries = pre ++ x :: post ∧ x.1 = e ∧ (∀ y ∈ pre, y.1 ≠ e)
          ∧ (NetworkAccessManager.cancel e w).2.m_entries = pre ++ post)
    ∧ ((NetworkAccessManager.cancel e w).1 = false → (NetworkAccessManager.cancel e w).2 = w)
    ∧ (w.m_entries.countP (fun x => decide (x.1 = e)) ≤ 1 →
        (∀ o ∈ ops, addsReply e o = false) →
        NetworkAccessManager.networkReply e (runNetOps ops (NetworkAccessManager.cancel e w).2)
            = runNetOps ops (NetworkAccessManager.cancel e w).2
          ∧ (NetworkAccessManager.networkReply e
              (runNetOps ops (NetworkAccessManager.cancel e w).2)).log.countP isCallback
            = (runNetOps ops (NetworkAccessManager.cancel e w).2).log.countP isCallback) := by
  have hlast : w.m_entries.countP (fun x => decide (x.1 = e)) ≤ 1 →
      (∀ o ∈ ops, addsReply e o = false) →
      NetworkAccessManager.networkReply e (runNetOps ops (NetworkAccessManager.cancel e w).2)
        = runNetOps ops (NetworkAccessManager.cancel e w).2 := fun hc ho =>
    networkReply_absent e _ (absent_runNetOps e ops _ (absent_after_cancel e w hc) ho)
  refine ⟨?_, ?_, ?_, fun hc ho => ⟨hlast hc ho, by rw [hlast hc ho]⟩⟩
  · rcases present_or_absent e w.m_entries with h' | ⟨l1, y, l2, hw, hy, hpre⟩
    · rw [cancel_absent e w h']
      simp only [Bool.false_eq_true, false_iff, not_exists, not_and]
      exact h'
    · rw [cancel_present e w l1 y l2 hw hy hpre]
      simp only [true_iff]
      exact ⟨y, by rw [hw]; simp, hy⟩
  · rcases present_or_absent e w.m_entries with h' | ⟨l1, y, l2, hw, hy, hpre⟩
    · rw [cancel_absent e w h']
      intro h
      simp at h
    · rw [cancel_present e w l1 y l2 hw hy hpre]
      intro _
      exact ⟨l1, y, l2, hw, hy, hpre, rfl⟩
  · rcases present_or_absent e w.m_entries with h' | ⟨l1, y, l2, hw, hy, hpre⟩
    · rw [cancel_absent e w h']
      intro _
      rfl
    · rw [cancel_present e w l1 y l2 hw hy hpre]
      intro h
      simp at h

/-- Witness of `C18_cancel_removes_first` : replies 4 and 5 are pending,
reply 5 is cancelled, reply 4 completes, and then the completion notification
for reply 5 changes nothing. -/
theorem C18_cancel_removes_first_witness :
    NetworkAccessManager.networkReply 5
        (runNetOps [NetOp.networkReply 4]
          (NetworkAccessManager.cancel 5
            ({ m_entries := [(4, true, fun e l => e :: l), (5, true, fun e l => e :: l)]
               user := []
               log := [] } : NetWorld (List Nat))).2)
      = runNetOps [NetOp.networkReply 4]
          (NetworkAccessManager.cancel 5
            ({ m_entries := [(4, true, fun e l => e :: l), (5, true, fun e l => e :: l)]
               user := []
               log := [] } : NetWorld (List Nat))).2 :=
  ((C18_cancel_removes_first 5
    ({ m_entries := [(4, true, fun e l => e :: l), (5, true, fun e l => e :: l)]
       user := []
       log := [] } : NetWorld (List Nat))
    [NetOp.networkReply 4]).2.2.2 (by decide) (by decide)).1

theorem cancel_log (e : Nat) (w : NetWorld σ) :
    ∃ new, (NetworkAccessManager.cancel e w).2.log = w.log ++ new
      ∧ new.filter isCollaboratorCall = []
      ∧ (NetworkAccessManager.cancel e w).2.user = w.user := by
  rcases present_or_absent e w.m_entries with h' | ⟨l1, y, l2, hw, hy, hpre⟩
  · rw [cancel_absent e w h']
    exact ⟨[], by simp, rfl, rfl⟩
  · rw [cancel_present e w l1 y l2 hw hy hpre]
    refine ⟨(if y.2.1 = true then [NetEvent.deleteLater e] else [])
      ++ [NetEvent.close e, NetEvent.abort e], by simp, ?_, rfl⟩
    by_cases hb : y.2.1 = true <;> simp [hb, isCollaboratorCall]

theorem call_cancel_log (c : CancelFn σ) (e : Nat) (w : NetWorld σ) :
    ∃ new, (call_cancel c e w).2.log = w.log ++ new ∧ new.filter isCollaboratorCall = [] := by
  cases c with
  | user f => exact ⟨[], by simp [call_cancel], rfl⟩
  | manager_cancel =>
    obtain ⟨new, h1, h2, _⟩ := cancel_log e w
    exact ⟨new, h1, h2⟩

/-- C16 : a timeout manager `o`, watching the reply `o.m_reply`.  The one
made by the constructor has its timer started.  The handler of the deadline
event, `timeout()`, stops the timer and adds to the record of calls exactly
one call of the cancel-predicate, with `o.m_reply`, and after it exactly one
call of the timeout callback, the caller's state being the result of the
cancel-predicate followed by the timeout callback; with a cancel-predicate
`f` of the caller these two calls are all it adds.  The handler of the
completion notification for `o.m_reply` stops the timer and leaves the
record of calls, the caller's state and the entries as they were; for any
other reply it changes nothing at all. -/
theorem C16_timeout_manager (o : NetworkAccessManagerTimeOutManager σ) (w : NetWorld σ)
    (e : Nat) (c : CancelFn σ) (f : Nat → σ → Bool × σ) (s : σ → σ) (d : Int) (n : Nat) :
    (NetworkAccessManagerTimeOutManager.ctor c s e d n).timerActive = true
    ∧ (NetworkAccessManagerTimeOutManager.ctor c s e d n).m_reply = e
    ∧ (o.timeout w).1.timerActive = false
    ∧ (∃ new, (o.timeout w).2.log = w.log ++ new
        ∧ new.filter isCollaboratorCall
          = [NetEvent.cancelPredicate o.m_reply, NetEvent.timeoutCallback])
    ∧ (o.timeout w).2.user
        = o.m_timeout (call_cancel o.m_cancel o.m_reply
            { w with log := w.log ++ [NetEvent.cancelPredicate o.m_reply] }).2.user
    ∧ (o.m_cancel = CancelFn.user f →
        (o.timeout w).2.log
            = w.log ++ [NetEvent.cancelPredicate o.m_reply, NetEvent.timeoutCallback]
          ∧ (o.timeout w).2.user = o.m_timeout (f o.m_reply w.user).2)
    ∧ ((o.networkReply o.m_reply w).1.timerActive = false
        ∧ (o.networkReply o.m_reply w).2 = w)
    ∧ (e ≠ o.m_reply → o.networkReply e w = (o, w)) := by
  refine ⟨rfl, rfl, rfl, ?_, rfl, ?_, ?_, ?_⟩
  · obtain ⟨new, h1, h2⟩ := call_cancel_log o.m_cancel o.m_reply
      { w with log := w.log ++ [NetEvent.cancelPredicate o.m_reply] }
    refine ⟨[NetEvent.cancelPredicate o.m_reply] ++ new ++ [NetEvent.timeoutCallback], ?_, ?_⟩
    · simp only [NetworkAccessManagerTimeOutManager.timeout]
      rw [h1]
      simp
    · simp [List.filter_append, h2, isCollaboratorCall]
  · intro hc
    simp only [NetworkAccessManagerTimeOutManager.timeout, hc, call_cancel]
    simp
  · simp [NetworkAccessManagerTimeOutManager.networkReply]
  · intro he
    simp [NetworkAccessManagerTimeOutManager.networkReply, he]

/-- Witness of `C16_timeout_manager` : the manager's own timeout manager
for reply 5 handles the completion notification for reply 6. -/
theorem C16_timeout_manager_witness :
    (NetworkAccessManager.timeOutManager 30 5 (fun (l : List Nat) => 0 :: l)).networkReply 6
        ({ m_entries := [], user := [], log := [] } : NetWorld (List Nat))
      = (NetworkAccessManager.timeOutManager 30 5 (fun (l : List Nat) => 0 :: l),
          ({ m_entries := [], user := [], log := [] } : NetWorld (List Nat))) :=
  (C16_timeout_manager (NetworkAccessManager.timeOutManager 30 5 (fun (l : List Nat) => 0 :: l))
    ({ m_entries := [], user := [], log := [] } : NetWorld (List Nat)) 6
    CancelFn.manager_cancel (fun _ u => (true, u)) id 0 0).2.2.2.2.2.2.2 (by decide)

/-- Witness of `C12_queue_terminal_once` : two children that finish and are
disposed of in turn; `g` has been called once. -/
theorem C12_queue_terminal_once_witness :
    (runEnv [Env.finish 0, Env.dispose 0, Env.finish 1, Env.dispose 1]
        (queue Ref.top (fun l => 0 :: l)
          (run_pair ((1 : Nat), fun x (l : List Nat) => x :: l) [(2, fun x l => x :: l)]
            (World.init [])).2)).trace.countP (isTerminal Ref.top) = 1 :=
  (C12_queue_terminal_once ((1 : Nat), fun x (l : List Nat) => x :: l) [(2, fun x l => x :: l)]
    [] (fun l => 0 :: l)
    [Env.finish 0, Env.dispose 0, Env.finish 1, Env.dispose 1] []).2.2 (by decide)

/-- Witness of `C15_counter_le_children` : two children, the second
completing first; `await()` returns and the counter is at most the number of
children. -/
theorem C15_counter_le_children_witness :
    ∃ r, await Ref.top [Env.finish 1, Env.dispose 1, Env.finish 0, Env.dispose 0]
          (run_pair ((1 : Nat), fun x (l : List Nat) => x :: l) [(2, fun x l => x :: l)]
            (World.init [])).2 = some r
      ∧ r.2.top.m_counter ≤ r.2.top.m_tasks.length ∧ r.2.top.m_tasks.length = 2 := by
  have h := C15_counter_le_children ((1 : Nat), fun x (l : List Nat) => x :: l)
    [(2, fun x l => x :: l)] [] (Continuation.novalue id) id
    [Env.finish 1, Env.dispose 1, Env.finish 0, Env.dispose 0]
  exact ⟨_, rfl, h.2.2.1 _ rfl⟩

/-- Witness of `C17_composite_value_default` : two children with values 1
and 2, the second completing first; `await()` returns 0 and the value
continuation is called with 0. -/
theorem C17_composite_value_default_witness :
    (∃ r, await Ref.top [Env.finish 1, Env.dispose 1, Env.finish 0, Env.dispose 0]
          (run_pair ((1 : Nat), fun x (l : List Nat) => x :: l) [(2, fun x l => x :: l)]
            (World.init [])).2 = some r ∧ r.1 = 0)
      ∧ valueCalls Ref.top
          (runEnv [Env.finish 1, Env.dispose 1, Env.finish 0, Env.dispose 0]
            (then_ Ref.top (Fn.user (fun x l => x :: l))
              (run_pair ((1 : Nat), fun x (l : List Nat) => x :: l) [(2, fun x l => x :: l)]
                (World.init [])).2)).trace = [0] := by
  have h := C17_composite_value_default ((1 : Nat), fun x (l : List Nat) => x :: l)
    [(2, fun x l => x :: l)] [] (fun x l => x :: l)
    [Env.finish 1, Env.dispose 1, Env.finish 0, Env.dispose 0]
  have hc : Complete ([(2, fun x l => x :: l)] : List (Nat × (Nat → List Nat → List Nat))).length.succ
      [Env.finish 1, Env.dispose 1, Env.finish 0, Env.dispose 0] := by
    intro i hi
    simp only [List.length_cons, List.length_nil] at hi
    have : i = 0 ∨ i = 1 := by omega
    rcases this with rfl | rfl <;> decide
  exact ⟨h.2.2.1 hc, h.2.2.2.2 hc⟩

end QtTask
